import Mathlib

/-!
Shallow embedding of `src/muz_qe/hilbert_basis.cpp` (Hilbert basis computation,
Pottier-style saturation) and verification of its specification.

Conventions of the embedding:
* `numeral` (z3's arbitrary-precision rational) is embedded as arbitrary
  precision `Int`.  The engine manipulates numerals only through `+`, unary
  negation, `*`, comparisons and the sign tests, all of which `Int` provides
  with the same semantics; the inputs of every claim are integer vectors, and
  the engine produces only sums and products of inputs, so no non-integer
  value ever arises.  (`Rat` of this toolchain does not reduce inside the
  kernel, which would make the concrete evaluations below impossible.)
* The flat vector arena (`m_store`, offsets that are multiples of the number of
  variables) is modelled slot-wise: slot `k` of the Lean `m_store` list is the
  block starting at C++ offset `k * num_vars`, and `m_eval` is the parallel
  evaluation array.  Offsets in the embedding are slot indices.
* C++ in-place mutation becomes explicit state passing; `vector::push_back` /
  `pop_back` become append / `getLast`+`dropLast` on Lean lists.
* `u_map` (hash map) is modelled by an association list whose observable
  `find` / `insert` semantics (last insert wins) match the map.
* The binary heap of `heap.h` is not part of the repository snapshot under
  `src/`; its two operations used here (`find_le`, `erase_min`) are modelled
  from the spec, see the doc comments on `weight_map.find_le` and
  `heapEraseMin`.
* The `while` loop of `saturate` is embedded with explicit fuel; running out of
  fuel yields `none` (the C++ loop just keeps going).
* `m_cancel` is set only externally (single-threaded model), so it is a
  constant boolean during a run of `saturate`.
-/

abbrev numeral : Type := Int

/-! ## Small list helpers (positional get with default, membership lemmas) -/

/-- Concatenation of the image lists, used to flatten the nested
`for id in ids: for offs in offsets[id]` loops of the C++ code. -/
def catMaps (f : Nat → List Nat) : List Nat → List Nat
  | [] => []
  | i :: is => f i ++ catMaps f is

/-- Position of the first occurrence of `w`.  Models `m_r2u.find` of
`rational_heap`: `m_r2u` is maintained as the inverse of `m_u2r`, so the hash
lookup is the index of `w` in `m_u2r`. -/
def listIndexOf (w : numeral) : List numeral → Option Nat
  | [] => none
  | r :: rs => if r = w then some 0 else (listIndexOf w rs).map (· + 1)

/-! ## The working map `offset_refs_t` of `index::find`

`u_map<unsigned>` with `insert` (overwrite) and `find`.  Modelled by an
association list where `insert` conses and `find` takes the first match. -/

abbrev offset_refs : Type := List (Nat × Nat)

def refsInsert (refs : offset_refs) (o v : Nat) : offset_refs :=
  (o, v) :: refs

def refsFind (refs : offset_refs) (o : Nat) : Option Nat :=
  (refs.find? (fun p => p.1 == o)).map Prod.snd

/-! ## `hilbert_basis::weight_map` (together with its `rational_heap`)

The `rational_heap` is inlined: `u2r` is `m_u2r` (id to value), the inverse
map `m_r2u` is realised by `listIndexOf` on `u2r`, and `heapIds` is the set of
ids currently in the binary heap (only ids of non-negative values are
inserted, see `get_value`). -/

structure weight_map where
  u2r : List numeral
  heapIds : List Nat
  offsets : List (List Nat)
deriving DecidableEq

def weight_map.empty : weight_map := ⟨[], [], []⟩

/-- `weight_map::get_value`: declare the weight on first sight (inserting its
id into the heap only when the weight is non-negative) and return its id. -/
def weight_map.get_value (m : weight_map) (w : numeral) : Nat × weight_map :=
  match listIndexOf w m.u2r with
  | some val => (val, m)
  | none =>
    let val := m.u2r.length
    (val, { u2r := m.u2r ++ [w],
            heapIds := if 0 ≤ w then m.heapIds ++ [val] else m.heapIds,
            offsets := m.offsets ++ [[]] })

/-- Modelled from the spec: `heap::find_le` of `heap.h` (not under `src/`)
enumerates the ids currently in the heap whose key is at most the threshold;
its output order is unspecified.  The threshold is passed by value (the C++
code passes the id `val` of the value and compares against `m_u2r[val]`,
which is the same comparison). -/
def weight_map.find_le (m : weight_map) (w : numeral) : List Nat :=
  m.heapIds.filter (fun id => decide (m.u2r.getD id 0 ≤ w))

def weight_map.insert (m : weight_map) (idx : Nat) (w : numeral) : weight_map :=
  match m.get_value w with
  | (val, m') => { m' with offsets := m'.offsets.set val (m'.offsets.getD val [] ++ [idx]) }

def weight_map.remove (m : weight_map) (idx : Nat) (w : numeral) : weight_map :=
  match m.get_value w with
  | (val, m') => { m' with offsets := m'.offsets.set val ((m'.offsets.getD val []).erase idx) }

/-- The id list enumerated by the seed loop of `init_find`: for a positive
weight all heap ids with key at most `w`, otherwise just the id of `w`
itself; ids whose key is zero are skipped when `w` is positive. -/
def weight_map.seedIds (m : weight_map) (w : numeral) (val : Nat) : List Nat :=
  (if 0 < w then m.find_le w else [val]).filter
    (fun i => !(decide (m.u2r.getD i 0 = 0) && decide (0 < w)))

/-- The offsets enumerated (in order) by the seed loop of `init_find`. -/
def weight_map.seedOffsets (m : weight_map) (w : numeral) (val : Nat) : List Nat :=
  catMaps (fun i => m.offsets.getD i []) (m.seedIds w val)

/-- Body of the seed loop of `init_find`: record every offset other than the
candidate itself with round 0. -/
def initCollect (idx : Nat) (acc : Bool × Option Nat × offset_refs) (offs : Nat) :
    Bool × Option Nat × offset_refs :=
  if offs ≠ idx then (true, some offs, refsInsert acc.2.2 offs 0) else acc

/-- `weight_map::init_find`.  The nested loops over `m_le` and the per-id
offset lists are flattened into one fold over `seedOffsets` (same order, same
effect).  Returns `(found, found_idx, refs)` and the map (whose heap may have
declared the fresh weight `w`). -/
def weight_map.init_find (m : weight_map) (w : numeral) (idx : Nat) :
    (Bool × Option Nat × offset_refs) × weight_map :=
  match m.get_value w with
  | (val, m') =>
    ((m'.seedOffsets w val).foldl (initCollect idx) (false, none, []), m')

/-- The offsets enumerated (in order) by the loop of `update_find`. -/
def weight_map.leOffsets (m : weight_map) (w : numeral) : List Nat :=
  catMaps (fun i => m.offsets.getD i []) (m.find_le w)

/-- Body of the loop of `update_find`: bump an offset that is distinct from
the candidate and still at `round` to `round + 1`. -/
def updateCollect (idx round : Nat) (acc : Bool × Option Nat × offset_refs) (offs : Nat) :
    Bool × Option Nat × offset_refs :=
  if offs ≠ idx ∧ refsFind acc.2.2 offs = some round
  then (true, some offs, refsInsert acc.2.2 offs (round + 1)) else acc

/-- `weight_map::update_find`: bump the refs entry of every enumerated offset
that is still at `round` to `round + 1`; again one fold over the flattened
enumeration. -/
def weight_map.update_find (m : weight_map) (refs : offset_refs) (round : Nat)
    (w : numeral) (idx : Nat) : Bool × Option Nat × offset_refs :=
  (m.leOffsets w).foldl (updateCollect idx round) (false, none, refs)

/-! ## `hilbert_basis::index` -/

structure hb_index where
  values : List weight_map
  weight : weight_map
deriving DecidableEq

def hb_index.empty : hb_index := ⟨[], weight_map.empty⟩

def hb_index.init (ix : hb_index) (num_vars : Nat) : hb_index :=
  if ix.values.isEmpty then { ix with values := List.replicate num_vars weight_map.empty }
  else ix

def hb_index.insert (ix : hb_index) (idx : Nat) (vs : List numeral) (w : numeral) : hb_index :=
  { values := List.zipWith (fun m v => m.insert idx v) ix.values vs,
    weight := ix.weight.insert idx w }

def hb_index.remove (ix : hb_index) (idx : Nat) (vs : List numeral) (w : numeral) : hb_index :=
  { values := List.zipWith (fun m v => m.remove idx v) ix.values vs,
    weight := ix.weight.remove idx w }

/-- One coordinate round of `index::find` (the loop body of the
`for (i = 0; found && i < size; ++i)` loop). -/
def refineStep (vs : List numeral) (idx : Nat) (acc : Bool × Option Nat × offset_refs)
    (p : Nat × weight_map) : Bool × Option Nat × offset_refs :=
  if acc.1 then p.2.update_find acc.2.2 p.1 (vs.getD p.1 0) idx else acc

/-- `index::find`: seed from the evaluation map, then refine per coordinate
(the loop exits as soon as a round finds nothing).  Returns the found offset
(if any) and the index, whose evaluation map may have declared the fresh
evaluation value. -/
def hb_index.find (ix : hb_index) (vs : List numeral) (w : numeral) (idx : Nat) :
    Option Nat × hb_index :=
  match ix.weight.init_find w idx with
  | (r0, wm) =>
    let res := ix.values.enum.foldl (refineStep vs idx) r0
    ((if res.1 then res.2.1 else none), { ix with weight := wm })

def hb_index.reset (ix : hb_index) : hb_index :=
  { values := ix.values.map (fun _ => weight_map.empty), weight := weight_map.empty }

/-- All offsets present in some bucket of the map. -/
def weight_map.IndexedIn (m : weight_map) (o : Nat) : Prop :=
  ∃ l ∈ m.offsets, o ∈ l

instance (m : weight_map) (o : Nat) : Decidable (m.IndexedIn o) := by
  unfold weight_map.IndexedIn; infer_instance

/-! ## `hilbert_basis::passive` (priority queue of the not-yet-processed) -/

/-- Modelled from the spec: `heap::erase_min` of `heap.h` (not under `src/`)
removes and returns an id whose key (`weights`) is minimal among the heap
members; tie order is unspecified, the model takes the first minimum. -/
def heapEraseMin (weights : List numeral) (heap : List Nat) : Nat × List Nat :=
  match heap with
  | [] => (0, [])
  | h :: t =>
    let best := t.foldl
      (fun b x => if weights.getD x 0 < weights.getD b 0 then x else b) h
    (best, (h :: t).erase best)

structure hb_passive where
  m_passive : List (Option Nat)   -- `none` models `mk_invalid_offset()`
  m_weights : List numeral
  m_free_list : List Nat
  heap : List Nat                 -- ids currently in the binary heap
deriving DecidableEq

def hb_passive.empty : hb_passive := ⟨[], [], [], []⟩

/-- The offsets currently held by the passive queue (slots reachable from the
heap). -/
def hb_passive.offsetsIn (p : hb_passive) : List Nat :=
  p.heap.filterMap (fun id => p.m_passive.getD id none)

/-! ## `hilbert_basis` -/

inductive lbool where
  | l_false | l_undef | l_true
deriving DecidableEq

inductive sign_t where
  | pos | neg | zero
deriving DecidableEq

structure hilbert_basis where
  m_ineqs : List (List numeral)
  m_basis : List Nat
  m_store : List (List numeral)
  m_free_list : List Nat
  m_eval : List numeral
  m_active : List Nat
  m_passive : hb_passive
  m_zero : List Nat
  m_index : hb_index
  m_cancel : Bool
deriving DecidableEq

def hilbert_basis.empty : hilbert_basis :=
  ⟨[], [], [], [], [], [], hb_passive.empty, [], hb_index.empty, false⟩

def hilbert_basis.get_num_vars (hb : hilbert_basis) : Nat :=
  match hb.m_ineqs.getLast? with
  | none => 0
  | some v => v.length

def hilbert_basis.vec (hb : hilbert_basis) (o : Nat) : List numeral :=
  hb.m_store.getD o []

def hilbert_basis.evalOf (hb : hilbert_basis) (o : Nat) : numeral :=
  hb.m_eval.getD o 0

def hilbert_basis.reset (hb : hilbert_basis) : hilbert_basis :=
  { m_ineqs := [], m_basis := [], m_store := [], m_free_list := [], m_eval := [],
    m_active := [], m_passive := hb_passive.empty, m_zero := [],
    m_index := hb.m_index.reset, m_cancel := false }

/-- Modelled from the spec: `cancel()` (declared in the header, not under
`src/`) sets the cancellation flag. -/
def hilbert_basis.cancel (hb : hilbert_basis) : hilbert_basis :=
  { hb with m_cancel := true }

def hilbert_basis.add_ge (hb : hilbert_basis) (v : List numeral) : hilbert_basis :=
  let hb' := if hb.m_ineqs.isEmpty then { hb with m_index := hb.m_index.init v.length } else hb
  { hb' with m_ineqs := hb'.m_ineqs ++ [v] }

def hilbert_basis.add_le (hb : hilbert_basis) (v : List numeral) : hilbert_basis :=
  hb.add_ge (v.map (fun x => -x))

def hilbert_basis.add_eq (hb : hilbert_basis) (v : List numeral) : hilbert_basis :=
  (hb.add_le v).add_ge v

/-- `set_value` writes the `num_vars` entries of the slot. -/
def hilbert_basis.set_value (hb : hilbert_basis) (o : Nat) (v : List numeral) : hilbert_basis :=
  { hb with m_store := hb.m_store.set o v }

/-- `alloc_vector`: pop the back of the free list, or extend the arena by one
zero-initialised slot together with its parallel evaluation entry. -/
def hilbert_basis.alloc_vector (hb : hilbert_basis) : Nat × hilbert_basis :=
  match hb.m_free_list.getLast? with
  | none =>
    (hb.m_store.length,
     { hb with m_store := hb.m_store ++ [List.replicate hb.get_num_vars 0],
               m_eval := hb.m_eval ++ [0] })
  | some r => (r, { hb with m_free_list := hb.m_free_list.dropLast })

/-- Body of the `init_basis` loop: allocate a slot, write the `i`-th unit
vector into it and append it to the basis. -/
def hilbert_basis.init_basis_step (n : Nat) (st : hilbert_basis) (i : Nat) : hilbert_basis :=
  let w := (List.replicate n (0 : numeral)).set i 1
  match st.alloc_vector with
  | (idx, st1) =>
    let st2 := st1.set_value idx w
    { st2 with m_basis := st2.m_basis ++ [idx] }

def hilbert_basis.init_basis (hb : hilbert_basis) : hilbert_basis :=
  let n := hb.get_num_vars
  let hb0 := { hb with m_basis := ([] : List Nat), m_store := ([] : List (List numeral)),
                       m_eval := ([] : List numeral), m_free_list := ([] : List Nat) }
  (List.range n).foldl (hilbert_basis.init_basis_step n) hb0

/-- `hilbert_basis::eval(values, num_vector)`: the dot product of the first
`num_vars` entries. -/
def hilbert_basis.evalDot (n : Nat) (val ineq : List numeral) : numeral :=
  (List.range n).foldl (fun r i => r + val.getD i 0 * ineq.getD i 0) 0

def hilbert_basis.is_geq (n : Nat) (v w : List numeral) : Bool :=
  (List.range n).all (fun i => !(decide (v.getD i 0 < w.getD i 0)))

def hilbert_basis.get_sign (hb : hilbert_basis) (o : Nat) : sign_t :=
  if 0 < hb.evalOf o then sign_t.pos
  else if hb.evalOf o < 0 then sign_t.neg
  else sign_t.zero

def hilbert_basis.recycle (hb : hilbert_basis) (o : Nat) : hilbert_basis :=
  { hb with m_index := hb.m_index.remove o (hb.vec o) (hb.evalOf o),
            m_free_list := hb.m_free_list ++ [o] }

/-- `resolve(i, j, r)`: `vec[r] = vec[i] + vec[j]` coordinatewise and
`eval[r] = eval[i] + eval[j]`.  The C++ loop reads through pointers while
writing `r`; in every call of the engine `r` is freshly allocated and distinct
from `i` and `j`, which the pre-read transcription below matches. -/
def hilbert_basis.resolve (hb : hilbert_basis) (i j r : Nat) : hilbert_basis :=
  let u := (List.range hb.get_num_vars).map
    (fun k => (hb.vec i).getD k 0 + (hb.vec j).getD k 0)
  { hb with m_store := hb.m_store.set r u,
            m_eval := hb.m_eval.set r (hb.evalOf i + hb.evalOf j) }

/-- `passive::get_weight`: the L1 weight of the slot. -/
def hilbert_basis.passive_get_weight (hb : hilbert_basis) (o : Nat) : numeral :=
  (List.range hb.get_num_vars).foldl (fun w i => w + (hb.vec o).getD i 0) 0

def hilbert_basis.passive_insert (hb : hilbert_basis) (o : Nat) : hilbert_basis :=
  let p := hb.m_passive
  match p.m_free_list.getLast? with
  | none =>
    let v := p.m_passive.length
    { hb with m_passive :=
        { m_passive := p.m_passive ++ [some o],
          m_weights := p.m_weights ++ [hb.passive_get_weight o],
          m_free_list := p.m_free_list,
          heap := p.heap ++ [v] } }
  | some v =>
    { hb with m_passive :=
        { m_passive := p.m_passive.set v (some o),
          m_weights := p.m_weights.set v (hb.passive_get_weight o),
          m_free_list := p.m_free_list.dropLast,
          heap := p.heap ++ [v] } }

/-- `passive::pop`: erase the minimum-weight heap id, free-list the internal
slot and return the offset it held. -/
def hilbert_basis.passive_pop (hb : hilbert_basis) : Nat × hilbert_basis :=
  let p := hb.m_passive
  match heapEraseMin p.m_weights p.heap with
  | (val, heap') =>
    let result := (p.m_passive.getD val none).getD 0
    (result,
     { hb with m_passive :=
         { m_passive := p.m_passive.set val none,
           m_weights := p.m_weights,
           m_free_list := p.m_free_list ++ [val],
           heap := heap' } })

/-- `is_subsumed(offset)`: query the index; the index state is threaded
because `find` may declare the candidate's evaluation value in the
evaluation weight map. -/
def hilbert_basis.is_subsumed (hb : hilbert_basis) (o : Nat) : Bool × hilbert_basis :=
  match hb.m_index.find (hb.vec o) (hb.evalOf o) o with
  | (found, ix) => (found.isSome, { hb with m_index := ix })

/-- `add_goal`: insert into the index; a zero-evaluation vector goes to the
zero list unless subsumed, anything else goes to the passive queue. -/
def hilbert_basis.add_goal (hb : hilbert_basis) (o : Nat) : hilbert_basis :=
  let hb1 := { hb with m_index := hb.m_index.insert o (hb.vec o) (hb.evalOf o) }
  if hb1.evalOf o = 0 then
    match hb1.is_subsumed o with
    | (true, hb2) => hb2
    | (false, hb2) => { hb2 with m_zero := hb2.m_zero ++ [o] }
  else hb1.passive_insert o

/-- The two-offset subsumption predicate `is_subsumed(i, j)` (lines 648-663):
`i` is subsumed by `j`. -/
def hilbert_basis.is_subsumed_pair (hb : hilbert_basis) (i j : Nat) : Bool :=
  decide (i ≠ j) && decide (hb.evalOf j ≤ hb.evalOf i) &&
    (!(decide (hb.evalOf j < 0)) || decide (hb.evalOf i = hb.evalOf j)) &&
    hilbert_basis.is_geq hb.get_num_vars (hb.vec i) (hb.vec j)

/-- One iteration of the inner resolution loop of `saturate(ineq)`: if the
signs differ, allocate a slot, resolve into it and `add_goal` it. -/
def hilbert_basis.resolve_step (hb : hilbert_basis) (idx a : Nat) : hilbert_basis :=
  if hb.get_sign idx ≠ hb.get_sign a then
    match hb.alloc_vector with
    | (j, hb1) => (hb1.resolve idx a j).add_goal j
  else hb

/-- The whole resolution loop over the active list (which the loop itself
never modifies). -/
def hilbert_basis.resolve_all (hb : hilbert_basis) (idx : Nat) : hilbert_basis :=
  hb.m_active.foldl (fun st a => st.resolve_step idx a) hb

/-- The fold of `resolve_all` over an explicit list (the active list is not
modified by the loop, so `resolve_all` is this fold over the initial list). -/
def hilbert_basis.resolve_fold (idx : Nat) (l : List Nat) (hb : hilbert_basis) : hilbert_basis :=
  l.foldl (fun st a => st.resolve_step idx a) hb

/-- One iteration of the `while (!m_passive->empty())` loop: pop a minimal
candidate, recycle if subsumed, otherwise resolve against opposite-sign
actives and append to the active list. -/
def hilbert_basis.drainStep (hb : hilbert_basis) : hilbert_basis :=
  match hb.passive_pop with
  | (idx, hb1) =>
    match hb1.is_subsumed idx with
    | (true, hb2) => hb2.recycle idx
    | (false, hb2) =>
      let hb3 := hb2.resolve_all idx
      { hb3 with m_active := hb3.m_active ++ [idx] }

inductive drain_result where
  | cancelled (st : hilbert_basis)
  | drained (st : hilbert_basis)

/-- The passive-draining loop, with fuel (`none` = fuel ran out). -/
def hilbert_basis.drainLoop : Nat → hilbert_basis → Option drain_result
  | 0, _ => none
  | fuel + 1, hb =>
    if hb.m_passive.heap.isEmpty then some (drain_result.drained hb)
    else if hb.m_cancel then some (drain_result.cancelled hb)
    else hilbert_basis.drainLoop fuel hb.drainStep

/-- Body of the seeding loop of `saturate(ineq)`: store the evaluation of the
basis vector, `add_goal` it and accumulate `has_non_negative`. -/
def hilbert_basis.seed_step (ineq : List numeral) (acc : hilbert_basis × Bool) (v : Nat) :
    hilbert_basis × Bool :=
  let n := hilbert_basis.evalDot acc.1.get_num_vars (acc.1.vec v) ineq
  let st1 := { acc.1 with m_eval := acc.1.m_eval.set v n }
  (st1.add_goal v, acc.2 || decide (0 ≤ n))

/-- The seeding pass of `saturate(ineq)`: reset the per-round structures, then
for each basis vector store its evaluation and `add_goal` it, tracking whether
some evaluation is non-negative. -/
def hilbert_basis.seed_round (hb : hilbert_basis) (ineq : List numeral) :
    hilbert_basis × Bool :=
  let hb0 := { hb with m_active := ([] : List Nat), m_passive := hb_passive.empty,
                       m_zero := ([] : List Nat), m_index := hb.m_index.reset }
  hb0.m_basis.foldl (hilbert_basis.seed_step ineq) (hb0, false)

/-- Body of the finalisation loop: positive actives join the basis, the rest
join the free list. -/
def hilbert_basis.finalize_step (st : hilbert_basis) (idx : Nat) : hilbert_basis :=
  if 0 < st.evalOf idx then { st with m_basis := st.m_basis ++ [idx] }
  else { st with m_free_list := st.m_free_list ++ [idx] }

/-- The finalisation block of `saturate(ineq)` (lines 528-542): the new basis
is the zero list plus the positive actives; non-positive actives are pushed
onto the free list; the per-round structures are cleared. -/
def hilbert_basis.finalize (hb : hilbert_basis) : hilbert_basis :=
  let hb1 := { hb with m_basis := hb.m_zero }
  let hb2 := hb.m_active.foldl hilbert_basis.finalize_step hb1
  { hb2 with m_active := ([] : List Nat), m_passive := hb_passive.empty,
             m_zero := ([] : List Nat) }

/-- `saturate(num_vector const& ineq)`. -/
def hilbert_basis.saturate_ineq (fuel : Nat) (hb : hilbert_basis) (ineq : List numeral) :
    Option (lbool × hilbert_basis) :=
  match hb.seed_round ineq with
  | (hb1, has_non_negative) =>
    if !has_non_negative then some (lbool.l_false, hb1)
    else
      match hilbert_basis.drainLoop fuel hb1 with
      | none => none
      | some (drain_result.cancelled hb2) => some (lbool.l_undef, hb2)
      | some (drain_result.drained hb2) => some (lbool.l_true, hb2.finalize)

/-- The inequality loop of `saturate()`; `m_cancel` is checked before each
round and once more at the end (the flag is constant during the run, see the
module comment). -/
def hilbert_basis.saturateList (fuel : Nat) (hb : hilbert_basis) :
    List (List numeral) → Option (lbool × hilbert_basis)
  | [] => if hb.m_cancel then some (lbool.l_undef, hb) else some (lbool.l_true, hb)
  | ineq :: rest =>
    if hb.m_cancel then some (lbool.l_undef, hb)
    else
      match hilbert_basis.saturate_ineq fuel hb ineq with
      | none => none
      | some (lbool.l_true, hb') => hilbert_basis.saturateList fuel hb' rest
      | some (r, hb') => some (r, hb')

/-- `saturate()`. -/
def hilbert_basis.saturate (fuel : Nat) (hb : hilbert_basis) :
    Option (lbool × hilbert_basis) :=
  let hb0 := hb.init_basis
  hb0.saturateList fuel hb0.m_ineqs

/-! ## Well-formedness predicates relating the index to the arena -/

/-- Every offset stored in a bucket of the map carries the value of that
bucket under the view `f` (the arena coordinate, or the evaluation). -/
def weight_map.ConsistentWith (m : weight_map) (f : Nat → numeral) : Prop :=
  ∀ id < m.offsets.length, ∀ o ∈ m.offsets.getD id [], f o = m.u2r.getD id 0

/-- Structural invariant of a `weight_map` maintained by `get_value`:
declared values are distinct, buckets parallel the declarations, and the heap
holds exactly the ids of the non-negative declared values. -/
def weight_map.WF (m : weight_map) : Prop :=
  m.u2r.Nodup ∧ m.offsets.length = m.u2r.length ∧
  (∀ id ∈ m.heapIds, id < m.u2r.length ∧ 0 ≤ m.u2r.getD id 0) ∧
  (∀ id < m.u2r.length, 0 ≤ m.u2r.getD id 0 → id ∈ m.heapIds)

instance (m : weight_map) (f : Nat → numeral) : Decidable (m.ConsistentWith f) := by
  unfold weight_map.ConsistentWith; infer_instance

instance (m : weight_map) : Decidable m.WF := by
  unfold weight_map.WF; infer_instance

/-- The index agrees with the vector arena and the evaluation array. -/
def hb_index.Consistent (hb : hilbert_basis) (ix : hb_index) : Prop :=
  (ix.weight.ConsistentWith hb.evalOf ∧ ix.weight.WF) ∧
  ∀ p ∈ ix.values.enum, p.2.ConsistentWith (fun o => (hb.vec o).getD p.1 0) ∧ p.2.WF

instance (hb : hilbert_basis) (ix : hb_index) : Decidable (ix.Consistent hb) := by
  unfold hb_index.Consistent; infer_instance

/-- The stored weight of every queued slot is the L1 weight of the offset the
slot holds (established by `passive::insert`, which stores `get_weight`). -/
def hilbert_basis.PassiveWeightsOk (hb : hilbert_basis) : Prop :=
  ∀ id ∈ hb.m_passive.heap,
    hb.m_passive.m_passive.getD id none ≠ none ∧
    hb.m_passive.m_weights.getD id 0 =
      hb.passive_get_weight ((hb.m_passive.m_passive.getD id none).getD 0)

instance (hb : hilbert_basis) : Decidable hb.PassiveWeightsOk := by
  unfold hilbert_basis.PassiveWeightsOk; infer_instance

/-- Every vector of the arena is coordinatewise non-negative. -/
def hilbert_basis.StoreNonneg (hb : hilbert_basis) : Prop :=
  ∀ v ∈ hb.m_store, ∀ x ∈ v, 0 ≤ x

instance (hb : hilbert_basis) : Decidable hb.StoreNonneg := by
  unfold hilbert_basis.StoreNonneg; infer_instance

/-! ## Concrete states used by the end-to-end claims and the witnesses -/

/-- Scenario 2 of the spec: `n = 2`, `add_eq((1, -1))`. -/
def hbEq : hilbert_basis := hilbert_basis.empty.add_eq [1, -1]

/-- A two-variable engine with the single inequality `x0 - x1 >= 0`. -/
def hbGe : hilbert_basis := hilbert_basis.empty.add_ge [1, -1]

/-- A one-coordinate index holding offset 0 with coordinate value 1 and
evaluation 1 (consistent with the arena of `hbArena1`). -/
def exWM : weight_map := ⟨[1], [0], [[0]]⟩

def exIx : hb_index := ⟨[exWM], exWM⟩

/-- Arena for `exIx`: slot 0 holds the vector `(1)` with evaluation 1, the
candidate slot 1 holds `(2)` with evaluation 2. -/
def hbArena1 : hilbert_basis :=
  { hilbert_basis.empty with m_ineqs := [[1]], m_store := [[1], [2]], m_eval := [1, 2] }

/-- The run used by the witness of claim C10: cancel, reset, then one
inequality `x0 >= 0` and `saturate`. -/
def c10run : Option (lbool × hilbert_basis) :=
  ([[1]].foldl (fun st v => st.add_ge v) hilbert_basis.empty.cancel.reset).saturate 5

/-- The final state of `c10run`. -/
def c10st : hilbert_basis := (c10run.getD (lbool.l_undef, hilbert_basis.empty)).2

/-- Concrete passive-queue state used by the witness of claim C6: slot 0
holds offset 0 (vector `(2)`, weight 2), slot 1 holds offset 1 (vector `(1)`,
weight 1). -/
def c6hb : hilbert_basis :=
  { hilbert_basis.empty with
      m_ineqs := [[1]],
      m_store := [[2], [1]],
      m_eval := [2, 1],
      m_passive := ⟨[some 0, some 1], [2, 1], [], [0, 1]⟩ }

/-- The final state of the run `hbEq.saturate 10`, used by witnesses. -/
def c8st : hilbert_basis := ((hbEq.saturate 10).getD (lbool.l_undef, hilbert_basis.empty)).2

/-- The index state returned by the witness call of `index::find`. -/
def exIxOut : hb_index := (exIx.find [2] 2 1).2

/-- Concrete mid-drain state used by the witness of claim C5: slot 0
(evaluation 1) is active, slot 1 (evaluation -1) sits in the passive queue;
the index is still empty, so the popped slot 1 is not subsumed. -/
def c5st : hilbert_basis :=
  { m_ineqs := [[1]], m_basis := [], m_store := [[1], [1]], m_free_list := [],
    m_eval := [1, -1], m_active := [0],
    m_passive := { m_passive := [some 1], m_weights := [1], m_free_list := [],
                   heap := [0] },
    m_zero := [], m_index := hb_index.empty, m_cancel := false }

/-- The state after popping the passive queue of `c5st`. -/
def c5b1 : hilbert_basis := (c5st.passive_pop).2

/-- The state after the (negative) subsumption check of the popped slot. -/
def c5b2 : hilbert_basis := ((c5st.passive_pop).2.is_subsumed 1).2

/-- Auxiliary decidability: a property of the content of one option slot. -/
instance decidableOptionSome (s : Option Nat) (P : Nat → Prop) [DecidablePred P] :
    Decidable (∀ o, s = some o → P o) :=
  match s with
  | none => isTrue (fun _ h => nomatch h)
  | some a =>
    if h : P a then isTrue (fun _ ho => Option.some.inj ho ▸ h)
    else isFalse (fun hall => h (hall a rfl))

/-- Well-formedness of the passive priority queue, relative to the arena:
heap ids are distinct and point at filled internal slots, internal free-list
ids are distinct and point at emptied slots, no two slots hold the same
offset, and every queued offset is a live arena slot with nonzero evaluation
that is not active. -/
def hilbert_basis.PQWF (hb : hilbert_basis) : Prop :=
  hb.m_passive.heap.Nodup ∧
  (∀ id ∈ hb.m_passive.heap, id < hb.m_passive.m_passive.length ∧
    (hb.m_passive.m_passive.getD id none).isSome = true) ∧
  hb.m_passive.m_free_list.Nodup ∧
  (∀ v ∈ hb.m_passive.m_free_list, v < hb.m_passive.m_passive.length ∧
    hb.m_passive.m_passive.getD v none = none) ∧
  (∀ i, i < hb.m_passive.m_passive.length → ∀ j, j < hb.m_passive.m_passive.length →
    ∀ o, hb.m_passive.m_passive.getD i none = some o →
      hb.m_passive.m_passive.getD j none = some o → i = j) ∧
  (∀ i, i < hb.m_passive.m_passive.length →
    ∀ o, hb.m_passive.m_passive.getD i none = some o →
      o < hb.m_store.length ∧ o ∉ hb.m_free_list ∧ hb.evalOf o ≠ 0 ∧ o ∉ hb.m_active)

instance (hb : hilbert_basis) : Decidable (hb.PQWF) := by
  unfold hilbert_basis.PQWF
  infer_instance

/-- The drain-loop invariant of claim C9: a well-formed arena (evaluation and
store of equal length, distinct and in-range free slots), every active offset
live, outside the free list and of nonzero evaluation, and a well-formed
passive queue. -/
def hilbert_basis.Inv9 (hb : hilbert_basis) : Prop :=
  hb.m_eval.length = hb.m_store.length ∧
  hb.m_free_list.Nodup ∧
  (∀ x ∈ hb.m_free_list, x < hb.m_store.length) ∧
  (∀ a ∈ hb.m_active, a < hb.m_store.length ∧ a ∉ hb.m_free_list ∧ hb.evalOf a ≠ 0) ∧
  hb.PQWF

instance (hb : hilbert_basis) : Decidable (hb.Inv9) := by
  unfold hilbert_basis.Inv9
  infer_instance

/-! ## Helper lemmas -/

theorem getD_set_self {α : Type} (l : List α) (i : Nat) (x d : α) (h : i < l.length) :
    (l.set i x).getD i d = x := by
  induction l generalizing i with
  | nil => simp at h
  | cons a t ih =>
    cases i with
    | zero => rfl
    | succ j => simpa using ih j (by simpa using h)

theorem getD_set_other {α : Type} (l : List α) (i j : Nat) (x d : α) (h : i ≠ j) :
    (l.set i x).getD j d = l.getD j d := by
  induction l generalizing i j with
  | nil => simp [List.set]
  | cons a t ih =>
    cases i with
    | zero =>
      cases j with
      | zero => exact absurd rfl h
      | succ j' => rfl
    | succ i' =>
      cases j with
      | zero => rfl
      | succ j' => simpa using ih i' j' (by omega)

theorem getD_append_left {α : Type} (l t : List α) (i : Nat) (d : α) (h : i < l.length) :
    (l ++ t).getD i d = l.getD i d := by
  induction l generalizing i with
  | nil => simp at h
  | cons a l' ih =>
    cases i with
    | zero => rfl
    | succ j => simpa using ih j (by simpa using h)

theorem getD_mem {α : Type} (l : List α) (i : Nat) (d : α) (h : i < l.length) :
    l.getD i d ∈ l := by
  induction l generalizing i with
  | nil => simp at h
  | cons a t ih =>
    cases i with
    | zero => simp
    | succ j => exact List.mem_cons_of_mem _ (ih j (by simpa using h))

theorem getD_of_ge {α : Type} (l : List α) (i : Nat) (d : α) (h : l.length ≤ i) :
    l.getD i d = d := by
  induction l generalizing i with
  | nil => cases i <;> rfl
  | cons a t ih =>
    cases i with
    | zero => simp at h
    | succ j => simpa using ih j (by simpa using h)

theorem mem_of_mem_set {α : Type} (l : List α) (i : Nat) (x y : α) :
    y ∈ l.set i x → y = x ∨ y ∈ l := by
  induction l generalizing i with
  | nil => intro h; simp [List.set] at h
  | cons a t ih =>
    cases i with
    | zero => intro h; rcases List.mem_cons.1 h with h | h
              · exact Or.inl h
              · exact Or.inr (List.mem_cons_of_mem _ h)
    | succ j =>
      intro h
      rcases List.mem_cons.1 h with h | h
      · exact Or.inr (h ▸ List.mem_cons_self _ _)
      · rcases ih j h with h | h
        · exact Or.inl h
        · exact Or.inr (List.mem_cons_of_mem _ h)

theorem mem_catMaps (f : Nat → List Nat) (l : List Nat) (o : Nat) :
    o ∈ catMaps f l ↔ ∃ i ∈ l, o ∈ f i := by
  induction l with
  | nil => simp [catMaps]
  | cons a t ih =>
    simp only [catMaps, List.mem_append, ih, List.mem_cons]
    constructor
    · rintro (h | ⟨i, hi, ho⟩)
      · exact ⟨a, Or.inl rfl, h⟩
      · exact ⟨i, Or.inr hi, ho⟩
    · rintro ⟨i, hi | hi, ho⟩
      · exact Or.inl (hi ▸ ho)
      · exact Or.inr ⟨i, hi, ho⟩

theorem listIndexOf_lt_length (w : numeral) (l : List numeral) (i : Nat) :
    listIndexOf w l = some i → i < l.length := by
  induction l generalizing i with
  | nil => intro h; simp [listIndexOf] at h
  | cons r rs ih =>
    intro h
    by_cases hr : r = w
    · simp only [listIndexOf, if_pos hr, Option.some.injEq] at h
      subst h
      simp
    · simp only [listIndexOf, if_neg hr, Option.map_eq_some'] at h
      obtain ⟨j, hj, rfl⟩ := h
      have := ih j hj
      simp only [List.length_cons]
      omega

theorem listIndexOf_getD (w : numeral) (l : List numeral) (i : Nat) (d : numeral) :
    listIndexOf w l = some i → l.getD i d = w := by
  induction l generalizing i with
  | nil => intro h; simp [listIndexOf] at h
  | cons r rs ih =>
    intro h
    by_cases hr : r = w
    · simp [listIndexOf, hr] at h
      subst h; simpa using hr
    · simp only [listIndexOf, if_neg hr, Option.map_eq_some'] at h
      obtain ⟨j, hj, rfl⟩ := h
      simpa using ih j hj

theorem listIndexOf_none (w : numeral) (l : List numeral) :
    listIndexOf w l = none → w ∉ l := by
  induction l with
  | nil => intro _ h; simp at h
  | cons r rs ih =>
    intro h hw
    by_cases hr : r = w
    · simp [listIndexOf, hr] at h
    · simp only [listIndexOf, if_neg hr, Option.map_eq_none'] at h
      rcases List.mem_cons.1 hw with hw | hw
      · exact hr hw.symm
      · exact ih h hw

theorem listIndexOf_of_mem (w : numeral) (l : List numeral) :
    w ∈ l → ∃ i, listIndexOf w l = some i := by
  intro hw
  cases h : listIndexOf w l with
  | none => exact absurd hw (listIndexOf_none w l h)
  | some i => exact ⟨i, rfl⟩

theorem refsFind_insert_self (refs : offset_refs) (o v : Nat) :
    refsFind (refsInsert refs o v) o = some v := by
  simp [refsFind, refsInsert, List.find?]

theorem refsFind_insert_other (refs : offset_refs) (o v o' : Nat) (h : o' ≠ o) :
    refsFind (refsInsert refs o v) o' = refsFind refs o' := by
  have : ((o, v).1 == o') = false := by simpa using fun he => h he.symm
  simp [refsFind, refsInsert, List.find?, this]

/-! ## Field-preservation lemmas for the engine operations -/

theorem alloc_vector_cancel (hb : hilbert_basis) :
    (hb.alloc_vector).2.m_cancel = hb.m_cancel := by
  unfold hilbert_basis.alloc_vector
  cases hb.m_free_list.getLast? <;> rfl

theorem passive_insert_cancel (hb : hilbert_basis) (o : Nat) :
    (hb.passive_insert o).m_cancel = hb.m_cancel := by
  simp only [hilbert_basis.passive_insert]
  cases hb.m_passive.m_free_list.getLast? <;> rfl

theorem passive_pop_cancel (hb : hilbert_basis) :
    (hb.passive_pop).2.m_cancel = hb.m_cancel := rfl

theorem is_subsumed_cancel (hb : hilbert_basis) (o : Nat) :
    (hb.is_subsumed o).2.m_cancel = hb.m_cancel := rfl

theorem add_goal_cancel (hb : hilbert_basis) (o : Nat) :
    (hb.add_goal o).m_cancel = hb.m_cancel := by
  unfold hilbert_basis.add_goal
  set hb1 : hilbert_basis :=
    { hb with m_index := hb.m_index.insert o (hb.vec o) (hb.evalOf o) } with hdef
  by_cases h : hb1.evalOf o = 0
  · simp only [if_pos h]
    cases hx : hb1.is_subsumed o with
    | mk b st =>
      have hc : st.m_cancel = hb1.m_cancel := by
        rw [← is_subsumed_cancel hb1 o, hx]
      cases b <;> simpa using hc
  · simp only [if_neg h]
    rw [passive_insert_cancel]

theorem resolve_cancel (hb : hilbert_basis) (i j r : Nat) :
    (hb.resolve i j r).m_cancel = hb.m_cancel := rfl

theorem recycle_cancel (hb : hilbert_basis) (o : Nat) :
    (hb.recycle o).m_cancel = hb.m_cancel := rfl

theorem resolve_step_cancel (hb : hilbert_basis) (idx a : Nat) :
    (hb.resolve_step idx a).m_cancel = hb.m_cancel := by
  unfold hilbert_basis.resolve_step
  by_cases h : hb.get_sign idx ≠ hb.get_sign a
  · simp only [if_pos h]
    cases hx : hb.alloc_vector with
    | mk j st =>
      have h1 : st.m_cancel = hb.m_cancel := by
        rw [← alloc_vector_cancel hb, hx]
      rw [add_goal_cancel, resolve_cancel, h1]
  · simp only [if_neg h]

theorem resolve_fold_cancel (idx : Nat) (l : List Nat) (hb : hilbert_basis) :
    (hilbert_basis.resolve_fold idx l hb).m_cancel = hb.m_cancel := by
  induction l generalizing hb with
  | nil => rfl
  | cons a t ih =>
    show (hilbert_basis.resolve_fold idx t (hb.resolve_step idx a)).m_cancel = hb.m_cancel
    rw [ih, resolve_step_cancel]

theorem resolve_all_cancel (hb : hilbert_basis) (idx : Nat) :
    (hb.resolve_all idx).m_cancel = hb.m_cancel := by
  exact resolve_fold_cancel idx hb.m_active hb

theorem drainStep_cancel (hb : hilbert_basis) :
    (hb.drainStep).m_cancel = hb.m_cancel := by
  unfold hilbert_basis.drainStep
  cases hp : hb.passive_pop with
  | mk idx hb1 =>
    have h1 : hb1.m_cancel = hb.m_cancel := by
      rw [← passive_pop_cancel hb, hp]
    simp only
    cases hs : hb1.is_subsumed idx with
    | mk b hb2 =>
      have h2 : hb2.m_cancel = hb1.m_cancel := by
        rw [← is_subsumed_cancel hb1 idx, hs]
      cases b
      · show (hb2.resolve_all idx).m_cancel = hb.m_cancel
        rw [resolve_all_cancel, h2, h1]
      · show (hb2.recycle idx).m_cancel = hb.m_cancel
        rw [recycle_cancel, h2, h1]

theorem drainLoop_state_cancel (fuel : Nat) (hb st : hilbert_basis) :
    (hilbert_basis.drainLoop fuel hb = some (drain_result.drained st) →
      st.m_cancel = hb.m_cancel) ∧
    (hilbert_basis.drainLoop fuel hb = some (drain_result.cancelled st) →
      st.m_cancel = hb.m_cancel) := by
  induction fuel generalizing hb with
  | zero =>
    exact ⟨fun h => by simp [hilbert_basis.drainLoop] at h,
           fun h => by simp [hilbert_basis.drainLoop] at h⟩
  | succ n ih =>
    constructor <;> intro h
    · by_cases he : hb.m_passive.heap.isEmpty
      · simp [hilbert_basis.drainLoop, he] at h
        rw [← h]
      · by_cases hc : hb.m_cancel
        · simp [hilbert_basis.drainLoop, he, hc] at h
        · simp [hilbert_basis.drainLoop, he, hc] at h
          rw [(ih hb.drainStep).1 h, drainStep_cancel]
    · by_cases he : hb.m_passive.heap.isEmpty
      · simp [hilbert_basis.drainLoop, he] at h
      · by_cases hc : hb.m_cancel
        · simp [hilbert_basis.drainLoop, he, hc] at h
          rw [← h]
        · simp [hilbert_basis.drainLoop, he, hc] at h
          rw [(ih hb.drainStep).2 h, drainStep_cancel]

theorem drainLoop_no_cancel (fuel : Nat) (hb : hilbert_basis) (h : hb.m_cancel = false) :
    ∀ st, hilbert_basis.drainLoop fuel hb ≠ some (drain_result.cancelled st) := by
  induction fuel generalizing hb with
  | zero => intro st hx; simp [hilbert_basis.drainLoop] at hx
  | succ n ih =>
    intro st hx
    by_cases he : hb.m_passive.heap.isEmpty
    · simp [hilbert_basis.drainLoop, he] at hx
    · simp [hilbert_basis.drainLoop, he, h] at hx
      exact ih hb.drainStep (by rw [drainStep_cancel]; exact h) st hx

theorem seed_fold_cancel (ineq : List numeral) (l : List Nat) (acc : hilbert_basis × Bool) :
    (l.foldl (hilbert_basis.seed_step ineq) acc).1.m_cancel = acc.1.m_cancel := by
  induction l generalizing acc with
  | nil => rfl
  | cons v t ih =>
    simp only [List.foldl_cons]
    rw [ih]
    exact add_goal_cancel _ v

theorem seed_round_cancel (hb : hilbert_basis) (ineq : List numeral) :
    (hb.seed_round ineq).1.m_cancel = hb.m_cancel := by
  unfold hilbert_basis.seed_round
  rw [seed_fold_cancel]

theorem finalize_fold (l : List Nat) (s : hilbert_basis) :
    (l.foldl hilbert_basis.finalize_step s).m_basis =
        s.m_basis ++ l.filter (fun a => decide (0 < s.evalOf a)) ∧
    (l.foldl hilbert_basis.finalize_step s).m_free_list =
        s.m_free_list ++ l.filter (fun a => !decide (0 < s.evalOf a)) ∧
    (l.foldl hilbert_basis.finalize_step s).m_index = s.m_index ∧
    (l.foldl hilbert_basis.finalize_step s).m_eval = s.m_eval ∧
    (l.foldl hilbert_basis.finalize_step s).m_store = s.m_store ∧
    (l.foldl hilbert_basis.finalize_step s).m_cancel = s.m_cancel ∧
    (l.foldl hilbert_basis.finalize_step s).m_ineqs = s.m_ineqs := by
  induction l generalizing s with
  | nil => simp
  | cons a t ih =>
    simp only [List.foldl_cons]
    by_cases h : 0 < s.evalOf a
    · have hstep : hilbert_basis.finalize_step s a =
          { s with m_basis := s.m_basis ++ [a] } := by
        simp [hilbert_basis.finalize_step, h]
      rw [hstep]
      obtain ⟨b1, f1, i1, e1, st1, c1, q1⟩ := ih { s with m_basis := s.m_basis ++ [a] }
      have b1' : (List.foldl hilbert_basis.finalize_step
            { s with m_basis := s.m_basis ++ [a] } t).m_basis =
          (s.m_basis ++ [a]) ++ t.filter (fun x => decide (0 < s.evalOf x)) := b1
      have f1' : (List.foldl hilbert_basis.finalize_step
            { s with m_basis := s.m_basis ++ [a] } t).m_free_list =
          s.m_free_list ++ t.filter (fun x => !decide (0 < s.evalOf x)) := f1
      refine ⟨?_, ?_, i1, e1, st1, c1, q1⟩
      · rw [b1', List.filter_cons]
        simp [h]
      · rw [f1', List.filter_cons]
        simp [h]
    · have hstep : hilbert_basis.finalize_step s a =
          { s with m_free_list := s.m_free_list ++ [a] } := by
        simp [hilbert_basis.finalize_step, h]
      rw [hstep]
      obtain ⟨b1, f1, i1, e1, st1, c1, q1⟩ := ih { s with m_free_list := s.m_free_list ++ [a] }
      have b1' : (List.foldl hilbert_basis.finalize_step
            { s with m_free_list := s.m_free_list ++ [a] } t).m_basis =
          s.m_basis ++ t.filter (fun x => decide (0 < s.evalOf x)) := b1
      have f1' : (List.foldl hilbert_basis.finalize_step
            { s with m_free_list := s.m_free_list ++ [a] } t).m_free_list =
          (s.m_free_list ++ [a]) ++ t.filter (fun x => !decide (0 < s.evalOf x)) := f1
      refine ⟨?_, ?_, i1, e1, st1, c1, q1⟩
      · rw [b1', List.filter_cons]
        simp [h]
      · rw [f1', List.filter_cons]
        simp [h]

theorem finalize_cancel (hb : hilbert_basis) :
    hb.finalize.m_cancel = hb.m_cancel := by
  unfold hilbert_basis.finalize
  show (hb.m_active.foldl hilbert_basis.finalize_step
      { hb with m_basis := hb.m_zero }).m_cancel = hb.m_cancel
  exact (finalize_fold hb.m_active _).2.2.2.2.2.1

theorem saturate_ineq_cancel (fuel : Nat) (hb : hilbert_basis) (ineq : List numeral)
    (r : lbool) (st' : hilbert_basis) :
    hb.saturate_ineq fuel ineq = some (r, st') → st'.m_cancel = hb.m_cancel := by
  intro h
  unfold hilbert_basis.saturate_ineq at h
  cases hs : hb.seed_round ineq with
  | mk hb1 hnn =>
    rw [hs] at h
    have hc1 : hb1.m_cancel = hb.m_cancel := by
      have h' := seed_round_cancel hb ineq
      rw [hs] at h'
      exact h'
    cases hnn with
    | false =>
      have h' : (some (lbool.l_false, hb1) : Option (lbool × hilbert_basis)) =
          some (r, st') := h
      obtain ⟨-, h2⟩ := Prod.mk.injEq .. ▸ Option.some.inj h'
      rw [← h2, hc1]
    | true =>
      have h' : (match hilbert_basis.drainLoop fuel hb1 with
          | none => none
          | some (drain_result.cancelled hb2) => some (lbool.l_undef, hb2)
          | some (drain_result.drained hb2) => some (lbool.l_true, hb2.finalize)) =
          some (r, st') := h
      cases hd : hilbert_basis.drainLoop fuel hb1 with
      | none => rw [hd] at h'; exact absurd h' (by simp)
      | some res =>
        rw [hd] at h'
        cases res with
        | cancelled hb2 =>
          obtain ⟨-, h2⟩ := Prod.mk.injEq .. ▸ Option.some.inj h'
          rw [← h2, (drainLoop_state_cancel fuel hb1 hb2).2 hd, hc1]
        | drained hb2 =>
          obtain ⟨-, h2⟩ := Prod.mk.injEq .. ▸ Option.some.inj h'
          rw [← h2, finalize_cancel, (drainLoop_state_cancel fuel hb1 hb2).1 hd, hc1]

theorem saturate_ineq_not_undef (fuel : Nat) (hb : hilbert_basis) (ineq : List numeral)
    (r : lbool) (st' : hilbert_basis) (hc : hb.m_cancel = false) :
    hb.saturate_ineq fuel ineq = some (r, st') → r ≠ lbool.l_undef := by
  intro h
  unfold hilbert_basis.saturate_ineq at h
  cases hs : hb.seed_round ineq with
  | mk hb1 hnn =>
    rw [hs] at h
    have hc1 : hb1.m_cancel = false := by
      have h' := seed_round_cancel hb ineq
      rw [hs] at h'
      exact h'.trans hc
    cases hnn with
    | false =>
      have h' : (some (lbool.l_false, hb1) : Option (lbool × hilbert_basis)) =
          some (r, st') := h
      obtain ⟨h1, -⟩ := Prod.mk.injEq .. ▸ Option.some.inj h'
      rw [← h1]
      simp
    | true =>
      have h' : (match hilbert_basis.drainLoop fuel hb1 with
          | none => none
          | some (drain_result.cancelled hb2) => some (lbool.l_undef, hb2)
          | some (drain_result.drained hb2) => some (lbool.l_true, hb2.finalize)) =
          some (r, st') := h
      cases hd : hilbert_basis.drainLoop fuel hb1 with
      | none => rw [hd] at h'; exact absurd h' (by simp)
      | some res =>
        rw [hd] at h'
        cases res with
        | cancelled hb2 => exact absurd hd (drainLoop_no_cancel fuel hb1 hc1 hb2)
        | drained hb2 =>
          obtain ⟨h1, -⟩ := Prod.mk.injEq .. ▸ Option.some.inj h'
          rw [← h1]
          simp

theorem init_basis_step_cancel (n : Nat) (s : hilbert_basis) (i : Nat) :
    (hilbert_basis.init_basis_step n s i).m_cancel = s.m_cancel := by
  unfold hilbert_basis.init_basis_step
  cases hx : s.alloc_vector with
  | mk idx st1 =>
    have h1 : st1.m_cancel = s.m_cancel := by
      rw [← alloc_vector_cancel s, hx]
    simpa [hilbert_basis.set_value] using h1

theorem init_basis_cancel (hb : hilbert_basis) :
    hb.init_basis.m_cancel = hb.m_cancel := by
  unfold hilbert_basis.init_basis
  generalize (List.range hb.get_num_vars) = l
  have hgen : ∀ (l' : List Nat) (s : hilbert_basis),
      (l'.foldl (hilbert_basis.init_basis_step hb.get_num_vars) s).m_cancel = s.m_cancel := by
    intro l'
    induction l' with
    | nil => intro s; rfl
    | cons i t ih =>
      intro s
      simp only [List.foldl_cons]
      rw [ih, init_basis_step_cancel]
  rw [hgen]

theorem saturateList_not_undef (fuel : Nat) (l : List (List numeral)) (hb : hilbert_basis)
    (hc : hb.m_cancel = false) (r : lbool) (st' : hilbert_basis) :
    hilbert_basis.saturateList fuel hb l = some (r, st') → r ≠ lbool.l_undef := by
  induction l generalizing hb with
  | nil =>
    intro h
    unfold hilbert_basis.saturateList at h
    rw [hc] at h
    simp at h
    rw [← h.1]
    simp
  | cons ineq rest ih =>
    intro h
    unfold hilbert_basis.saturateList at h
    rw [hc, if_neg (show ¬(false = true) by simp)] at h
    cases hsi : hb.saturate_ineq fuel ineq with
    | none => rw [hsi] at h; simp at h
    | some p =>
      rw [hsi] at h
      cases p with
      | mk r' hb' =>
        have hc' : hb'.m_cancel = false :=
          (saturate_ineq_cancel fuel hb ineq r' hb' hsi).trans hc
        cases r' with
        | l_true => exact ih hb' hc' h
        | l_false =>
          simp at h
          rw [← h.1]
          simp
        | l_undef =>
          exact absurd rfl (saturate_ineq_not_undef fuel hb ineq lbool.l_undef hb' hc hsi)

/-! ## Claim theorems -/

/-- Claim C7: with `n = 2`, after `add_eq((1, -1))`, `saturate()` returns
`Sat` and the computed basis consists of exactly one vector, `(1, 1)`. -/
theorem hbEq_saturate_sat_basis :
    (hbEq.saturate 10).map (fun p => (p.1, p.2.m_basis.map (fun o => p.2.vec o))) =
      some (lbool.l_true, [[1, 1]]) := by decide

/-- Claim C2, counterexample: a full saturation round of `hbGe` (one
inequality `x0 - x1 >= 0`) finishes with offset 1 (the active vector `(0,1)`
with evaluation `-1`) pushed onto the free list, yet its entries are still
present in the subsumption index: the finalisation block of `saturate(ineq)`
pushes non-positive actives onto the free list without removing them from the
index, contradicting the claim that they are recycled (= removed from the
index and free-listed). -/
theorem finalize_keeps_index_entries_cex :
    (hbGe.saturate 10).map (fun p => p.1) = some lbool.l_true ∧
    (hbGe.saturate 10).map (fun p => p.2.evalOf 1) = some (-1) ∧
    (hbGe.saturate 10).map (fun p => decide (1 ∈ p.2.m_free_list)) = some true ∧
    (hbGe.saturate 10).map (fun p => decide (p.2.m_index.weight.IndexedIn 1)) = some true := by
  refine ⟨by decide, by decide, by decide, by decide⟩

/-- Claim C2 (amended): after the passive queue drains, the new basis is
`Z ++ { a in A | eval(a) > 0 }` and every other active vector is pushed onto
the free list; the finalisation does NOT remove them from the index (the
index is only cleared wholesale at the start of the next round). -/
theorem finalize_sets_basis_and_free_list (st : hilbert_basis) :
    st.finalize.m_basis =
        st.m_zero ++ st.m_active.filter (fun a => decide (0 < st.evalOf a)) ∧
    st.finalize.m_free_list =
        st.m_free_list ++ st.m_active.filter (fun a => !decide (0 < st.evalOf a)) ∧
    st.finalize.m_index = st.m_index := by
  unfold hilbert_basis.finalize
  obtain ⟨b1, f1, i1, -, -, -, -⟩ :=
    finalize_fold st.m_active { st with m_basis := st.m_zero }
  have b1' : (List.foldl hilbert_basis.finalize_step { st with m_basis := st.m_zero }
        st.m_active).m_basis =
      st.m_zero ++ st.m_active.filter (fun x => decide (0 < st.evalOf x)) := b1
  have f1' : (List.foldl hilbert_basis.finalize_step { st with m_basis := st.m_zero }
        st.m_active).m_free_list =
      st.m_free_list ++ st.m_active.filter (fun x => !decide (0 < st.evalOf x)) := f1
  exact ⟨b1', f1', i1⟩

theorem add_ge_cancel (hb : hilbert_basis) (v : List numeral) :
    (hb.add_ge v).m_cancel = hb.m_cancel := by
  unfold hilbert_basis.add_ge
  by_cases h : hb.m_ineqs.isEmpty <;> simp [h]

theorem foldl_add_ge_cancel (vs : List (List numeral)) (hb : hilbert_basis) :
    (vs.foldl (fun st v => st.add_ge v) hb).m_cancel = hb.m_cancel := by
  induction vs generalizing hb with
  | nil => rfl
  | cons v t ih =>
    simp only [List.foldl_cons]
    rw [ih, add_ge_cancel]

/-- Claim C10: `reset()` clears the cancellation flag in addition to the rest
of the engine state: after `cancel(); reset()` followed by any sequence of
`add_ge` and a `saturate()` that completes, the result is never `Cancelled`
on account of the earlier `cancel()`. -/
theorem reset_clears_cancel_and_saturate_runs :
    (∀ hb : hilbert_basis, hb.cancel.reset.m_cancel = false) ∧
    (∀ (hb : hilbert_basis) (vs : List (List numeral)) (fuel : Nat) (r : lbool)
        (st' : hilbert_basis),
      (vs.foldl (fun st v => st.add_ge v) hb.cancel.reset).saturate fuel = some (r, st') →
      r ≠ lbool.l_undef) := by
  refine ⟨fun hb => rfl, fun hb vs fuel r st' h => ?_⟩
  have hc : (vs.foldl (fun st v => st.add_ge v) hb.cancel.reset).m_cancel = false := by
    rw [foldl_add_ge_cancel]
    rfl
  unfold hilbert_basis.saturate at h
  exact saturateList_not_undef fuel _ _ (by rw [init_basis_cancel]; exact hc) r st' h

/-- Witness for claim C10 at the concrete run `c10run`. -/
theorem reset_clears_cancel_witness : lbool.l_true ≠ lbool.l_undef :=
  reset_clears_cancel_and_saturate_runs.2 hilbert_basis.empty [[1]] 5 lbool.l_true c10st
    (by decide)

theorem foldl_min_spec (weights : List numeral) (t : List Nat) (h : Nat) :
    (t.foldl (fun b x => if weights.getD x 0 < weights.getD b 0 then x else b) h ∈ h :: t) ∧
    ∀ x ∈ h :: t,
      weights.getD (t.foldl (fun b x => if weights.getD x 0 < weights.getD b 0 then x else b) h) 0
        ≤ weights.getD x 0 := by
  induction t generalizing h with
  | nil =>
    constructor
    · simp
    · intro x hx
      simp only [List.mem_singleton] at hx
      subst hx
      simp
  | cons y t' ih =>
    simp only [List.foldl_cons]
    obtain ⟨hm, hmin⟩ := ih (if weights.getD y 0 < weights.getD h 0 then y else h)
    have hbh : weights.getD (if weights.getD y 0 < weights.getD h 0 then y else h) 0 ≤
        weights.getD h 0 := by
      by_cases hy : weights.getD y 0 < weights.getD h 0
      · rw [if_pos hy]; exact le_of_lt hy
      · rw [if_neg hy]
    have hby : weights.getD (if weights.getD y 0 < weights.getD h 0 then y else h) 0 ≤
        weights.getD y 0 := by
      by_cases hy : weights.getD y 0 < weights.getD h 0
      · rw [if_pos hy]
      · rw [if_neg hy]; exact le_of_not_lt hy
    constructor
    · rcases List.mem_cons.1 hm with hm | hm
      · by_cases hy : weights.getD y 0 < weights.getD h 0
        · rw [if_pos hy] at hm ⊢
          rw [hm]
          exact List.mem_cons_of_mem _ (List.mem_cons_self _ _)
        · rw [if_neg hy] at hm ⊢
          rw [hm]
          exact List.mem_cons_self _ _
      · exact List.mem_cons_of_mem _ (List.mem_cons_of_mem _ hm)
    · intro x hx
      rcases List.mem_cons.1 hx with hx | hx
      · subst hx
        exact le_trans (hmin _ (List.mem_cons_self _ _)) hbh
      · rcases List.mem_cons.1 hx with hx | hx
        · subst hx
          exact le_trans (hmin _ (List.mem_cons_self _ _)) hby
        · exact hmin x (List.mem_cons_of_mem _ hx)

theorem heapEraseMin_spec (weights : List numeral) (heap : List Nat) (hne : heap ≠ []) :
    (heapEraseMin weights heap).1 ∈ heap ∧
    ∀ x ∈ heap, weights.getD (heapEraseMin weights heap).1 0 ≤ weights.getD x 0 := by
  cases heap with
  | nil => exact absurd rfl hne
  | cons h t =>
    obtain ⟨hm, hmin⟩ := foldl_min_spec weights t h
    exact ⟨hm, hmin⟩

/-- Claim C6: for every non-empty passive queue whose stored weights agree
with the L1 weights of the queued offsets (the invariant `insert`
establishes), `pop()` returns an offset whose L1 weight (the coordinate sum
computed by `passive::get_weight`) is minimal among all offsets currently in
the queue. -/
theorem passive_pop_min_weight (hb : hilbert_basis)
    (hok : hb.PassiveWeightsOk) (hne : hb.m_passive.heap ≠ []) :
    (∃ id ∈ hb.m_passive.heap,
        hb.m_passive.m_passive.getD id none = some (hb.passive_pop).1) ∧
    ∀ id ∈ hb.m_passive.heap, ∀ o,
      hb.m_passive.m_passive.getD id none = some o →
      hb.passive_get_weight (hb.passive_pop).1 ≤ hb.passive_get_weight o := by
  obtain ⟨hmem, hmin⟩ := heapEraseMin_spec hb.m_passive.m_weights hb.m_passive.heap hne
  cases heq : heapEraseMin hb.m_passive.m_weights hb.m_passive.heap with
  | mk val heap' =>
    rw [heq] at hmem hmin
    have hpop : (hb.passive_pop).1 = (hb.m_passive.m_passive.getD val none).getD 0 := by
      simp only [hilbert_basis.passive_pop, heq]
    obtain ⟨hsome, hw⟩ := hok val hmem
    cases hslot : hb.m_passive.m_passive.getD val none with
    | none => exact absurd hslot hsome
    | some o0 =>
      have hres : (hb.passive_pop).1 = o0 := by rw [hpop, hslot]; rfl
      constructor
      · exact ⟨val, hmem, by rw [hslot, hres]⟩
      · intro id hid o ho
        obtain ⟨-, hwid⟩ := hok id hid
        have h1 : hb.m_passive.m_weights.getD val 0 = hb.passive_get_weight o0 := by
          rw [hw, hslot]
          rfl
        have h2 : hb.m_passive.m_weights.getD id 0 = hb.passive_get_weight o := by
          rw [hwid, ho]
          rfl
        rw [hres, ← h1, ← h2]
        exact hmin id hid

/-- Witness for claim C6 at the concrete queue `c6hb`: the popped offset has
minimal L1 weight (compare against the queued offset 0). -/
theorem passive_pop_min_weight_witness :
    c6hb.passive_get_weight (c6hb.passive_pop).1 ≤ c6hb.passive_get_weight 0 :=
  (passive_pop_min_weight c6hb (by decide) (by decide)).2 0 (by decide) 0 (by decide)

/-! ## Frame lemmas: which state components each operation leaves unchanged -/

theorem is_subsumed_frame (hb : hilbert_basis) (o : Nat) :
    (hb.is_subsumed o).2.m_store = hb.m_store ∧ (hb.is_subsumed o).2.m_eval = hb.m_eval ∧
    (hb.is_subsumed o).2.m_free_list = hb.m_free_list ∧
    (hb.is_subsumed o).2.m_active = hb.m_active ∧
    (hb.is_subsumed o).2.m_basis = hb.m_basis ∧
    (hb.is_subsumed o).2.m_ineqs = hb.m_ineqs ∧
    (hb.is_subsumed o).2.m_zero = hb.m_zero ∧
    (hb.is_subsumed o).2.m_passive = hb.m_passive := by
  unfold hilbert_basis.is_subsumed
  cases hb.m_index.find (hb.vec o) (hb.evalOf o) o with
  | mk f ix => exact ⟨rfl, rfl, rfl, rfl, rfl, rfl, rfl, rfl⟩

theorem passive_insert_frame (hb : hilbert_basis) (o : Nat) :
    (hb.passive_insert o).m_store = hb.m_store ∧ (hb.passive_insert o).m_eval = hb.m_eval ∧
    (hb.passive_insert o).m_free_list = hb.m_free_list ∧
    (hb.passive_insert o).m_active = hb.m_active ∧
    (hb.passive_insert o).m_basis = hb.m_basis ∧
    (hb.passive_insert o).m_ineqs = hb.m_ineqs ∧
    (hb.passive_insert o).m_zero = hb.m_zero ∧
    (hb.passive_insert o).m_index = hb.m_index := by
  simp only [hilbert_basis.passive_insert]
  cases hb.m_passive.m_free_list.getLast? <;> simp

theorem add_goal_frame (hb : hilbert_basis) (o : Nat) :
    (hb.add_goal o).m_store = hb.m_store ∧ (hb.add_goal o).m_eval = hb.m_eval ∧
    (hb.add_goal o).m_free_list = hb.m_free_list ∧
    (hb.add_goal o).m_active = hb.m_active ∧
    (hb.add_goal o).m_basis = hb.m_basis ∧
    (hb.add_goal o).m_ineqs = hb.m_ineqs := by
  unfold hilbert_basis.add_goal
  set hb1 : hilbert_basis :=
    { hb with m_index := hb.m_index.insert o (hb.vec o) (hb.evalOf o) } with hdef
  by_cases h : hb1.evalOf o = 0
  · simp only [if_pos h]
    cases hx : hb1.is_subsumed o with
    | mk b st =>
      have hf := is_subsumed_frame hb1 o
      rw [hx] at hf
      cases b
      · exact ⟨hf.1, hf.2.1, hf.2.2.1, hf.2.2.2.1, hf.2.2.2.2.1, hf.2.2.2.2.2.1⟩
      · exact ⟨hf.1, hf.2.1, hf.2.2.1, hf.2.2.2.1, hf.2.2.2.2.1, hf.2.2.2.2.2.1⟩
  · simp only [if_neg h]
    have hf := passive_insert_frame hb1 o
    exact ⟨hf.1, hf.2.1, hf.2.2.1, hf.2.2.2.1, hf.2.2.2.2.1, hf.2.2.2.2.2.1⟩

theorem passive_pop_frame (hb : hilbert_basis) :
    (hb.passive_pop).2.m_store = hb.m_store ∧ (hb.passive_pop).2.m_eval = hb.m_eval ∧
    (hb.passive_pop).2.m_free_list = hb.m_free_list ∧
    (hb.passive_pop).2.m_active = hb.m_active ∧
    (hb.passive_pop).2.m_basis = hb.m_basis ∧
    (hb.passive_pop).2.m_ineqs = hb.m_ineqs ∧
    (hb.passive_pop).2.m_zero = hb.m_zero ∧
    (hb.passive_pop).2.m_index = hb.m_index := by
  unfold hilbert_basis.passive_pop
  cases heapEraseMin hb.m_passive.m_weights hb.m_passive.heap with
  | mk val heap' => exact ⟨rfl, rfl, rfl, rfl, rfl, rfl, rfl, rfl⟩

theorem recycle_frame (hb : hilbert_basis) (o : Nat) :
    (hb.recycle o).m_store = hb.m_store ∧ (hb.recycle o).m_eval = hb.m_eval ∧
    (hb.recycle o).m_free_list = hb.m_free_list ++ [o] ∧
    (hb.recycle o).m_active = hb.m_active ∧
    (hb.recycle o).m_basis = hb.m_basis ∧
    (hb.recycle o).m_ineqs = hb.m_ineqs ∧
    (hb.recycle o).m_zero = hb.m_zero ∧
    (hb.recycle o).m_passive = hb.m_passive :=
  ⟨rfl, rfl, rfl, rfl, rfl, rfl, rfl, rfl⟩

theorem alloc_vector_frame (hb : hilbert_basis) :
    (hb.alloc_vector).2.m_active = hb.m_active ∧
    (hb.alloc_vector).2.m_basis = hb.m_basis ∧
    (hb.alloc_vector).2.m_ineqs = hb.m_ineqs ∧
    (hb.alloc_vector).2.m_zero = hb.m_zero ∧
    (hb.alloc_vector).2.m_index = hb.m_index ∧
    (hb.alloc_vector).2.m_passive = hb.m_passive := by
  unfold hilbert_basis.alloc_vector
  cases hb.m_free_list.getLast? <;> exact ⟨rfl, rfl, rfl, rfl, rfl, rfl⟩

theorem resolve_frame (hb : hilbert_basis) (i j r : Nat) :
    (hb.resolve i j r).m_free_list = hb.m_free_list ∧
    (hb.resolve i j r).m_active = hb.m_active ∧
    (hb.resolve i j r).m_basis = hb.m_basis ∧
    (hb.resolve i j r).m_ineqs = hb.m_ineqs ∧
    (hb.resolve i j r).m_zero = hb.m_zero ∧
    (hb.resolve i j r).m_index = hb.m_index ∧
    (hb.resolve i j r).m_passive = hb.m_passive :=
  ⟨rfl, rfl, rfl, rfl, rfl, rfl, rfl⟩

/-! ## Claim C8: coordinatewise non-negativity of every stored vector -/

theorem StoreNonneg_getD (hb : hilbert_basis) (h : hb.StoreNonneg) (o k : Nat) :
    0 ≤ (hb.vec o).getD k 0 := by
  unfold hilbert_basis.vec
  by_cases ho : o < hb.m_store.length
  · have hv := getD_mem hb.m_store o [] ho
    by_cases hk : k < (hb.m_store.getD o []).length
    · exact h _ hv _ (getD_mem _ k 0 hk)
    · rw [getD_of_ge _ k 0 (le_of_not_lt hk)]
  · rw [getD_of_ge _ o [] (le_of_not_lt ho)]
    simp

theorem storeNonneg_of_eq (hb hb' : hilbert_basis) (h : hb'.m_store = hb.m_store)
    (hs : hb.StoreNonneg) : hb'.StoreNonneg := by
  unfold hilbert_basis.StoreNonneg at hs ⊢
  rw [h]
  exact hs

theorem alloc_vector_store_nonneg (hb : hilbert_basis) (hs : hb.StoreNonneg) :
    (hb.alloc_vector).2.StoreNonneg := by
  unfold hilbert_basis.alloc_vector
  cases hb.m_free_list.getLast? with
  | none =>
    intro v hv
    rcases List.mem_append.1 hv with hv | hv
    · exact hs v hv
    · simp only [List.mem_singleton] at hv
      subst hv
      intro x hx
      rw [List.eq_of_mem_replicate hx]
  | some r => exact hs

theorem resolve_store_nonneg (hb : hilbert_basis) (i j r : Nat) (hs : hb.StoreNonneg) :
    (hb.resolve i j r).StoreNonneg := by
  intro v hv
  unfold hilbert_basis.resolve at hv
  simp only at hv
  rcases mem_of_mem_set _ _ _ _ hv with hv | hv
  · subst hv
    intro x hx
    obtain ⟨k, -, rfl⟩ := List.mem_map.1 hx
    exact add_nonneg (StoreNonneg_getD hb hs i k) (StoreNonneg_getD hb hs j k)
  · exact hs v hv

theorem resolve_step_store_nonneg (hb : hilbert_basis) (idx a : Nat) (hs : hb.StoreNonneg) :
    (hb.resolve_step idx a).StoreNonneg := by
  unfold hilbert_basis.resolve_step
  by_cases h : hb.get_sign idx ≠ hb.get_sign a
  · simp only [if_pos h]
    cases hx : hb.alloc_vector with
    | mk j st1 =>
      have h1 : st1.StoreNonneg := by
        have := alloc_vector_store_nonneg hb hs
        rw [hx] at this
        exact this
      exact storeNonneg_of_eq _ _ (add_goal_frame _ j).1 (resolve_store_nonneg st1 idx a j h1)
  · simp only [if_neg h]
    exact hs

theorem resolve_fold_store_nonneg (idx : Nat) (l : List Nat) (hb : hilbert_basis)
    (hs : hb.StoreNonneg) : (hilbert_basis.resolve_fold idx l hb).StoreNonneg := by
  induction l generalizing hb with
  | nil => exact hs
  | cons a t ih =>
    show (hilbert_basis.resolve_fold idx t (hb.resolve_step idx a)).StoreNonneg
    exact ih _ (resolve_step_store_nonneg hb idx a hs)

theorem drainStep_store_nonneg (hb : hilbert_basis) (hs : hb.StoreNonneg) :
    hb.drainStep.StoreNonneg := by
  unfold hilbert_basis.drainStep
  cases hp : hb.passive_pop with
  | mk idx hb1 =>
    have h1 : hb1.StoreNonneg := by
      have hf := passive_pop_frame hb
      rw [hp] at hf
      exact storeNonneg_of_eq _ _ hf.1 hs
    simp only
    cases hsub : hb1.is_subsumed idx with
    | mk b hb2 =>
      have h2 : hb2.StoreNonneg := by
        have hf := is_subsumed_frame hb1 idx
        rw [hsub] at hf
        exact storeNonneg_of_eq _ _ hf.1 h1
      cases b
      · show ({ hb2.resolve_all idx with
            m_active := (hb2.resolve_all idx).m_active ++ [idx] } : hilbert_basis).StoreNonneg
        exact storeNonneg_of_eq _ _ rfl (resolve_fold_store_nonneg idx hb2.m_active hb2 h2)
      · exact storeNonneg_of_eq _ _ (recycle_frame hb2 idx).1 h2

theorem seed_fold_store (ineq : List numeral) (l : List Nat) (acc : hilbert_basis × Bool) :
    (l.foldl (hilbert_basis.seed_step ineq) acc).1.m_store = acc.1.m_store := by
  induction l generalizing acc with
  | nil => rfl
  | cons v t ih =>
    simp only [List.foldl_cons]
    rw [ih]
    exact (add_goal_frame _ v).1

theorem seed_round_store (hb : hilbert_basis) (ineq : List numeral) :
    (hb.seed_round ineq).1.m_store = hb.m_store := by
  unfold hilbert_basis.seed_round
  rw [seed_fold_store]

theorem finalize_store (hb : hilbert_basis) : hb.finalize.m_store = hb.m_store := by
  unfold hilbert_basis.finalize
  show (hb.m_active.foldl hilbert_basis.finalize_step
      { hb with m_basis := hb.m_zero }).m_store = hb.m_store
  exact (finalize_fold hb.m_active _).2.2.2.2.1

theorem drainLoop_store_nonneg (fuel : Nat) (hb : hilbert_basis) (hs : hb.StoreNonneg) :
    (∀ st, hilbert_basis.drainLoop fuel hb = some (drain_result.drained st) →
      st.StoreNonneg) ∧
    (∀ st, hilbert_basis.drainLoop fuel hb = some (drain_result.cancelled st) →
      st.StoreNonneg) := by
  induction fuel generalizing hb with
  | zero =>
    exact ⟨fun st h => by simp [hilbert_basis.drainLoop] at h,
           fun st h => by simp [hilbert_basis.drainLoop] at h⟩
  | succ n ih =>
    constructor <;> intro st h
    · by_cases he : hb.m_passive.heap.isEmpty
      · simp [hilbert_basis.drainLoop, he] at h
        rw [← h]
        exact hs
      · by_cases hc : hb.m_cancel
        · simp [hilbert_basis.drainLoop, he, hc] at h
        · simp [hilbert_basis.drainLoop, he, hc] at h
          exact (ih hb.drainStep (drainStep_store_nonneg hb hs)).1 st h
    · by_cases he : hb.m_passive.heap.isEmpty
      · simp [hilbert_basis.drainLoop, he] at h
      · by_cases hc : hb.m_cancel
        · simp [hilbert_basis.drainLoop, he, hc] at h
          rw [← h]
          exact hs
        · simp [hilbert_basis.drainLoop, he, hc] at h
          exact (ih hb.drainStep (drainStep_store_nonneg hb hs)).2 st h

theorem saturate_ineq_store_nonneg (fuel : Nat) (hb : hilbert_basis) (ineq : List numeral)
    (r : lbool) (st' : hilbert_basis) (hs : hb.StoreNonneg) :
    hb.saturate_ineq fuel ineq = some (r, st') → st'.StoreNonneg := by
  intro h
  unfold hilbert_basis.saturate_ineq at h
  cases hsr : hb.seed_round ineq with
  | mk hb1 hnn =>
    rw [hsr] at h
    have h1 : hb1.StoreNonneg := by
      have hst := seed_round_store hb ineq
      rw [hsr] at hst
      exact storeNonneg_of_eq _ _ hst hs
    cases hnn with
    | false =>
      have h' : (some (lbool.l_false, hb1) : Option (lbool × hilbert_basis)) =
          some (r, st') := h
      obtain ⟨-, h2⟩ := Prod.mk.injEq .. ▸ Option.some.inj h'
      rw [← h2]
      exact h1
    | true =>
      have h' : (match hilbert_basis.drainLoop fuel hb1 with
          | none => none
          | some (drain_result.cancelled hb2) => some (lbool.l_undef, hb2)
          | some (drain_result.drained hb2) => some (lbool.l_true, hb2.finalize)) =
          some (r, st') := h
      cases hd : hilbert_basis.drainLoop fuel hb1 with
      | none => rw [hd] at h'; exact absurd h' (by simp)
      | some res =>
        rw [hd] at h'
        cases res with
        | cancelled hb2 =>
          obtain ⟨-, h2⟩ := Prod.mk.injEq .. ▸ Option.some.inj h'
          rw [← h2]
          exact (drainLoop_store_nonneg fuel hb1 h1).2 hb2 hd
        | drained hb2 =>
          obtain ⟨-, h2⟩ := Prod.mk.injEq .. ▸ Option.some.inj h'
          rw [← h2]
          exact storeNonneg_of_eq _ _ (finalize_store hb2)
            ((drainLoop_store_nonneg fuel hb1 h1).1 hb2 hd)

theorem saturateList_store_nonneg (fuel : Nat) (l : List (List numeral)) (hb : hilbert_basis)
    (hs : hb.StoreNonneg) (r : lbool) (st' : hilbert_basis) :
    hilbert_basis.saturateList fuel hb l = some (r, st') → st'.StoreNonneg := by
  induction l generalizing hb with
  | nil =>
    intro h
    unfold hilbert_basis.saturateList at h
    by_cases hc : hb.m_cancel
    · rw [if_pos hc] at h
      obtain ⟨-, h2⟩ := Prod.mk.injEq .. ▸ Option.some.inj h
      rw [← h2]
      exact hs
    · rw [if_neg hc] at h
      obtain ⟨-, h2⟩ := Prod.mk.injEq .. ▸ Option.some.inj h
      rw [← h2]
      exact hs
  | cons ineq rest ih =>
    intro h
    unfold hilbert_basis.saturateList at h
    by_cases hc : hb.m_cancel
    · simp [hc] at h
      rw [← h.2]
      exact hs
    · rw [if_neg hc] at h
      cases hsi : hb.saturate_ineq fuel ineq with
      | none => rw [hsi] at h; simp at h
      | some p =>
        rw [hsi] at h
        cases p with
        | mk r' hb' =>
          have hs' : hb'.StoreNonneg :=
            saturate_ineq_store_nonneg fuel hb ineq r' hb' hs hsi
          cases r' with
          | l_true => exact ih hb' hs' h
          | l_false => simp at h; rw [← h.2]; exact hs'
          | l_undef => simp at h; rw [← h.2]; exact hs'

theorem init_basis_step_store_nonneg (n : Nat) (s : hilbert_basis) (i : Nat)
    (hs : s.StoreNonneg) : (hilbert_basis.init_basis_step n s i).StoreNonneg := by
  unfold hilbert_basis.init_basis_step
  cases hx : s.alloc_vector with
  | mk idx st1 =>
    have h1 : st1.StoreNonneg := by
      have := alloc_vector_store_nonneg s hs
      rw [hx] at this
      exact this
    intro v hv
    simp only [hilbert_basis.set_value] at hv
    rcases mem_of_mem_set _ _ _ _ hv with hv | hv
    · subst hv
      intro x hx'
      rcases mem_of_mem_set _ _ _ _ hx' with hx' | hx'
      · rw [hx']
        exact zero_le_one
      · rw [List.eq_of_mem_replicate hx']
    · exact h1 v hv

theorem init_basis_store_nonneg (hb : hilbert_basis) : hb.init_basis.StoreNonneg := by
  unfold hilbert_basis.init_basis
  have hgen : ∀ (l : List Nat) (s : hilbert_basis), s.StoreNonneg →
      ((l.foldl (hilbert_basis.init_basis_step hb.get_num_vars) s)).StoreNonneg := by
    intro l
    induction l with
    | nil => intro s hs; exact hs
    | cons i t ih =>
      intro s hs
      simp only [List.foldl_cons]
      exact ih _ (init_basis_step_store_nonneg _ s i hs)
  exact hgen _ _ (by intro v hv; simp at hv)

/-- Claim C8: throughout `saturate`, every vector in the arena (hence every
vector held by the basis, active, passive and zero lists) is non-negative in
every coordinate: the seed basis consists of unit vectors, each allocation
zero-initialises its slot, and `resolve` only writes sums of two stored
vectors; only the evaluation scalars may be negative. -/
theorem store_coordinates_nonneg :
    (∀ hb : hilbert_basis, hb.init_basis.StoreNonneg) ∧
    (∀ (hb : hilbert_basis) (ineq : List numeral),
        hb.StoreNonneg → (hb.seed_round ineq).1.StoreNonneg) ∧
    (∀ hb : hilbert_basis, hb.StoreNonneg → hb.drainStep.StoreNonneg) ∧
    (∀ hb : hilbert_basis, hb.StoreNonneg → hb.finalize.StoreNonneg) ∧
    (∀ (fuel : Nat) (hb : hilbert_basis) (r : lbool) (st' : hilbert_basis),
        hb.saturate fuel = some (r, st') → ∀ o k : Nat, 0 ≤ (st'.vec o).getD k 0) := by
  refine ⟨init_basis_store_nonneg,
          fun hb ineq hs => storeNonneg_of_eq _ _ (seed_round_store hb ineq) hs,
          drainStep_store_nonneg,
          fun hb hs => storeNonneg_of_eq _ _ (finalize_store hb) hs,
          fun fuel hb r st' h => ?_⟩
  have hs' : st'.StoreNonneg := by
    unfold hilbert_basis.saturate at h
    exact saturateList_store_nonneg fuel _ _ (init_basis_store_nonneg hb) r st' h
  exact StoreNonneg_getD st' hs'

/-- Witness for claim C8 at the concrete run of `hbEq`. -/
theorem store_coordinates_nonneg_witness : 0 ≤ ((c8st).vec 2).getD 0 0 :=
  store_coordinates_nonneg.2.2.2.2 10 hbEq lbool.l_true c8st (by decide) 2 0

/-! ## The seed pass of `index::find` (claims C3 and C1) -/

theorem getD_concat_len {α : Type} (l : List α) (x d : α) :
    (l ++ [x]).getD l.length d = x := by
  induction l with
  | nil => rfl
  | cons a t ih => simp only [List.cons_append, List.length_cons, List.getD_cons_succ]; exact ih

theorem getD_inj_of_nodup (l : List numeral) (hn : l.Nodup) (i j : Nat) (d : numeral)
    (hi : i < l.length) (hj : j < l.length) (h : l.getD i d = l.getD j d) : i = j := by
  induction l generalizing i j with
  | nil => simp at hi
  | cons a t ih =>
    obtain ⟨ha, ht⟩ := List.nodup_cons.1 hn
    cases i with
    | zero =>
      cases j with
      | zero => rfl
      | succ j' =>
        exfalso
        apply ha
        have hmem : t.getD j' d ∈ t := getD_mem t j' d (by simpa using hj)
        have ha' : a = t.getD j' d := h
        rw [ha']
        exact hmem
    | succ i' =>
      cases j with
      | zero =>
        exfalso
        apply ha
        have : t.getD i' d ∈ t := getD_mem t i' d (by simpa using hi)
        rw [show (a :: t).getD (i' + 1) d = t.getD i' d from rfl,
            show (a :: t).getD 0 d = a from rfl] at h
        rw [← h]
        exact this
      | succ j' =>
        simp only [Nat.succ.injEq]
        exact ih ht i' j' (by simpa using hi) (by simpa using hj)
          (by simpa using h)

theorem initCollect_fold (idx : Nat) (l : List Nat) (acc : Bool × Option Nat × offset_refs)
    (o : Nat) :
    refsFind (l.foldl (initCollect idx) acc).2.2 o = some 0 ↔
      (refsFind acc.2.2 o = some 0 ∨ (o ∈ l ∧ o ≠ idx)) := by
  induction l generalizing acc with
  | nil => simp
  | cons a t ih =>
    simp only [List.foldl_cons]
    rw [ih]
    unfold initCollect
    by_cases ha : a ≠ idx
    · rw [if_pos ha]
      by_cases hoa : o = a
      · subst hoa
        rw [refsFind_insert_self]
        constructor
        · intro _
          exact Or.inr ⟨List.mem_cons_self _ _, ha⟩
        · intro _
          exact Or.inl rfl
      · rw [show refsFind (refsInsert acc.2.2 a 0) o = refsFind acc.2.2 o from
            refsFind_insert_other acc.2.2 a 0 o hoa]
        constructor
        · rintro (h | ⟨hm, hni⟩)
          · exact Or.inl h
          · exact Or.inr ⟨List.mem_cons_of_mem _ hm, hni⟩
        · rintro (h | ⟨hm, hni⟩)
          · exact Or.inl h
          · rcases List.mem_cons.1 hm with hm | hm
            · exact absurd hm hoa
            · exact Or.inr ⟨hm, hni⟩
    · rw [if_neg ha]
      push_neg at ha
      subst ha
      constructor
      · rintro (h | ⟨hm, hni⟩)
        · exact Or.inl h
        · exact Or.inr ⟨List.mem_cons_of_mem _ hm, hni⟩
      · rintro (h | ⟨hm, hni⟩)
        · exact Or.inl h
        · rcases List.mem_cons.1 hm with hm | hm
          · exact absurd hm (hm ▸ hni)
          · exact Or.inr ⟨hm, hni⟩

theorem get_value_found (m : weight_map) (w : numeral) (val : Nat)
    (h : listIndexOf w m.u2r = some val) :
    m.get_value w = (val, m) := by
  unfold weight_map.get_value
  rw [h]

theorem get_value_fresh (m : weight_map) (w : numeral)
    (h : listIndexOf w m.u2r = none) :
    m.get_value w = (m.u2r.length,
      { u2r := m.u2r ++ [w],
        heapIds := if 0 ≤ w then m.heapIds ++ [m.u2r.length] else m.heapIds,
        offsets := m.offsets ++ [[]] }) := by
  unfold weight_map.get_value
  rw [h]

theorem seedOffsets_mem (m : weight_map) (f : Nat → numeral) (w : numeral)
    (val : Nat) (m' : weight_map) (o : Nat)
    (hwf : m.WF) (hc : m.ConsistentWith f)
    (hgv : m.get_value w = (val, m')) :
    o ∈ m'.seedOffsets w val ↔
      ((∃ id, id < m.offsets.length ∧ o ∈ m.offsets.getD id []) ∧
        (if 0 < w then 0 < f o ∧ f o ≤ w else f o = w)) := by
  obtain ⟨hnd, hlen, hheap, hmemwf⟩ := hwf
  cases hfound : listIndexOf w m.u2r with
  | some val0 =>
    rw [get_value_found m w val0 hfound] at hgv
    obtain ⟨h1, h2⟩ := Prod.mk.injEq .. ▸ hgv
    subst h1
    subst h2
    constructor
    · intro ho
      obtain ⟨id, hid_mem, ho_bucket⟩ := (mem_catMaps _ _ o).1 ho
      obtain ⟨hbase, hcond⟩ := List.mem_filter.1 hid_mem
      have hcond' : (!(decide (m.u2r.getD id 0 = 0) && decide (0 < w))) = true := hcond
      by_cases hw : 0 < w
      · rw [if_pos hw] at hbase ⊢
        obtain ⟨hin, hle⟩ := List.mem_filter.1 hbase
        have hle' : m.u2r.getD id 0 ≤ w := of_decide_eq_true hle
        obtain ⟨hidlt, hnn⟩ := hheap id hin
        have hne : m.u2r.getD id 0 ≠ 0 := by
          intro h0
          rw [h0] at hcond'
          simp [hw] at hcond'
        have hidlt2 : id < m.offsets.length := by rw [hlen]; exact hidlt
        have hfo : f o = m.u2r.getD id 0 := hc id hidlt2 o ho_bucket
        refine ⟨⟨id, hidlt2, ho_bucket⟩, ?_, ?_⟩
        · rw [hfo]
          exact lt_of_le_of_ne hnn (Ne.symm hne)
        · rw [hfo]
          exact hle'
      · rw [if_neg hw] at hbase ⊢
        have hidv : id = val0 := by simpa using hbase
        subst hidv
        have hvlt : id < m.u2r.length := listIndexOf_lt_length w m.u2r id hfound
        have hval_w : m.u2r.getD id 0 = w := listIndexOf_getD w m.u2r id 0 hfound
        have hvlt2 : id < m.offsets.length := by rw [hlen]; exact hvlt
        have hfo : f o = m.u2r.getD id 0 := hc id hvlt2 o ho_bucket
        exact ⟨⟨id, hvlt2, ho_bucket⟩, by rw [hfo, hval_w]⟩
    · rintro ⟨⟨id0, hid0, ho0⟩, hcond⟩
      apply (mem_catMaps _ _ o).2
      have hfo : f o = m.u2r.getD id0 0 := hc id0 hid0 o ho0
      by_cases hw : 0 < w
      · rw [if_pos hw] at hcond
        obtain ⟨hpos, hle⟩ := hcond
        have hu_pos : 0 < m.u2r.getD id0 0 := by rw [← hfo]; exact hpos
        have hu_le : m.u2r.getD id0 0 ≤ w := by rw [← hfo]; exact hle
        have hid0u : id0 < m.u2r.length := by rw [← hlen]; exact hid0
        have hin : id0 ∈ m.heapIds := hmemwf id0 hid0u (le_of_lt hu_pos)
        refine ⟨id0, ?_, ho0⟩
        apply List.mem_filter.2
        refine ⟨?_, ?_⟩
        · show id0 ∈ (if 0 < w then m.find_le w else [val0])
          rw [if_pos hw]
          exact List.mem_filter.2 ⟨hin, decide_eq_true hu_le⟩
        · show (!(decide (m.u2r.getD id0 0 = 0) && decide (0 < w))) = true
          rw [decide_eq_false (ne_of_gt hu_pos)]
          simp
      · rw [if_neg hw] at hcond
        have hvlt : val0 < m.u2r.length := listIndexOf_lt_length w m.u2r val0 hfound
        have hval_w : m.u2r.getD val0 0 = w := listIndexOf_getD w m.u2r val0 0 hfound
        have hid0u : id0 < m.u2r.length := by rw [← hlen]; exact hid0
        have hu_w : m.u2r.getD id0 0 = w := by rw [← hfo]; exact hcond
        have hid0v : id0 = val0 :=
          getD_inj_of_nodup m.u2r hnd id0 val0 0 hid0u hvlt (by rw [hu_w, hval_w])
        subst hid0v
        refine ⟨id0, ?_, ho0⟩
        apply List.mem_filter.2
        refine ⟨?_, ?_⟩
        · show id0 ∈ (if 0 < w then m.find_le w else [id0])
          rw [if_neg hw]
          exact List.mem_singleton.2 rfl
        · show (!(decide (m.u2r.getD id0 0 = 0) && decide (0 < w))) = true
          rw [decide_eq_false hw]
          simp
  | none =>
    rw [get_value_fresh m w hfound] at hgv
    obtain ⟨h1, h2⟩ := Prod.mk.injEq .. ▸ hgv
    subst h1
    rw [← h2]
    constructor
    · intro ho
      obtain ⟨id, hid_mem, ho_bucket⟩ := (mem_catMaps _ _ o).1 ho
      obtain ⟨hbase, hcond⟩ := List.mem_filter.1 hid_mem
      have ho_bucket' : o ∈ (m.offsets ++ [[]]).getD id [] := ho_bucket
      have hcond' : (!(decide ((m.u2r ++ [w]).getD id 0 = 0) && decide (0 < w))) = true := hcond
      have hid_old : id < m.offsets.length := by
        by_contra hge
        push_neg at hge
        rcases Nat.lt_or_ge id (m.offsets ++ [[]]).length with hlt | hge2
        · have hid_eq : id = m.offsets.length := by
            simp only [List.length_append, List.length_singleton] at hlt
            omega
          rw [hid_eq, getD_concat_len] at ho_bucket'
          simp at ho_bucket'
        · rw [getD_of_ge _ _ _ hge2] at ho_bucket'
          simp at ho_bucket'
      have hbucket_old : o ∈ m.offsets.getD id [] := by
        rw [getD_append_left m.offsets [[]] id [] hid_old] at ho_bucket'
        exact ho_bucket'
      have hid_u : id < m.u2r.length := by rw [← hlen]; exact hid_old
      have hu_eq : (m.u2r ++ [w]).getD id 0 = m.u2r.getD id 0 :=
        getD_append_left m.u2r [w] id 0 hid_u
      have hfo : f o = m.u2r.getD id 0 := hc id hid_old o hbucket_old
      by_cases hw : 0 < w
      · rw [if_pos hw]
        have hbase' : id ∈ (if 0 < w then
            ({ u2r := m.u2r ++ [w],
               heapIds := if 0 ≤ w then m.heapIds ++ [m.u2r.length] else m.heapIds,
               offsets := m.offsets ++ [[]] } : weight_map).find_le w
            else [m.u2r.length]) := hbase
        rw [if_pos hw] at hbase'
        obtain ⟨hin, hle⟩ := List.mem_filter.1 hbase'
        have hle2 : (m.u2r ++ [w]).getD id 0 ≤ w := of_decide_eq_true hle
        have hle' : m.u2r.getD id 0 ≤ w := by rw [← hu_eq]; exact hle2
        have hin2 : id ∈ (if 0 ≤ w then m.heapIds ++ [m.u2r.length] else m.heapIds) := hin
        rw [if_pos (le_of_lt hw)] at hin2
        have hin_old : id ∈ m.heapIds := by
          rcases List.mem_append.1 hin2 with hin3 | hin3
          · exact hin3
          · exfalso
            simp only [List.mem_singleton] at hin3
            rw [hin3] at hid_u
            exact absurd hid_u (lt_irrefl _)
        obtain ⟨-, hnn⟩ := hheap id hin_old
        have hne : m.u2r.getD id 0 ≠ 0 := by
          intro h0
          rw [hu_eq, h0] at hcond'
          simp [hw] at hcond'
        refine ⟨⟨id, hid_old, hbucket_old⟩, ?_, ?_⟩
        · rw [hfo]
          exact lt_of_le_of_ne hnn (Ne.symm hne)
        · rw [hfo]
          exact hle'
      · exfalso
        have hbase' : id ∈ (if 0 < w then
            ({ u2r := m.u2r ++ [w],
               heapIds := if 0 ≤ w then m.heapIds ++ [m.u2r.length] else m.heapIds,
               offsets := m.offsets ++ [[]] } : weight_map).find_le w
            else [m.u2r.length]) := hbase
        rw [if_neg hw] at hbase'
        have hidv : id = m.u2r.length := by simpa using hbase'
        rw [hidv, ← hlen] at hid_u
        exact absurd hid_u (lt_irrefl _)
    · rintro ⟨⟨id0, hid0, ho0⟩, hcond⟩
      apply (mem_catMaps _ _ o).2
      have hfo : f o = m.u2r.getD id0 0 := hc id0 hid0 o ho0
      have hid0u : id0 < m.u2r.length := by rw [← hlen]; exact hid0
      have hu_eq : (m.u2r ++ [w]).getD id0 0 = m.u2r.getD id0 0 :=
        getD_append_left m.u2r [w] id0 0 hid0u
      by_cases hw : 0 < w
      · rw [if_pos hw] at hcond
        obtain ⟨hpos, hle⟩ := hcond
        have hu_pos : 0 < m.u2r.getD id0 0 := by rw [← hfo]; exact hpos
        have hu_le : m.u2r.getD id0 0 ≤ w := by rw [← hfo]; exact hle
        have hin : id0 ∈ m.heapIds := hmemwf id0 hid0u (le_of_lt hu_pos)
        refine ⟨id0, ?_, ?_⟩
        · apply List.mem_filter.2
          refine ⟨?_, ?_⟩
          · show id0 ∈ (if 0 < w then
                ({ u2r := m.u2r ++ [w],
                   heapIds := if 0 ≤ w then m.heapIds ++ [m.u2r.length] else m.heapIds,
                   offsets := m.offsets ++ [[]] } : weight_map).find_le w
                else [m.u2r.length])
            rw [if_pos hw]
            apply List.mem_filter.2
            refine ⟨?_, ?_⟩
            · show id0 ∈ (if 0 ≤ w then m.heapIds ++ [m.u2r.length] else m.heapIds)
              rw [if_pos (le_of_lt hw)]
              exact List.mem_append_left _ hin
            · show decide ((m.u2r ++ [w]).getD id0 0 ≤ w) = true
              rw [hu_eq]
              exact decide_eq_true hu_le
          · show (!(decide ((m.u2r ++ [w]).getD id0 0 = 0) && decide (0 < w))) = true
            rw [hu_eq, decide_eq_false (ne_of_gt hu_pos)]
            simp
        · show o ∈ (m.offsets ++ [[]]).getD id0 []
          rw [getD_append_left m.offsets [[]] id0 [] hid0]
          exact ho0
      · exfalso
        rw [if_neg hw] at hcond
        have hu_w : m.u2r.getD id0 0 = w := by rw [← hfo]; exact hcond
        have hw_mem : w ∈ m.u2r := hu_w ▸ getD_mem m.u2r id0 0 hid0u
        exact absurd hw_mem (listIndexOf_none w m.u2r hfound)

/-- Claim C3: the seed step of `find` over the evaluation WeightMap collects
exactly the following offsets, always excluding the candidate `idx` itself:
when `w > 0`, every indexed offset whose stored evaluation (the bucket value,
equal to `f o` under consistency) lies in the half-open interval `(0, w]`
(zero-evaluation offsets are skipped); when `w ≤ 0`, only indexed offsets
whose stored evaluation equals `w` exactly. -/
theorem init_find_collects (m : weight_map) (f : Nat → numeral) (w : numeral) (idx o : Nat)
    (hwf : m.WF) (hc : m.ConsistentWith f) :
    refsFind ((m.init_find w idx).1.2.2) o = some 0 ↔
      (o ≠ idx ∧ (∃ id, id < m.offsets.length ∧ o ∈ m.offsets.getD id []) ∧
        (if 0 < w then 0 < f o ∧ f o ≤ w else f o = w)) := by
  unfold weight_map.init_find
  cases hgv : m.get_value w with
  | mk val m' =>
    simp only
    rw [initCollect_fold]
    rw [seedOffsets_mem m f w val m' o hwf hc hgv]
    simp only [refsFind, List.find?, Option.map_none']
    constructor
    · rintro (h | ⟨⟨hex, hcond⟩, hni⟩)
      · simp at h
      · exact ⟨hni, hex, hcond⟩
    · rintro ⟨hni, hex, hcond⟩
      exact Or.inr ⟨⟨hex, hcond⟩, hni⟩

/-- Witness for claim C3 at the concrete map `exWM` (offset 0 stored with
evaluation 1), candidate evaluation 2, self-offset 1: offset 0 is collected. -/
theorem init_find_collects_witness :
    refsFind ((exWM.init_find 2 1).1.2.2) 0 = some 0 :=
  (init_find_collects exWM hbArena1.evalOf 2 1 0 (by decide) (by decide)).2
    ⟨by decide, ⟨0, by decide, by decide⟩,
     by rw [if_pos (by decide : (0 : numeral) < 2)]; exact ⟨by decide, by decide⟩⟩

/-! ## Soundness of `index::find` (claim C1) -/

theorem initCollect_fold_found (idx : Nat) (l : List Nat)
    (acc : Bool × Option Nat × offset_refs)
    (hacc : acc.1 = true → ∃ o, acc.2.1 = some o ∧ refsFind acc.2.2 o = some 0) :
    (l.foldl (initCollect idx) acc).1 = true →
      ∃ o, (l.foldl (initCollect idx) acc).2.1 = some o ∧
        refsFind (l.foldl (initCollect idx) acc).2.2 o = some 0 := by
  induction l generalizing acc with
  | nil => exact hacc
  | cons a t ih =>
    simp only [List.foldl_cons]
    apply ih
    unfold initCollect
    by_cases ha : a ≠ idx
    · rw [if_pos ha]
      intro _
      exact ⟨a, rfl, refsFind_insert_self _ _ _⟩
    · rw [if_neg ha]
      exact hacc

theorem initCollect_fold_values (idx : Nat) (l : List Nat)
    (acc : Bool × Option Nat × offset_refs)
    (hacc : ∀ o j, refsFind acc.2.2 o = some j → j = 0) :
    ∀ o j, refsFind (l.foldl (initCollect idx) acc).2.2 o = some j → j = 0 := by
  induction l generalizing acc with
  | nil => exact hacc
  | cons a t ih =>
    simp only [List.foldl_cons]
    apply ih
    unfold initCollect
    by_cases ha : a ≠ idx
    · rw [if_pos ha]
      intro o j h
      by_cases hoa : o = a
      · subst hoa
        rw [refsFind_insert_self] at h
        exact (Option.some.inj h).symm
      · rw [refsFind_insert_other _ _ _ _ hoa] at h
        exact hacc o j h
    · rw [if_neg ha]
      exact hacc

theorem leOffsets_sound (m : weight_map) (f : Nat → numeral) (w : numeral) (o : Nat)
    (hwf : m.WF) (hc : m.ConsistentWith f) :
    o ∈ m.leOffsets w → f o ≤ w := by
  intro ho
  obtain ⟨hnd, hlen, hheap, hmemwf⟩ := hwf
  obtain ⟨id, hid, hbucket⟩ := (mem_catMaps _ _ o).1 ho
  obtain ⟨hin, hle⟩ := List.mem_filter.1 hid
  have hle' : m.u2r.getD id 0 ≤ w := of_decide_eq_true hle
  obtain ⟨hidlt, -⟩ := hheap id hin
  have hidlt2 : id < m.offsets.length := by rw [hlen]; exact hidlt
  have hfo : f o = m.u2r.getD id 0 := hc id hidlt2 o hbucket
  rw [hfo]
  exact hle'

theorem updateCollect_fold (idx round : Nat) (l l0 : List Nat)
    (hsub : ∀ x ∈ l, x ∈ l0) (refs0 : offset_refs)
    (acc : Bool × Option Nat × offset_refs)
    (haccf : acc.1 = true → ∃ o, acc.2.1 = some o ∧ refsFind refs0 o = some round ∧
      refsFind acc.2.2 o = some (round + 1) ∧ o ≠ idx ∧ o ∈ l0)
    (hacce : ∀ o k, refsFind acc.2.2 o = some k →
      refsFind refs0 o = some k ∨
        (k = round + 1 ∧ refsFind refs0 o = some round ∧ o ≠ idx ∧ o ∈ l0)) :
    ((l.foldl (updateCollect idx round) acc).1 = true →
      ∃ o, (l.foldl (updateCollect idx round) acc).2.1 = some o ∧
        refsFind refs0 o = some round ∧
        refsFind (l.foldl (updateCollect idx round) acc).2.2 o = some (round + 1) ∧
        o ≠ idx ∧ o ∈ l0) ∧
    (∀ o k, refsFind (l.foldl (updateCollect idx round) acc).2.2 o = some k →
      refsFind refs0 o = some k ∨
        (k = round + 1 ∧ refsFind refs0 o = some round ∧ o ≠ idx ∧ o ∈ l0)) := by
  induction l generalizing acc with
  | nil => exact ⟨haccf, hacce⟩
  | cons a t ih =>
    simp only [List.foldl_cons]
    have hsub' : ∀ x ∈ t, x ∈ l0 := fun x hx => hsub x (List.mem_cons_of_mem _ hx)
    unfold updateCollect
    by_cases hcond : a ≠ idx ∧ refsFind acc.2.2 a = some round
    · rw [if_pos hcond]
      obtain ⟨hai, har⟩ := hcond
      have har0 : refsFind refs0 a = some round := by
        rcases hacce a round har with h | h
        · exact h
        · omega
      apply ih hsub'
      · intro _
        exact ⟨a, rfl, har0, refsFind_insert_self _ _ _, hai,
          hsub a (List.mem_cons_self _ _)⟩
      · intro o k h
        by_cases hoa : o = a
        · subst hoa
          rw [refsFind_insert_self] at h
          have hk : k = round + 1 := (Option.some.inj h).symm
          exact Or.inr ⟨hk, har0, hai, hsub o (List.mem_cons_self _ _)⟩
        · rw [refsFind_insert_other _ _ _ _ hoa] at h
          exact hacce o k h
    · rw [if_neg hcond]
      exact ih hsub' _ haccf hacce

theorem update_find_spec (m : weight_map) (refs : offset_refs) (round : Nat)
    (w : numeral) (idx : Nat) :
    ((m.update_find refs round w idx).1 = true →
      ∃ o, (m.update_find refs round w idx).2.1 = some o ∧
        refsFind refs o = some round ∧
        refsFind (m.update_find refs round w idx).2.2 o = some (round + 1) ∧
        o ≠ idx ∧ o ∈ m.leOffsets w) ∧
    (∀ o k, refsFind (m.update_find refs round w idx).2.2 o = some k →
      refsFind refs o = some k ∨
        (k = round + 1 ∧ refsFind refs o = some round ∧ o ≠ idx ∧ o ∈ m.leOffsets w)) := by
  unfold weight_map.update_find
  exact updateCollect_fold idx round (m.leOffsets w) (m.leOffsets w) (fun x hx => hx) refs
    (false, none, refs) (by intro h; simp at h) (fun o k h => Or.inl h)

theorem init_find_found (m : weight_map) (w : numeral) (idx : Nat) :
    (m.init_find w idx).1.1 = true →
      ∃ o, (m.init_find w idx).1.2.1 = some o ∧
        refsFind (m.init_find w idx).1.2.2 o = some 0 := by
  unfold weight_map.init_find
  cases m.get_value w with
  | mk val m' =>
    simp only
    exact initCollect_fold_found idx _ _ (by intro h; simp at h)

theorem init_find_values (m : weight_map) (w : numeral) (idx : Nat) :
    ∀ o j, refsFind (m.init_find w idx).1.2.2 o = some j → j = 0 := by
  unfold weight_map.init_find
  cases m.get_value w with
  | mk val m' =>
    simp only
    exact initCollect_fold_values idx _ _ (by intro o j h; simp [refsFind] at h)

theorem refineStep_fold (vs : List numeral) (idx : Nat) (F : Nat → Nat → numeral)
    (Seed : Nat → Prop) (ws : List weight_map) (k : Nat)
    (hms : ∀ p ∈ List.enumFrom k ws, p.2.WF ∧ p.2.ConsistentWith (F p.1))
    (acc : Bool × Option Nat × offset_refs)
    (haccf : acc.1 = true → ∃ o, acc.2.1 = some o ∧ refsFind acc.2.2 o = some k ∧
      o ≠ idx ∧ Seed o ∧ (∀ i, i < k → F i o ≤ vs.getD i 0))
    (hacce : ∀ o j, refsFind acc.2.2 o = some j →
      j ≤ k ∧ o ≠ idx ∧ Seed o ∧ (∀ i, i < j → F i o ≤ vs.getD i 0)) :
    ((List.enumFrom k ws).foldl (refineStep vs idx) acc).1 = true →
      ∃ o, ((List.enumFrom k ws).foldl (refineStep vs idx) acc).2.1 = some o ∧
        o ≠ idx ∧ Seed o ∧ (∀ i, i < k + ws.length → F i o ≤ vs.getD i 0) := by
  induction ws generalizing k acc with
  | nil =>
    intro hfound
    obtain ⟨o, ho1, -, ho3, ho4, ho5⟩ := haccf hfound
    exact ⟨o, ho1, ho3, ho4, by simpa using ho5⟩
  | cons mw ws' ih =>
    have henum : List.enumFrom k (mw :: ws') = (k, mw) :: List.enumFrom (k + 1) ws' := rfl
    rw [henum]
    simp only [List.foldl_cons]
    have hmw : mw.WF ∧ mw.ConsistentWith (F k) := by
      have := hms (k, mw) (by rw [henum]; exact List.mem_cons_self _ _)
      exact this
    have hms' : ∀ p ∈ List.enumFrom (k + 1) ws', p.2.WF ∧ p.2.ConsistentWith (F p.1) := by
      intro p hp
      exact hms p (by rw [henum]; exact List.mem_cons_of_mem _ hp)
    by_cases hb : acc.1 = true
    · have hstep : refineStep vs idx acc (k, mw) =
          mw.update_find acc.2.2 k (vs.getD k 0) idx := by
        unfold refineStep
        rw [if_pos hb]
      rw [hstep]
      obtain ⟨hspecf, hspece⟩ := update_find_spec mw acc.2.2 k (vs.getD k 0) idx
      simp only [List.length_cons]
      have harith : k + (ws'.length + 1) = k + 1 + ws'.length := by omega
      rw [harith]
      apply ih (k + 1) hms'
      · intro hfound
        obtain ⟨o, ho1, ho2, ho3, ho4, ho5⟩ := hspecf hfound
        obtain ⟨-, hni, hseed, hbound⟩ := hacce o k ho2
        refine ⟨o, ho1, ho3, hni, hseed, ?_⟩
        intro i hi
        rcases Nat.lt_or_ge i k with hik | hik
        · exact hbound i hik
        · have hik2 : i = k := by omega
          subst hik2
          exact leOffsets_sound mw (F i) (vs.getD i 0) o hmw.1 hmw.2 ho5
      · intro o j hj
        rcases hspece o j hj with hold | ⟨hk1, hrold, hni, hmem⟩
        · obtain ⟨hle, hni, hseed, hbound⟩ := hacce o j hold
          exact ⟨by omega, hni, hseed, hbound⟩
        · obtain ⟨-, hni2, hseed, hbound⟩ := hacce o k hrold
          subst hk1
          refine ⟨by omega, hni, hseed, ?_⟩
          intro i hi
          rcases Nat.lt_or_ge i k with hik | hik
          · exact hbound i hik
          · have hik2 : i = k := by omega
            subst hik2
            exact leOffsets_sound mw (F i) (vs.getD i 0) o hmw.1 hmw.2 hmem
    · have hstep : refineStep vs idx acc (k, mw) = acc := by
        unfold refineStep
        rw [if_neg hb]
      rw [hstep]
      simp only [List.length_cons]
      have harith : k + (ws'.length + 1) = k + 1 + ws'.length := by omega
      rw [harith]
      apply ih (k + 1) hms'
      · intro hfound'
        exact absurd hfound' (by
          intro hx
          exact hb hx)
      · intro o j hj
        obtain ⟨hle, hni, hseed, hbound⟩ := hacce o j hj
        exact ⟨by omega, hni, hseed, hbound⟩

/-- Claim C1 (amended): subsumption soundness of `index::find`.  If `find`
with candidate vector `vs`, candidate evaluation `w` and excluded offset
`idx` returns an offset `o`, then (with the index consistent with the arena):
`o` differs from `idx`; (a) `vs[i] >= vec[o][i]` for every coordinate; (b,
amended) when the evaluations are non-negative, `eval(o) <= w` — the
candidate's evaluation dominates the found one, not the other way around;
(c) if `w < 0` then `eval(o) = w` exactly. -/
theorem index_find_sound (hb : hilbert_basis) (ix : hb_index) (vs : List numeral)
    (w : numeral) (idx o : Nat) (ix' : hb_index)
    (hcons : ix.Consistent hb)
    (hfind : ix.find vs w idx = (some o, ix')) :
    o ≠ idx ∧
    (∀ i, i < ix.values.length → (hb.vec o).getD i 0 ≤ vs.getD i 0) ∧
    (0 ≤ w → 0 ≤ hb.evalOf o ∧ hb.evalOf o ≤ w) ∧
    (w < 0 → hb.evalOf o = w) := by
  obtain ⟨⟨hwc, hww⟩, hvals⟩ := hcons
  unfold hb_index.find at hfind
  cases hif : ix.weight.init_find w idx with
  | mk r0 wm =>
    rw [hif] at hfind
    have hfind' : ((if (ix.values.enum.foldl (refineStep vs idx) r0).1 = true
        then (ix.values.enum.foldl (refineStep vs idx) r0).2.1 else none),
        ({ ix with weight := wm } : hb_index)) = (some o, ix') := hfind
    obtain ⟨h1, -⟩ := Prod.mk.injEq .. ▸ hfind'
    by_cases hres : (ix.values.enum.foldl (refineStep vs idx) r0).1 = true
    · rw [if_pos hres] at h1
      have hff := init_find_found ix.weight w idx
      rw [hif] at hff
      have hvv := init_find_values ix.weight w idx
      rw [hif] at hvv
      have hcol : ∀ o', refsFind r0.2.2 o' = some 0 →
          (o' ≠ idx ∧
            (∃ id, id < ix.weight.offsets.length ∧ o' ∈ ix.weight.offsets.getD id []) ∧
            (if 0 < w then 0 < hb.evalOf o' ∧ hb.evalOf o' ≤ w else hb.evalOf o' = w)) := by
        intro o' h'
        have hiff := init_find_collects ix.weight hb.evalOf w idx o' hww hwc
        rw [hif] at hiff
        exact hiff.1 h'
      have hmain := refineStep_fold vs idx (fun i o' => (hb.vec o').getD i 0)
        (fun o' => if 0 < w then 0 < hb.evalOf o' ∧ hb.evalOf o' ≤ w
                   else hb.evalOf o' = w)
        ix.values 0
        (by
          intro p hp
          have := hvals p hp
          exact ⟨this.2, this.1⟩)
        r0
        (by
          intro hf
          obtain ⟨o', ho1, ho2⟩ := hff hf
          obtain ⟨hni, -, hseed⟩ := hcol o' ho2
          exact ⟨o', ho1, ho2, hni, hseed, fun i hi => absurd hi (Nat.not_lt_zero i)⟩)
        (by
          intro o' j hj
          have hj0 : j = 0 := hvv o' j hj
          subst hj0
          obtain ⟨hni, -, hseed⟩ := hcol o' hj
          exact ⟨le_refl 0, hni, hseed, fun i hi => absurd hi (Nat.not_lt_zero i)⟩)
      have hmain' := hmain hres
      obtain ⟨o', ho1, hni, hseed, hbound⟩ := hmain'
      have ho_eq : o' = o := by
        have ho1' : (List.foldl (refineStep vs idx) r0 ix.values.enum).2.1 = some o' := ho1
        rw [ho1'] at h1
        exact Option.some.inj h1
      subst ho_eq
      refine ⟨hni, ?_, ?_, ?_⟩
      · intro i hi
        exact hbound i (by omega)
      · intro hw0
        by_cases hw : 0 < w
        · rw [if_pos hw] at hseed
          exact ⟨le_of_lt hseed.1, hseed.2⟩
        · rw [if_neg hw] at hseed
          constructor
          · rw [hseed]; exact hw0
          · rw [hseed]
      · intro hwneg
        by_cases hw : 0 < w
        · exact absurd hwneg (lt_asymm hw)
        · rw [if_neg hw] at hseed
          exact hseed
    · rw [if_neg hres] at h1
      exact absurd h1 (by simp)

/-- Claim C1, counterexample to clause (b) as stated: `find` on the index
holding offset 0 (vector `(1)`, evaluation 1), with candidate vector `(2)`,
candidate evaluation 2 and self-offset 1, returns offset 0; both evaluations
are non-negative, yet `eval(found) >= eval(candidate)` is false —
`eval(found) = 1 < 2 = eval(candidate)`.  The code (line 655: `n >= m`)
requires the candidate's evaluation to dominate the found one. -/
theorem index_find_b_as_stated_cex :
    (exIx.find [2] 2 1).1 = some 0 ∧
    exIx.Consistent hbArena1 ∧
    0 ≤ hbArena1.evalOf 0 ∧ 0 ≤ (2 : numeral) ∧
    ¬((2 : numeral) ≤ hbArena1.evalOf 0) :=
  ⟨by decide, by decide, by decide, by decide, by decide⟩

/-- Witness for claim C1 at the concrete query of `index_find_b_as_stated_cex`. -/
theorem index_find_sound_witness : hbArena1.evalOf 0 ≤ 2 :=
  ((index_find_sound hbArena1 exIx [2] 2 1 0 exIxOut (by decide) (by decide)).2.2.1
    (by decide)).2

/-! ## The resolution step of the saturation loop (claims C5 and C9) -/

theorem getLast?_mem (l : List Nat) (x : Nat) (h : l.getLast? = some x) : x ∈ l := by
  induction l with
  | nil => simp at h
  | cons a t ih =>
    cases t with
    | nil =>
      simp at h
      simp [h]
    | cons b t' =>
      rw [List.getLast?_cons_cons] at h
      exact List.mem_cons_of_mem _ (ih h)

theorem getLast?_not_mem_dropLast (l : List Nat) (x : Nat) (hnd : l.Nodup)
    (h : l.getLast? = some x) : x ∉ l.dropLast := by
  induction l with
  | nil => simp at h
  | cons a t ih =>
    cases t with
    | nil => simp
    | cons b t' =>
      rw [List.getLast?_cons_cons] at h
      obtain ⟨ha, ht⟩ := List.nodup_cons.1 hnd
      have hx : x ∈ b :: t' := getLast?_mem _ _ h
      intro hmem
      rw [show (a :: b :: t').dropLast = a :: (b :: t').dropLast from rfl] at hmem
      rcases List.mem_cons.1 hmem with hmem | hmem
      · exact ha (hmem ▸ hx)
      · exact ih ht h hmem

theorem range_map_getD (f : Nat → numeral) (n k : Nat) (d : numeral) (h : k < n) :
    ((List.range n).map f).getD k d = f k := by
  induction n with
  | zero => omega
  | succ m ih =>
    rw [List.range_succ, List.map_append]
    rcases Nat.lt_or_ge k m with hk | hk
    · rw [getD_append_left _ _ k d (by simpa using hk)]
      exact ih hk
    · have hk2 : k = m := by omega
      subst hk2
      have hlen : ((List.range k).map f).length = k := by simp
      have hcat := getD_concat_len ((List.range k).map f) (f k) d
      rw [hlen] at hcat
      exact hcat

theorem alloc_vector_spec (hb : hilbert_basis)
    (hE : hb.m_eval.length = hb.m_store.length)
    (hFN : hb.m_free_list.Nodup)
    (hF : ∀ x ∈ hb.m_free_list, x < hb.m_store.length) :
    (hb.alloc_vector).1 < (hb.alloc_vector).2.m_store.length ∧
    (hb.alloc_vector).1 ∉ (hb.alloc_vector).2.m_free_list ∧
    (∀ x ∈ (hb.alloc_vector).2.m_free_list, x ∈ hb.m_free_list) ∧
    (hb.alloc_vector).2.m_free_list.Nodup ∧
    (hb.alloc_vector).2.m_eval.length = (hb.alloc_vector).2.m_store.length ∧
    hb.m_store.length ≤ (hb.alloc_vector).2.m_store.length ∧
    (∀ o, o < hb.m_store.length →
      (hb.alloc_vector).2.vec o = hb.vec o ∧ (hb.alloc_vector).2.evalOf o = hb.evalOf o) ∧
    ((hb.alloc_vector).1 ∈ hb.m_free_list ∨ (hb.alloc_vector).1 = hb.m_store.length) ∧
    (hb.alloc_vector).2.m_index = hb.m_index ∧
    (hb.alloc_vector).2.m_active = hb.m_active ∧
    (hb.alloc_vector).2.m_ineqs = hb.m_ineqs := by
  unfold hilbert_basis.alloc_vector
  cases hlast : hb.m_free_list.getLast? with
  | none =>
    refine ⟨?_, ?_, ?_, ?_, ?_, ?_, ?_, ?_, ?_, ?_, ?_⟩
    · simp
    · intro hmem
      exact absurd (hF _ hmem) (lt_irrefl _)
    · exact fun x hx => hx
    · exact hFN
    · simp [hE]
    · simp
    · intro o ho
      refine ⟨?_, ?_⟩
      · show (hb.m_store ++ [List.replicate hb.get_num_vars 0]).getD o [] = hb.vec o
        rw [getD_append_left _ _ o [] ho]
        rfl
      · show (hb.m_eval ++ [0]).getD o 0 = hb.evalOf o
        rw [getD_append_left _ _ o 0 (by rw [hE]; exact ho)]
        rfl
    · exact Or.inr rfl
    · rfl
    · rfl
    · rfl
  | some j =>
    have hjmem : j ∈ hb.m_free_list := getLast?_mem _ _ hlast
    refine ⟨?_, ?_, ?_, ?_, ?_, ?_, ?_, ?_, ?_, ?_, ?_⟩
    · exact hF j hjmem
    · exact getLast?_not_mem_dropLast _ _ hFN hlast
    · exact fun x hx => (List.dropLast_sublist hb.m_free_list).subset hx
    · exact List.Nodup.sublist (List.dropLast_sublist _) hFN
    · exact hE
    · exact le_refl _
    · exact fun o ho => ⟨rfl, rfl⟩
    · exact Or.inl hjmem
    · rfl
    · rfl
    · rfl

theorem getD_eq_getElem {α : Type} (l : List α) (i : Nat) (d : α) (h : i < l.length) :
    l.getD i d = l[i] := by
  induction l generalizing i with
  | nil => simp at h
  | cons a t ih =>
    cases i with
    | zero => rfl
    | succ i' => exact ih i' (by simpa using h)

theorem mem_bucket_set (offs : List (List Nat)) (val : Nat) (b' : List Nat) (o : Nat)
    (hsub : ∀ x ∈ offs.getD val [], x ∈ b')
    (h : ∃ l ∈ offs, o ∈ l) : ∃ l ∈ offs.set val b', o ∈ l := by
  obtain ⟨l, hl, ho⟩ := h
  obtain ⟨i, hi, hil⟩ := List.mem_iff_getElem.1 hl
  by_cases hv : i = val
  · subst hv
    refine ⟨(offs.set i b').getD i [], getD_mem _ _ _ (by simpa using hi), ?_⟩
    rw [getD_set_self _ _ _ _ hi]
    exact hsub o (by rw [getD_eq_getElem _ _ _ hi, hil]; exact ho)
  · refine ⟨(offs.set val b').getD i [], getD_mem _ _ _ (by simpa using hi), ?_⟩
    rw [getD_set_other _ val i _ _ (fun hc => hv hc.symm),
        getD_eq_getElem _ _ _ hi, hil]
    exact ho

theorem wm_get_value_mono (m : weight_map) (w : numeral) (o : Nat)
    (h : m.IndexedIn o) : ((m.get_value w).2).IndexedIn o := by
  unfold weight_map.get_value
  cases hf : listIndexOf w m.u2r with
  | some val => exact h
  | none =>
    obtain ⟨l, hl, ho⟩ := h
    exact ⟨l, List.mem_append_left _ hl, ho⟩

theorem wm_get_value_len (m : weight_map) (w : numeral)
    (hlen : m.offsets.length = m.u2r.length) :
    ((m.get_value w).2).offsets.length = ((m.get_value w).2).u2r.length := by
  unfold weight_map.get_value
  cases hf : listIndexOf w m.u2r with
  | some val => exact hlen
  | none => simp [hlen]

theorem wm_get_value_lt (m : weight_map) (w : numeral)
    (hlen : m.offsets.length = m.u2r.length) :
    (m.get_value w).1 < ((m.get_value w).2).offsets.length := by
  unfold weight_map.get_value
  cases hf : listIndexOf w m.u2r with
  | some val =>
    have := listIndexOf_lt_length w m.u2r val hf
    simpa [hlen] using this
  | none => simp [hlen]

theorem wm_insert_mono (m : weight_map) (o' : Nat) (w : numeral) (o : Nat)
    (h : m.IndexedIn o) : (m.insert o' w).IndexedIn o := by
  unfold weight_map.insert
  cases hgv : m.get_value w with
  | mk val m' =>
    have hm' : m'.IndexedIn o := by
      have := wm_get_value_mono m w o h
      rw [hgv] at this
      exact this
    exact mem_bucket_set _ _ _ _ (fun x hx => List.mem_append_left _ hx) hm'

theorem wm_insert_self (m : weight_map) (o : Nat) (w : numeral)
    (hlen : m.offsets.length = m.u2r.length) : (m.insert o w).IndexedIn o := by
  unfold weight_map.insert
  cases hgv : m.get_value w with
  | mk val m' =>
    have hvlt : val < m'.offsets.length := by
      have := wm_get_value_lt m w hlen
      rw [hgv] at this
      exact this
    refine ⟨(m'.offsets.set val (m'.offsets.getD val [] ++ [o])).getD val [],
      getD_mem _ _ _ (by simpa using hvlt), ?_⟩
    rw [getD_set_self _ _ _ _ hvlt]
    exact List.mem_append_right _ (List.mem_singleton.2 rfl)

theorem wm_insert_len (m : weight_map) (o : Nat) (w : numeral)
    (hlen : m.offsets.length = m.u2r.length) :
    (m.insert o w).offsets.length = (m.insert o w).u2r.length := by
  unfold weight_map.insert
  cases hgv : m.get_value w with
  | mk val m' =>
    have := wm_get_value_len m w hlen
    rw [hgv] at this
    simpa using this

theorem is_subsumed_index (hb : hilbert_basis) (o : Nat) :
    (hb.is_subsumed o).2.m_index.weight
      = ((hb.m_index.weight).get_value (hb.evalOf o)).2 ∧
    (hb.is_subsumed o).2.m_index.values = hb.m_index.values := by
  unfold hilbert_basis.is_subsumed hb_index.find weight_map.init_find
  cases hgv : (hb.m_index.weight).get_value (hb.evalOf o) with
  | mk val m' => exact ⟨rfl, rfl⟩

theorem add_goal_weight (hb : hilbert_basis) (o : Nat)
    (hlen : hb.m_index.weight.offsets.length = hb.m_index.weight.u2r.length) :
    (hb.add_goal o).m_index.weight.IndexedIn o ∧
    (∀ o', hb.m_index.weight.IndexedIn o' → (hb.add_goal o).m_index.weight.IndexedIn o') ∧
    (hb.add_goal o).m_index.weight.offsets.length
      = (hb.add_goal o).m_index.weight.u2r.length := by
  unfold hilbert_basis.add_goal
  set hb1 : hilbert_basis :=
    { hb with m_index := hb.m_index.insert o (hb.vec o) (hb.evalOf o) } with hdef
  have hw1 : hb1.m_index.weight = hb.m_index.weight.insert o (hb.evalOf o) := rfl
  have hself : hb1.m_index.weight.IndexedIn o := by
    rw [hw1]; exact wm_insert_self _ _ _ hlen
  have hmono : ∀ o', hb.m_index.weight.IndexedIn o' → hb1.m_index.weight.IndexedIn o' := by
    intro o' h'
    rw [hw1]; exact wm_insert_mono _ _ _ _ h'
  have hlen1 : hb1.m_index.weight.offsets.length = hb1.m_index.weight.u2r.length := by
    rw [hw1]; exact wm_insert_len _ _ _ hlen
  by_cases hz : hb1.evalOf o = 0
  · rw [if_pos hz]
    cases hsub : hb1.is_subsumed o with
    | mk b hb2 =>
    have hidx := is_subsumed_index hb1 o
    rw [hsub] at hidx
    have hw2 : hb2.m_index.weight = ((hb1.m_index.weight).get_value (hb1.evalOf o)).2 :=
      hidx.1
    cases b with
    | true =>
      refine ⟨?_, ?_, ?_⟩
      · rw [hw2]; exact wm_get_value_mono _ _ _ hself
      · intro o' h'; rw [hw2]; exact wm_get_value_mono _ _ _ (hmono o' h')
      · rw [hw2]; exact wm_get_value_len _ _ hlen1
    | false =>
      refine ⟨?_, ?_, ?_⟩
      · show hb2.m_index.weight.IndexedIn o
        rw [hw2]; exact wm_get_value_mono _ _ _ hself
      · intro o' h'
        show hb2.m_index.weight.IndexedIn o'
        rw [hw2]; exact wm_get_value_mono _ _ _ (hmono o' h')
      · show hb2.m_index.weight.offsets.length = hb2.m_index.weight.u2r.length
        rw [hw2]; exact wm_get_value_len _ _ hlen1
  · rw [if_neg hz]
    have hpf := (passive_insert_frame hb1 o).2.2.2.2.2.2.2
    refine ⟨?_, ?_, ?_⟩
    · rw [hpf]; exact hself
    · intro o' h'; rw [hpf]; exact hmono o' h'
    · rw [hpf]; exact hlen1

theorem resolve_spec (hb : hilbert_basis) (i a j : Nat)
    (hj : j < hb.m_store.length)
    (hE : hb.m_eval.length = hb.m_store.length) :
    (∀ k, k < hb.get_num_vars →
      ((hb.resolve i a j).vec j).getD k 0 = (hb.vec i).getD k 0 + (hb.vec a).getD k 0) ∧
    (hb.resolve i a j).evalOf j = hb.evalOf i + hb.evalOf a ∧
    (∀ o, o ≠ j → (hb.resolve i a j).vec o = hb.vec o ∧
      (hb.resolve i a j).evalOf o = hb.evalOf o) ∧
    (hb.resolve i a j).m_store.length = hb.m_store.length ∧
    (hb.resolve i a j).m_eval.length = hb.m_eval.length := by
  refine ⟨?_, ?_, ?_, by simp [hilbert_basis.resolve], by simp [hilbert_basis.resolve]⟩
  · intro k hk
    show ((hb.m_store.set j _).getD j []).getD k 0 = _
    rw [getD_set_self _ _ _ _ hj]
    exact range_map_getD _ _ _ _ hk
  · show (hb.m_eval.set j _).getD j 0 = _
    rw [getD_set_self _ _ _ _ (by rw [hE]; exact hj)]
  · intro o ho
    constructor
    · show (hb.m_store.set j _).getD o [] = _
      rw [getD_set_other _ _ _ _ _ (fun hc => ho hc.symm)]
      rfl
    · show (hb.m_eval.set j _).getD o 0 = _
      rw [getD_set_other _ _ _ _ _ (fun hc => ho hc.symm)]
      rfl

theorem num_vars_congr (s t : hilbert_basis) (h : s.m_ineqs = t.m_ineqs) :
    s.get_num_vars = t.get_num_vars := by
  unfold hilbert_basis.get_num_vars
  rw [h]

theorem get_sign_congr (s t : hilbert_basis) (o : Nat) (h : s.evalOf o = t.evalOf o) :
    s.get_sign o = t.get_sign o := by
  unfold hilbert_basis.get_sign
  rw [h]

theorem resolve_fold_cons (idx a : Nat) (t : List Nat) (st : hilbert_basis) :
    hilbert_basis.resolve_fold idx (a :: t) st
      = hilbert_basis.resolve_fold idx t (st.resolve_step idx a) := rfl

theorem resolve_fold_spec (idx : Nat) (as : List Nat) (st : hilbert_basis)
    (hE : st.m_eval.length = st.m_store.length)
    (hFN : st.m_free_list.Nodup)
    (hF : ∀ x ∈ st.m_free_list, x < st.m_store.length)
    (hlen : st.m_index.weight.offsets.length = st.m_index.weight.u2r.length)
    (hidx : idx < st.m_store.length) (hidxF : idx ∉ st.m_free_list)
    (hA : ∀ x ∈ st.m_active, x < st.m_store.length ∧ x ∉ st.m_free_list)
    (has : ∀ x ∈ as, x < st.m_store.length ∧ x ∉ st.m_free_list) :
    (hilbert_basis.resolve_fold idx as st).m_eval.length
      = (hilbert_basis.resolve_fold idx as st).m_store.length ∧
    st.m_store.length ≤ (hilbert_basis.resolve_fold idx as st).m_store.length ∧
    (∀ x ∈ (hilbert_basis.resolve_fold idx as st).m_free_list, x ∈ st.m_free_list) ∧
    (hilbert_basis.resolve_fold idx as st).m_free_list.Nodup ∧
    (hilbert_basis.resolve_fold idx as st).m_active = st.m_active ∧
    (hilbert_basis.resolve_fold idx as st).m_ineqs = st.m_ineqs ∧
    (hilbert_basis.resolve_fold idx as st).m_index.weight.offsets.length
      = (hilbert_basis.resolve_fold idx as st).m_index.weight.u2r.length ∧
    (∀ o, o < st.m_store.length → o ∉ st.m_free_list →
      (hilbert_basis.resolve_fold idx as st).vec o = st.vec o ∧
      (hilbert_basis.resolve_fold idx as st).evalOf o = st.evalOf o) ∧
    (∀ o, st.m_index.weight.IndexedIn o →
      (hilbert_basis.resolve_fold idx as st).m_index.weight.IndexedIn o) ∧
    (∀ a ∈ as, st.get_sign idx ≠ st.get_sign a →
      ∃ j, j ≠ idx ∧ j ∉ st.m_active ∧
        (∀ k, k < st.get_num_vars →
          ((hilbert_basis.resolve_fold idx as st).vec j).getD k 0
            = (st.vec idx).getD k 0 + (st.vec a).getD k 0) ∧
        (hilbert_basis.resolve_fold idx as st).evalOf j
          = st.evalOf idx + st.evalOf a ∧
        (hilbert_basis.resolve_fold idx as st).m_index.weight.IndexedIn j) := by
  induction as generalizing st with
  | nil =>
    exact ⟨hE, le_refl _, fun x hx => hx, hFN, rfl, rfl, hlen,
      fun o _ _ => ⟨rfl, rfl⟩, fun o h => h,
      fun a ha => absurd ha (List.not_mem_nil a)⟩
  | cons a t ih =>
    rw [resolve_fold_cons]
    by_cases hsign : st.get_sign idx = st.get_sign a
    · have hstep : st.resolve_step idx a = st := by
        unfold hilbert_basis.resolve_step
        rw [if_neg (not_not_intro hsign)]
      rw [hstep]
      obtain ⟨I1, I2, I3, I4, I5, I6, I7, I8, I9, I10⟩ :=
        ih st hE hFN hF hlen hidx hidxF hA
          (fun x hx => has x (List.mem_cons_of_mem a hx))
      refine ⟨I1, I2, I3, I4, I5, I6, I7, I8, I9, ?_⟩
      intro a' ha' hs
      rcases List.mem_cons.1 ha' with ha' | ha''
      · exact absurd hsign (ha' ▸ hs)
      · exact I10 a' ha'' hs
    · cases halloc : st.alloc_vector with
      | mk j st1 =>
      have AS := alloc_vector_spec st hE hFN hF
      rw [halloc] at AS
      have A1 : j < st1.m_store.length := AS.1
      have A2 : j ∉ st1.m_free_list := AS.2.1
      have A3 : ∀ x ∈ st1.m_free_list, x ∈ st.m_free_list := AS.2.2.1
      have A4 : st1.m_free_list.Nodup := AS.2.2.2.1
      have A5 : st1.m_eval.length = st1.m_store.length := AS.2.2.2.2.1
      have A6 : st.m_store.length ≤ st1.m_store.length := AS.2.2.2.2.2.1
      have A7 : ∀ o, o < st.m_store.length →
          st1.vec o = st.vec o ∧ st1.evalOf o = st.evalOf o := AS.2.2.2.2.2.2.1
      have A8 : j ∈ st.m_free_list ∨ j = st.m_store.length := AS.2.2.2.2.2.2.2.1
      have A9 : st1.m_index = st.m_index := AS.2.2.2.2.2.2.2.2.1
      have A10 : st1.m_active = st.m_active := AS.2.2.2.2.2.2.2.2.2.1
      have A11 : st1.m_ineqs = st.m_ineqs := AS.2.2.2.2.2.2.2.2.2.2
      set st2 : hilbert_basis := st1.resolve idx a j with hst2
      set st3 : hilbert_basis := st2.add_goal j with hst3
      have hstep : st.resolve_step idx a = st3 := by
        unfold hilbert_basis.resolve_step
        rw [if_pos hsign, halloc]
      rw [hstep]
      have R1 : ∀ k, k < st1.get_num_vars →
          (st2.vec j).getD k 0 = (st1.vec idx).getD k 0 + (st1.vec a).getD k 0 :=
        (resolve_spec st1 idx a j A1 A5).1
      have R2 : st2.evalOf j = st1.evalOf idx + st1.evalOf a :=
        (resolve_spec st1 idx a j A1 A5).2.1
      have R3 : ∀ o, o ≠ j → st2.vec o = st1.vec o ∧ st2.evalOf o = st1.evalOf o :=
        (resolve_spec st1 idx a j A1 A5).2.2.1
      have R4 : st2.m_store.length = st1.m_store.length :=
        (resolve_spec st1 idx a j A1 A5).2.2.2.1
      have R5 : st2.m_eval.length = st1.m_eval.length :=
        (resolve_spec st1 idx a j A1 A5).2.2.2.2
      have RF1 : st2.m_free_list = st1.m_free_list := (resolve_frame st1 idx a j).1
      have RF2 : st2.m_active = st1.m_active := (resolve_frame st1 idx a j).2.1
      have RF4 : st2.m_ineqs = st1.m_ineqs := (resolve_frame st1 idx a j).2.2.2.1
      have RF6 : st2.m_index = st1.m_index := (resolve_frame st1 idx a j).2.2.2.2.2.1
      have AG1 : st3.m_store = st2.m_store := (add_goal_frame st2 j).1
      have AG2 : st3.m_eval = st2.m_eval := (add_goal_frame st2 j).2.1
      have AG3 : st3.m_free_list = st2.m_free_list := (add_goal_frame st2 j).2.2.1
      have AG4 : st3.m_active = st2.m_active := (add_goal_frame st2 j).2.2.2.1
      have AG6 : st3.m_ineqs = st2.m_ineqs := (add_goal_frame st2 j).2.2.2.2.2
      have hix2 : st2.m_index = st.m_index := by rw [RF6, A9]
      have hlen2 : st2.m_index.weight.offsets.length = st2.m_index.weight.u2r.length := by
        rw [hix2]; exact hlen
      have W1 : st3.m_index.weight.IndexedIn j := (add_goal_weight st2 j hlen2).1
      have W2 : ∀ o', st2.m_index.weight.IndexedIn o' → st3.m_index.weight.IndexedIn o' :=
        (add_goal_weight st2 j hlen2).2.1
      have W3 : st3.m_index.weight.offsets.length = st3.m_index.weight.u2r.length :=
        (add_goal_weight st2 j hlen2).2.2
      have hnv1 : st1.get_num_vars = st.get_num_vars := num_vars_congr _ _ A11
      have hvidx : st1.vec idx = st.vec idx := (A7 idx hidx).1
      have heidx : st1.evalOf idx = st.evalOf idx := (A7 idx hidx).2
      have hamem := has a (List.mem_cons_self a t)
      have hva : st1.vec a = st.vec a := (A7 a hamem.1).1
      have hea : st1.evalOf a = st.evalOf a := (A7 a hamem.1).2
      have hjidx : j ≠ idx := by
        rcases A8 with hm | hl
        · exact fun hc => hidxF (hc ▸ hm)
        · omega
      have hjact : j ∉ st.m_active := by
        intro hmem
        obtain ⟨hx1, hx2⟩ := hA j hmem
        rcases A8 with hm | hl
        · exact hx2 hm
        · omega
      have hsl3 : st3.m_store.length = st1.m_store.length := by rw [AG1]; exact R4
      have hfree3 : st3.m_free_list = st1.m_free_list := by rw [AG3]; exact RF1
      have hE3 : st3.m_eval.length = st3.m_store.length := by
        rw [AG2, AG1, R5, R4]; exact A5
      have hFN3 : st3.m_free_list.Nodup := by rw [hfree3]; exact A4
      have hF3 : ∀ x ∈ st3.m_free_list, x < st3.m_store.length := by
        intro x hx
        rw [hfree3] at hx
        rw [hsl3]
        exact lt_of_lt_of_le (hF x (A3 x hx)) A6
      have hidx3 : idx < st3.m_store.length := by
        rw [hsl3]; exact lt_of_lt_of_le hidx A6
      have hidxF3 : idx ∉ st3.m_free_list := by
        rw [hfree3]; intro hc; exact hidxF (A3 idx hc)
      have hact3 : st3.m_active = st.m_active := by rw [AG4, RF2, A10]
      have hineq3 : st3.m_ineqs = st.m_ineqs := by rw [AG6, RF4, A11]
      have hA3 : ∀ x ∈ st3.m_active, x < st3.m_store.length ∧ x ∉ st3.m_free_list := by
        intro x hx
        rw [hact3] at hx
        obtain ⟨h1, h2⟩ := hA x hx
        refine ⟨by rw [hsl3]; exact lt_of_lt_of_le h1 A6, ?_⟩
        rw [hfree3]; intro hc; exact h2 (A3 x hc)
      have has3 : ∀ x ∈ t, x < st3.m_store.length ∧ x ∉ st3.m_free_list := by
        intro x hx
        obtain ⟨h1, h2⟩ := has x (List.mem_cons_of_mem a hx)
        refine ⟨by rw [hsl3]; exact lt_of_lt_of_le h1 A6, ?_⟩
        rw [hfree3]; intro hc; exact h2 (A3 x hc)
      have hpres3 : ∀ o, o < st.m_store.length → o ∉ st.m_free_list →
          st3.vec o = st.vec o ∧ st3.evalOf o = st.evalOf o := by
        intro o ho hof
        have hoj : o ≠ j := by
          rcases A8 with hm | hl
          · exact fun hc => hof (hc ▸ hm)
          · omega
        have hv3 : st3.vec o = st2.vec o := by unfold hilbert_basis.vec; rw [AG1]
        have he3 : st3.evalOf o = st2.evalOf o := by unfold hilbert_basis.evalOf; rw [AG2]
        exact ⟨by rw [hv3, (R3 o hoj).1, (A7 o ho).1],
               by rw [he3, (R3 o hoj).2, (A7 o ho).2]⟩
      obtain ⟨I1, I2, I3, I4, I5, I6, I7, I8, I9, I10⟩ :=
        ih st3 hE3 hFN3 hF3 W3 hidx3 hidxF3 hA3 has3
      have hstle3 : st.m_store.length ≤ st3.m_store.length := by
        rw [hsl3]; exact A6
      refine ⟨I1, le_trans hstle3 I2, ?_, I4, by rw [I5, hact3], by rw [I6, hineq3],
        I7, ?_, ?_, ?_⟩
      · intro x hx
        have := I3 x hx
        rw [hfree3] at this
        exact A3 x this
      · intro o ho hof
        obtain ⟨p1, p2⟩ := hpres3 o ho hof
        have ho3 : o < st3.m_store.length := lt_of_lt_of_le ho hstle3
        have hof3 : o ∉ st3.m_free_list := by
          rw [hfree3]; intro hc; exact hof (A3 o hc)
        obtain ⟨q1, q2⟩ := I8 o ho3 hof3
        exact ⟨q1.trans p1, q2.trans p2⟩
      · intro o hio
        apply I9
        apply W2
        rw [hix2]
        exact hio
      · intro a' ha' hs
        rcases List.mem_cons.1 ha' with ha' | ha''
        · subst ha'
          have hj3 : a' = a' := rfl
          have hjlt3 : j < st3.m_store.length := by rw [hsl3]; exact A1
          have hjf3 : j ∉ st3.m_free_list := by rw [hfree3]; exact A2
          obtain ⟨J1, J2⟩ := I8 j hjlt3 hjf3
          refine ⟨j, hjidx, hjact, ?_, ?_, I9 j W1⟩
          · intro k hk
            rw [J1]
            have h3v : st3.vec j = st2.vec j := by unfold hilbert_basis.vec; rw [AG1]
            have hk1 : k < st1.get_num_vars := by rw [hnv1]; exact hk
            rw [h3v, R1 k hk1, hvidx, hva]
          · rw [J2]
            have h3e : st3.evalOf j = st2.evalOf j := by
              unfold hilbert_basis.evalOf; rw [AG2]
            rw [h3e, R2, heidx, hea]
        · have ha'lt := has a' (List.mem_cons_of_mem a ha'')
          have hsidx3 : st3.evalOf idx = st.evalOf idx := (hpres3 idx hidx hidxF).2
          have hsa'3 : st3.evalOf a' = st.evalOf a' := (hpres3 a' ha'lt.1 ha'lt.2).2
          have hs3 : st3.get_sign idx ≠ st3.get_sign a' := by
            rw [get_sign_congr st3 st idx hsidx3, get_sign_congr st3 st a' hsa'3]
            exact hs
          obtain ⟨j', hj'1, hj'2, hj'3, hj'4, hj'5⟩ := I10 a' ha'' hs3
          rw [hact3] at hj'2
          refine ⟨j', hj'1, hj'2, ?_, ?_, hj'5⟩
          · intro k hk
            have hnv3 : st3.get_num_vars = st.get_num_vars := num_vars_congr _ _ hineq3
            have hk3 : k < st3.get_num_vars := by rw [hnv3]; exact hk
            rw [hj'3 k hk3, (hpres3 idx hidx hidxF).1, (hpres3 a' ha'lt.1 ha'lt.2).1]
          · rw [hj'4, hsidx3, hsa'3]

/-- Claim C5: when the offset `idx` popped from the passive queue is not
subsumed, then for every active offset `a` whose evaluation sign differs from
`idx`'s, a fresh offset `j` (distinct from `idx` and from every active
offset) is allocated with `vec[j][k] = vec[idx][k] + vec[a][k]` for every
coordinate `k` and `eval[j] = eval[idx] + eval[a]`, and `add_goal j` is
invoked (witnessed here by `j` being entered into the evaluation weight map
of the index, which is the first action of `add_goal`); afterwards `idx` is
appended to the active list. -/
theorem drain_step_resolves (hb hb1 hb2 : hilbert_basis) (idx : Nat)
    (hpop : hb.passive_pop = (idx, hb1))
    (hsub : hb1.is_subsumed idx = (false, hb2))
    (hE : hb.m_eval.length = hb.m_store.length)
    (hFN : hb.m_free_list.Nodup)
    (hF : ∀ x ∈ hb.m_free_list, x < hb.m_store.length)
    (hlen : hb.m_index.weight.offsets.length = hb.m_index.weight.u2r.length)
    (hidx : idx < hb.m_store.length)
    (hidxF : idx ∉ hb.m_free_list)
    (hA : ∀ x ∈ hb.m_active, x < hb.m_store.length ∧ x ∉ hb.m_free_list) :
    (hb.drainStep).m_active = hb.m_active ++ [idx] ∧
    (∀ a ∈ hb.m_active, hb.get_sign idx ≠ hb.get_sign a →
      ∃ j, j ≠ idx ∧ j ∉ hb.m_active ∧
        (∀ k, k < hb.get_num_vars →
          ((hb.drainStep).vec j).getD k 0
            = (hb.vec idx).getD k 0 + (hb.vec a).getD k 0) ∧
        (hb.drainStep).evalOf j = hb.evalOf idx + hb.evalOf a ∧
        (hb.drainStep).m_index.weight.IndexedIn j) := by
  have hstep : hb.drainStep
      = { hb2.resolve_all idx with
          m_active := (hb2.resolve_all idx).m_active ++ [idx] } := by
    unfold hilbert_basis.drainStep
    rw [hpop]
    show (match hb1.is_subsumed idx with
          | (true, hb2') => hb2'.recycle idx
          | (false, hb2') =>
            let hb3 := hb2'.resolve_all idx
            { hb3 with m_active := hb3.m_active ++ [idx] })
        = { hb2.resolve_all idx with
            m_active := (hb2.resolve_all idx).m_active ++ [idx] }
    rw [hsub]
  have PF := passive_pop_frame hb
  rw [hpop] at PF
  have P1 : hb1.m_store = hb.m_store := PF.1
  have P2 : hb1.m_eval = hb.m_eval := PF.2.1
  have P3 : hb1.m_free_list = hb.m_free_list := PF.2.2.1
  have P4 : hb1.m_active = hb.m_active := PF.2.2.2.1
  have P6 : hb1.m_ineqs = hb.m_ineqs := PF.2.2.2.2.2.1
  have P8 : hb1.m_index = hb.m_index := PF.2.2.2.2.2.2.2
  have SF := is_subsumed_frame hb1 idx
  rw [hsub] at SF
  have S1 : hb2.m_store = hb1.m_store := SF.1
  have S2 : hb2.m_eval = hb1.m_eval := SF.2.1
  have S3 : hb2.m_free_list = hb1.m_free_list := SF.2.2.1
  have S4 : hb2.m_active = hb1.m_active := SF.2.2.2.1
  have S6 : hb2.m_ineqs = hb1.m_ineqs := SF.2.2.2.2.2.1
  have II := is_subsumed_index hb1 idx
  rw [hsub] at II
  have I1 : hb2.m_index.weight = ((hb1.m_index.weight).get_value (hb1.evalOf idx)).2 :=
    II.1
  have hE2 : hb2.m_eval.length = hb2.m_store.length := by
    rw [S2, P2, S1, P1]; exact hE
  have hFN2 : hb2.m_free_list.Nodup := by rw [S3, P3]; exact hFN
  have hF2 : ∀ x ∈ hb2.m_free_list, x < hb2.m_store.length := by
    intro x hx
    rw [S3, P3] at hx
    rw [S1, P1]
    exact hF x hx
  have hlen2 : hb2.m_index.weight.offsets.length = hb2.m_index.weight.u2r.length := by
    rw [I1, P8]
    exact wm_get_value_len _ _ hlen
  have hidx2 : idx < hb2.m_store.length := by rw [S1, P1]; exact hidx
  have hidxF2 : idx ∉ hb2.m_free_list := by rw [S3, P3]; exact hidxF
  have hact2 : hb2.m_active = hb.m_active := by rw [S4, P4]
  have hA2 : ∀ x ∈ hb2.m_active, x < hb2.m_store.length ∧ x ∉ hb2.m_free_list := by
    intro x hx
    rw [hact2] at hx
    obtain ⟨h1, h2⟩ := hA x hx
    exact ⟨by rw [S1, P1]; exact h1, by rw [S3, P3]; exact h2⟩
  obtain ⟨F1, F2, F3, F4, F5, F6, F7, F8, F9, F10⟩ :=
    resolve_fold_spec idx hb2.m_active hb2 hE2 hFN2 hF2 hlen2 hidx2 hidxF2 hA2 hA2
  have heval2 : ∀ o, hb2.evalOf o = hb.evalOf o := by
    intro o
    unfold hilbert_basis.evalOf
    rw [S2, P2]
  have hvec2 : ∀ o, hb2.vec o = hb.vec o := by
    intro o
    unfold hilbert_basis.vec
    rw [S1, P1]
  constructor
  · rw [hstep]
    show (hilbert_basis.resolve_fold idx hb2.m_active hb2).m_active ++ [idx]
        = hb.m_active ++ [idx]
    rw [F5, hact2]
  · intro a ha hs
    have hsign2 : hb2.get_sign idx ≠ hb2.get_sign a := by
      rw [get_sign_congr hb2 hb idx (heval2 idx), get_sign_congr hb2 hb a (heval2 a)]
      exact hs
    have ha2 : a ∈ hb2.m_active := by rw [hact2]; exact ha
    obtain ⟨j, hj1, hj2, hj3, hj4, hj5⟩ := F10 a ha2 hsign2
    rw [hact2] at hj2
    have hnv2 : hb2.get_num_vars = hb.get_num_vars :=
      num_vars_congr _ _ (by rw [S6, P6])
    refine ⟨j, hj1, hj2, ?_, ?_, ?_⟩
    · intro k hk
      have hk2 : k < hb2.get_num_vars := by rw [hnv2]; exact hk
      have hds : (hb.drainStep).vec j
          = (hilbert_basis.resolve_fold idx hb2.m_active hb2).vec j := by
        rw [hstep]
        rfl
      rw [hds, hj3 k hk2, hvec2 idx, hvec2 a]
    · have hds : (hb.drainStep).evalOf j
          = (hilbert_basis.resolve_fold idx hb2.m_active hb2).evalOf j := by
        rw [hstep]
        rfl
      rw [hds, hj4, heval2 idx, heval2 a]
    · have hds : (hb.drainStep).m_index
          = (hilbert_basis.resolve_fold idx hb2.m_active hb2).m_index := by
        rw [hstep]
        rfl
      rw [hds]
      exact hj5

theorem drain_step_resolves_witness :
    c5st.passive_pop = (1, c5b1) ∧
    c5b1.is_subsumed 1 = (false, c5b2) ∧
    ((c5st.drainStep).m_active = c5st.m_active ++ [1] ∧
     (∀ a ∈ c5st.m_active, c5st.get_sign 1 ≠ c5st.get_sign a →
       ∃ j, j ≠ 1 ∧ j ∉ c5st.m_active ∧
         (∀ k, k < c5st.get_num_vars →
           ((c5st.drainStep).vec j).getD k 0
             = (c5st.vec 1).getD k 0 + (c5st.vec a).getD k 0) ∧
         (c5st.drainStep).evalOf j = c5st.evalOf 1 + c5st.evalOf a ∧
         (c5st.drainStep).m_index.weight.IndexedIn j)) :=
  ⟨by decide, by decide,
   drain_step_resolves c5st c5b1 c5b2 1 (by decide) (by decide) (by decide)
     (by decide) (by decide) (by decide) (by decide) (by decide) (by decide)⟩

theorem nodup_concat (l : List Nat) (x : Nat) (hn : l.Nodup) (hx : x ∉ l) :
    (l ++ [x]).Nodup := by
  induction l with
  | nil => simp
  | cons a t ih =>
    obtain ⟨ha, ht⟩ := List.nodup_cons.1 hn
    rw [List.cons_append, List.nodup_cons]
    refine ⟨?_, ih ht (fun hc => hx (List.mem_cons_of_mem a hc))⟩
    intro hmem
    rcases List.mem_append.1 hmem with hmem | hmem
    · exact ha hmem
    · exact hx (List.mem_singleton.1 hmem ▸ List.mem_cons_self a t)

theorem get_sign_pos (hb : hilbert_basis) (o : Nat) (h : 0 < hb.evalOf o) :
    hb.get_sign o = sign_t.pos := by
  unfold hilbert_basis.get_sign
  rw [if_pos h]

theorem get_sign_neg (hb : hilbert_basis) (o : Nat) (h : hb.evalOf o < 0) :
    hb.get_sign o = sign_t.neg := by
  unfold hilbert_basis.get_sign
  rw [if_neg (not_lt.2 (le_of_lt h)), if_pos h]

theorem Inv9_congr (s t : hilbert_basis)
    (h1 : s.m_store = t.m_store) (h2 : s.m_eval = t.m_eval)
    (h3 : s.m_free_list = t.m_free_list) (h4 : s.m_active = t.m_active)
    (h5 : s.m_passive = t.m_passive) : s.Inv9 ↔ t.Inv9 := by
  unfold hilbert_basis.Inv9 hilbert_basis.PQWF hilbert_basis.evalOf
  rw [h1, h2, h3, h4, h5]

theorem add_goal_zero (st : hilbert_basis) (o : Nat) (h0 : st.evalOf o = 0) :
    (st.add_goal o).m_passive = st.m_passive ∧
    ((st.add_goal o).m_zero = st.m_zero ++ [o] ∨ (st.add_goal o).m_zero = st.m_zero) := by
  unfold hilbert_basis.add_goal
  set hb1 : hilbert_basis :=
    { st with m_index := st.m_index.insert o (st.vec o) (st.evalOf o) } with hdef
  have h0' : hb1.evalOf o = 0 := h0
  rw [if_pos h0']
  cases hsub : hb1.is_subsumed o with
  | mk b hb2 =>
    have hfp : hb2.m_passive = hb1.m_passive := by
      have := (is_subsumed_frame hb1 o).2.2.2.2.2.2.2
      rw [hsub] at this
      exact this
    have hfz : hb2.m_zero = hb1.m_zero := by
      have := (is_subsumed_frame hb1 o).2.2.2.2.2.2.1
      rw [hsub] at this
      exact this
    cases b with
    | true => exact ⟨hfp, Or.inr hfz⟩
    | false => exact ⟨hfp, Or.inl (by show hb2.m_zero ++ [o] = _; rw [hfz])⟩

theorem passive_insert_eq_none (st : hilbert_basis) (o : Nat)
    (h : st.m_passive.m_free_list.getLast? = none) :
    st.passive_insert o = { st with m_passive :=
      { m_passive := st.m_passive.m_passive ++ [some o],
        m_weights := st.m_passive.m_weights ++ [st.passive_get_weight o],
        m_free_list := st.m_passive.m_free_list,
        heap := st.m_passive.heap ++ [st.m_passive.m_passive.length] } } := by
  simp only [hilbert_basis.passive_insert]
  rw [h]

theorem passive_insert_eq_some (st : hilbert_basis) (o v : Nat)
    (h : st.m_passive.m_free_list.getLast? = some v) :
    st.passive_insert o = { st with m_passive :=
      { m_passive := st.m_passive.m_passive.set v (some o),
        m_weights := st.m_passive.m_weights.set v (st.passive_get_weight o),
        m_free_list := st.m_passive.m_free_list.dropLast,
        heap := st.m_passive.heap ++ [v] } } := by
  simp only [hilbert_basis.passive_insert]
  rw [h]

theorem passive_insert_inv9 (st : hilbert_basis) (o : Nat) (hInv : st.Inv9)
    (ho1 : o < st.m_store.length) (ho2 : o ∉ st.m_free_list)
    (ho3 : o ∉ st.m_active) (hoe : st.evalOf o ≠ 0)
    (ho4 : ∀ i, i < st.m_passive.m_passive.length →
      st.m_passive.m_passive.getD i none ≠ some o) :
    (st.passive_insert o).Inv9 ∧
    (∀ i, i < (st.passive_insert o).m_passive.m_passive.length →
      ∀ x, (st.passive_insert o).m_passive.m_passive.getD i none = some x →
        x = o ∨ ∃ i', i' < st.m_passive.m_passive.length ∧
          st.m_passive.m_passive.getD i' none = some x) := by
  obtain ⟨hE, hFN, hF, hAct, hP1, hP2, hP3, hP4, hP5, hP6⟩ := hInv
  cases hlast : st.m_passive.m_free_list.getLast? with
  | none =>
    rw [passive_insert_eq_none st o hlast]
    refine ⟨⟨hE, hFN, hF, hAct, ?_, ?_, hP3, ?_, ?_, ?_⟩, ?_⟩
    · -- heap nodup
      show (st.m_passive.heap ++ [st.m_passive.m_passive.length]).Nodup
      refine nodup_concat _ _ hP1 ?_
      intro hc
      exact absurd (hP2 _ hc).1 (lt_irrefl _)
    · -- heap ids point at filled slots
      intro id hid
      show id < (st.m_passive.m_passive ++ [some o]).length ∧ _
      rcases List.mem_append.1 hid with h | h
      · obtain ⟨hb1, hb2⟩ := hP2 id h
        refine ⟨by simp; omega, ?_⟩
        rw [getD_append_left _ _ _ _ hb1]
        exact hb2
      · have hv : id = st.m_passive.m_passive.length := List.mem_singleton.1 h
        subst hv
        refine ⟨by simp, ?_⟩
        rw [getD_concat_len]
        rfl
    · -- internal free slots empty
      intro v hv
      obtain ⟨h1, h2⟩ := hP4 v hv
      refine ⟨by simp; omega, ?_⟩
      rw [getD_append_left _ _ _ _ h1]
      exact h2
    · -- slot distinctness
      intro i hi j hj x hxi hxj
      have hi' : i < st.m_passive.m_passive.length + 1 := by simpa using hi
      have hj' : j < st.m_passive.m_passive.length + 1 := by simpa using hj
      rcases Nat.lt_or_ge i st.m_passive.m_passive.length with hilt | hige
      · rcases Nat.lt_or_ge j st.m_passive.m_passive.length with hjlt | hjge
        · rw [getD_append_left _ _ _ _ hilt] at hxi
          rw [getD_append_left _ _ _ _ hjlt] at hxj
          exact hP5 i hilt j hjlt x hxi hxj
        · have hj2 : j = st.m_passive.m_passive.length := by omega
          subst hj2
          rw [getD_concat_len] at hxj
          have hxo : x = o := (Option.some.inj hxj).symm
          subst hxo
          rw [getD_append_left _ _ _ _ hilt] at hxi
          exact absurd hxi (ho4 i hilt)
      · have hi2 : i = st.m_passive.m_passive.length := by omega
        subst hi2
        rcases Nat.lt_or_ge j st.m_passive.m_passive.length with hjlt | hjge
        · rw [getD_concat_len] at hxi
          have hxo : x = o := (Option.some.inj hxi).symm
          subst hxo
          rw [getD_append_left _ _ _ _ hjlt] at hxj
          exact absurd hxj (ho4 j hjlt)
        · omega
    · -- queued offsets live
      intro i hi x hx
      have hi' : i < st.m_passive.m_passive.length + 1 := by simpa using hi
      rcases Nat.lt_or_ge i st.m_passive.m_passive.length with hilt | hige
      · rw [getD_append_left _ _ _ _ hilt] at hx
        exact hP6 i hilt x hx
      · have hi2 : i = st.m_passive.m_passive.length := by omega
        subst hi2
        rw [getD_concat_len] at hx
        have hxo : x = o := (Option.some.inj hx).symm
        subst hxo
        exact ⟨ho1, ho2, hoe, ho3⟩
    · -- slots only gain o
      intro i hi x hx
      have hi' : i < st.m_passive.m_passive.length + 1 := by simpa using hi
      rcases Nat.lt_or_ge i st.m_passive.m_passive.length with hilt | hige
      · rw [getD_append_left _ _ _ _ hilt] at hx
        exact Or.inr ⟨i, hilt, hx⟩
      · have hi2 : i = st.m_passive.m_passive.length := by omega
        subst hi2
        rw [getD_concat_len] at hx
        exact Or.inl (Option.some.inj hx).symm
  | some v =>
    have hvmem : v ∈ st.m_passive.m_free_list := getLast?_mem _ _ hlast
    obtain ⟨hvlt, hvnone⟩ := hP4 v hvmem
    have hvheap : v ∉ st.m_passive.heap := by
      intro hc
      have := (hP2 v hc).2
      rw [hvnone] at this
      simp at this
    rw [passive_insert_eq_some st o v hlast]
    refine ⟨⟨hE, hFN, hF, hAct, ?_, ?_, ?_, ?_, ?_, ?_⟩, ?_⟩
    · exact nodup_concat _ _ hP1 hvheap
    · intro id hid
      show id < (st.m_passive.m_passive.set v (some o)).length ∧ _
      rcases List.mem_append.1 hid with h | h
      · obtain ⟨hb1, hb2⟩ := hP2 id h
        have hidv : v ≠ id := fun hc => hvheap (hc ▸ h)
        refine ⟨by simpa using hb1, ?_⟩
        rw [getD_set_other _ _ _ _ _ hidv]
        exact hb2
      · have hvid : id = v := List.mem_singleton.1 h
        subst hvid
        refine ⟨by simpa using hvlt, ?_⟩
        rw [getD_set_self _ _ _ _ hvlt]
        rfl
    · exact List.Nodup.sublist (List.dropLast_sublist _) hP3
    · intro v' hv'
      have hv'mem : v' ∈ st.m_passive.m_free_list :=
        (List.dropLast_sublist _).subset hv'
      obtain ⟨h1, h2⟩ := hP4 v' hv'mem
      have hv'v : v ≠ v' := by
        intro hc
        exact getLast?_not_mem_dropLast _ _ hP3 hlast (hc ▸ hv')
      refine ⟨by simpa using h1, ?_⟩
      rw [getD_set_other _ _ _ _ _ hv'v]
      exact h2
    · intro i hi j hj x hxi hxj
      have hi' : i < st.m_passive.m_passive.length := by simpa using hi
      have hj' : j < st.m_passive.m_passive.length := by simpa using hj
      by_cases hiv : v = i
      · by_cases hjv : v = j
        · omega
        · rw [getD_set_other _ _ _ _ _ hjv] at hxj
          rw [← hiv, getD_set_self _ _ _ _ hvlt] at hxi
          have hxo : x = o := (Option.some.inj hxi).symm
          subst hxo
          exact absurd hxj (ho4 j hj')
      · by_cases hjv : v = j
        · rw [getD_set_other _ _ _ _ _ hiv] at hxi
          rw [← hjv, getD_set_self _ _ _ _ hvlt] at hxj
          have hxo : x = o := (Option.some.inj hxj).symm
          subst hxo
          exact absurd hxi (ho4 i hi')
        · rw [getD_set_other _ _ _ _ _ hiv] at hxi
          rw [getD_set_other _ _ _ _ _ hjv] at hxj
          exact hP5 i hi' j hj' x hxi hxj
    · intro i hi x hx
      have hi' : i < st.m_passive.m_passive.length := by simpa using hi
      by_cases hiv : v = i
      · rw [← hiv, getD_set_self _ _ _ _ hvlt] at hx
        have hxo : x = o := (Option.some.inj hx).symm
        subst hxo
        exact ⟨ho1, ho2, hoe, ho3⟩
      · rw [getD_set_other _ _ _ _ _ hiv] at hx
        exact hP6 i hi' x hx
    · intro i hi x hx
      have hi' : i < st.m_passive.m_passive.length := by simpa using hi
      by_cases hiv : v = i
      · rw [← hiv, getD_set_self _ _ _ _ hvlt] at hx
        exact Or.inl (Option.some.inj hx).symm
      · rw [getD_set_other _ _ _ _ _ hiv] at hx
        exact Or.inr ⟨i, hi', hx⟩

theorem add_goal_inv9 (st : hilbert_basis) (o : Nat) (hInv : st.Inv9)
    (ho1 : o < st.m_store.length) (ho2 : o ∉ st.m_free_list) (ho3 : o ∉ st.m_active)
    (ho4 : ∀ i, i < st.m_passive.m_passive.length →
      st.m_passive.m_passive.getD i none ≠ some o) :
    (st.add_goal o).Inv9 ∧
    (∀ i, i < (st.add_goal o).m_passive.m_passive.length →
      ∀ x, (st.add_goal o).m_passive.m_passive.getD i none = some x →
        x = o ∨ ∃ i', i' < st.m_passive.m_passive.length ∧
          st.m_passive.m_passive.getD i' none = some x) := by
  unfold hilbert_basis.add_goal
  set hb1 : hilbert_basis :=
    { st with m_index := st.m_index.insert o (st.vec o) (st.evalOf o) } with hdef
  have hInv1 : hb1.Inv9 := hInv
  by_cases hz : hb1.evalOf o = 0
  · rw [if_pos hz]
    cases hsub : hb1.is_subsumed o with
    | mk b hb2 =>
    have SF := is_subsumed_frame hb1 o
    rw [hsub] at SF
    have F1 : hb2.m_store = hb1.m_store := SF.1
    have F2 : hb2.m_eval = hb1.m_eval := SF.2.1
    have F3 : hb2.m_free_list = hb1.m_free_list := SF.2.2.1
    have F4 : hb2.m_active = hb1.m_active := SF.2.2.2.1
    have F8 : hb2.m_passive = hb1.m_passive := SF.2.2.2.2.2.2.2
    have hInv2 : hb2.Inv9 := (Inv9_congr hb2 hb1 F1 F2 F3 F4 F8).2 hInv1
    cases b with
    | true =>
      refine ⟨hInv2, ?_⟩
      intro i hi x hx
      rw [F8] at hi hx
      exact Or.inr ⟨i, hi, hx⟩
    | false =>
      refine ⟨(Inv9_congr _ hb2 rfl rfl rfl rfl rfl).2 hInv2, ?_⟩
      intro i hi x hx
      have hi' : i < hb2.m_passive.m_passive.length := hi
      have hx' : hb2.m_passive.m_passive.getD i none = some x := hx
      rw [F8] at hi' hx'
      exact Or.inr ⟨i, hi', hx'⟩
  · rw [if_neg hz]
    have hoe : st.evalOf o ≠ 0 := hz
    exact passive_insert_inv9 hb1 o hInv1 ho1 ho2 ho3 hoe ho4

theorem PQWF_transport (s t : hilbert_basis)
    (hp : s.m_passive = t.m_passive)
    (hlen : t.m_store.length ≤ s.m_store.length)
    (hfree : ∀ x ∈ s.m_free_list, x ∈ t.m_free_list)
    (hact : s.m_active = t.m_active)
    (heval : ∀ o, o < t.m_store.length → o ∉ t.m_free_list → s.evalOf o = t.evalOf o)
    (h : t.PQWF) : s.PQWF := by
  obtain ⟨p1, p2, p3, p4, p5, p6⟩ := h
  refine ⟨by rw [hp]; exact p1, by rw [hp]; exact p2, by rw [hp]; exact p3,
    by rw [hp]; exact p4, by rw [hp]; exact p5, ?_⟩
  intro i hi o ho
  rw [hp] at hi ho
  obtain ⟨l1, l2, l3, l4⟩ := p6 i hi o ho
  refine ⟨lt_of_lt_of_le l1 hlen, fun hc => l2 (hfree o hc), ?_, ?_⟩
  · rw [heval o l1 l2]
    exact l3
  · rw [hact]
    exact l4

theorem resolve_step_inv9 (st : hilbert_basis) (idx a : Nat) (hInv : st.Inv9)
    (hidx : idx < st.m_store.length) (hidxF : idx ∉ st.m_free_list)
    (hnotin : ∀ i, i < st.m_passive.m_passive.length →
      st.m_passive.m_passive.getD i none ≠ some idx) :
    (st.resolve_step idx a).Inv9 ∧
    (st.resolve_step idx a).m_active = st.m_active ∧
    st.m_store.length ≤ (st.resolve_step idx a).m_store.length ∧
    (∀ x ∈ (st.resolve_step idx a).m_free_list, x ∈ st.m_free_list) ∧
    (∀ o, o < st.m_store.length → o ∉ st.m_free_list →
      (st.resolve_step idx a).evalOf o = st.evalOf o) ∧
    (∀ i, i < (st.resolve_step idx a).m_passive.m_passive.length →
      (st.resolve_step idx a).m_passive.m_passive.getD i none ≠ some idx) := by
  by_cases hsign : st.get_sign idx = st.get_sign a
  · have hstep : st.resolve_step idx a = st := by
      unfold hilbert_basis.resolve_step
      rw [if_neg (not_not_intro hsign)]
    rw [hstep]
    exact ⟨hInv, rfl, le_refl _, fun x hx => hx, fun o _ _ => rfl,
      fun i hi => hnotin i hi⟩
  · have hE := hInv.1
    have hFN := hInv.2.1
    have hF := hInv.2.2.1
    have hAct := hInv.2.2.2.1
    have hPQ := hInv.2.2.2.2
    cases halloc : st.alloc_vector with
    | mk j st1 =>
    have AS := alloc_vector_spec st hE hFN hF
    rw [halloc] at AS
    have A1 : j < st1.m_store.length := AS.1
    have A2 : j ∉ st1.m_free_list := AS.2.1
    have A3 : ∀ x ∈ st1.m_free_list, x ∈ st.m_free_list := AS.2.2.1
    have A4 : st1.m_free_list.Nodup := AS.2.2.2.1
    have A5 : st1.m_eval.length = st1.m_store.length := AS.2.2.2.2.1
    have A6 : st.m_store.length ≤ st1.m_store.length := AS.2.2.2.2.2.1
    have A7 : ∀ o, o < st.m_store.length →
        st1.vec o = st.vec o ∧ st1.evalOf o = st.evalOf o := AS.2.2.2.2.2.2.1
    have A8 : j ∈ st.m_free_list ∨ j = st.m_store.length := AS.2.2.2.2.2.2.2.1
    have A10 : st1.m_active = st.m_active := AS.2.2.2.2.2.2.2.2.2.1
    have PPF := (alloc_vector_frame st).2.2.2.2.2
    rw [halloc] at PPF
    have hPP1 : st1.m_passive = st.m_passive := PPF
    set st2 : hilbert_basis := st1.resolve idx a j with hst2
    have hstep : st.resolve_step idx a = st2.add_goal j := by
      unfold hilbert_basis.resolve_step
      rw [if_pos hsign, halloc]
    rw [hstep]
    have R3 : ∀ o, o ≠ j → st2.vec o = st1.vec o ∧ st2.evalOf o = st1.evalOf o :=
      (resolve_spec st1 idx a j A1 A5).2.2.1
    have R4 : st2.m_store.length = st1.m_store.length :=
      (resolve_spec st1 idx a j A1 A5).2.2.2.1
    have R5 : st2.m_eval.length = st1.m_eval.length :=
      (resolve_spec st1 idx a j A1 A5).2.2.2.2
    have RF1 : st2.m_free_list = st1.m_free_list := (resolve_frame st1 idx a j).1
    have RF2 : st2.m_active = st1.m_active := (resolve_frame st1 idx a j).2.1
    have hPP2 : st2.m_passive = st.m_passive := by
      rw [(resolve_frame st1 idx a j).2.2.2.2.2.2, hPP1]
    have hlen2 : st.m_store.length ≤ st2.m_store.length := by
      rw [R4]; exact A6
    have hfree2 : ∀ x ∈ st2.m_free_list, x ∈ st.m_free_list := by
      intro x hx
      rw [RF1] at hx
      exact A3 x hx
    have hact2 : st2.m_active = st.m_active := by rw [RF2, A10]
    have heval2 : ∀ o, o < st.m_store.length → o ∉ st.m_free_list →
        st2.evalOf o = st.evalOf o := by
      intro o ho hof
      have hoj : o ≠ j := by
        rcases A8 with hm | hl
        · exact fun hc => hof (hc ▸ hm)
        · omega
      rw [(R3 o hoj).2, (A7 o ho).2]
    have hInv2 : st2.Inv9 := by
      refine ⟨by rw [R5, R4]; exact A5, by rw [RF1]; exact A4, ?_, ?_,
        PQWF_transport st2 st hPP2 hlen2 hfree2 hact2 heval2 hPQ⟩
      · intro x hx
        rw [RF1] at hx
        rw [R4]
        exact lt_of_lt_of_le (hF x (A3 x hx)) A6
      · intro x hx
        rw [hact2] at hx
        obtain ⟨l1, l2, l3⟩ := hAct x hx
        refine ⟨lt_of_lt_of_le l1 hlen2, fun hc => l2 (hfree2 x hc), ?_⟩
        rw [heval2 x l1 l2]
        exact l3
    have hjidx : j ≠ idx := by
      rcases A8 with hm | hl
      · exact fun hc => hidxF (hc ▸ hm)
      · omega
    have hj1 : j < st2.m_store.length := by rw [R4]; exact A1
    have hj2 : j ∉ st2.m_free_list := by rw [RF1]; exact A2
    have hj3 : j ∉ st2.m_active := by
      rw [hact2]
      intro hmem
      obtain ⟨l1, l2, -⟩ := hAct j hmem
      rcases A8 with hm | hl
      · exact l2 hm
      · omega
    have hj4 : ∀ i, i < st2.m_passive.m_passive.length →
        st2.m_passive.m_passive.getD i none ≠ some j := by
      intro i hi hc
      rw [hPP2] at hi hc
      obtain ⟨l1, l2, -, -⟩ := hPQ.2.2.2.2.2 i hi j hc
      rcases A8 with hm | hl
      · exact l2 hm
      · omega
    obtain ⟨G1, G2⟩ := add_goal_inv9 st2 j hInv2 hj1 hj2 hj3 hj4
    have AGE : (st2.add_goal j).m_eval = st2.m_eval := (add_goal_frame st2 j).2.1
    have AGS : (st2.add_goal j).m_store = st2.m_store := (add_goal_frame st2 j).1
    have AGF : (st2.add_goal j).m_free_list = st2.m_free_list :=
      (add_goal_frame st2 j).2.2.1
    have AGA : (st2.add_goal j).m_active = st2.m_active := (add_goal_frame st2 j).2.2.2.1
    refine ⟨G1, by rw [AGA, hact2], by rw [AGS]; exact hlen2, ?_, ?_, ?_⟩
    · intro x hx
      rw [AGF] at hx
      exact hfree2 x hx
    · intro o ho hof
      have : (st2.add_goal j).evalOf o = st2.evalOf o := by
        unfold hilbert_basis.evalOf
        rw [AGE]
      rw [this, heval2 o ho hof]
    · intro i hi hc
      rcases G2 i hi idx hc with hji | ⟨i', hi', hsl⟩
      · exact hjidx hji.symm
      · rw [hPP2] at hi' hsl
        exact hnotin i' hi' hsl

theorem resolve_fold_inv9 (idx : Nat) (l : List Nat) (st : hilbert_basis)
    (hInv : st.Inv9)
    (hidx : idx < st.m_store.length) (hidxF : idx ∉ st.m_free_list)
    (hnotin : ∀ i, i < st.m_passive.m_passive.length →
      st.m_passive.m_passive.getD i none ≠ some idx) :
    (hilbert_basis.resolve_fold idx l st).Inv9 ∧
    (hilbert_basis.resolve_fold idx l st).m_active = st.m_active ∧
    st.m_store.length ≤ (hilbert_basis.resolve_fold idx l st).m_store.length ∧
    (∀ x ∈ (hilbert_basis.resolve_fold idx l st).m_free_list, x ∈ st.m_free_list) ∧
    (∀ o, o < st.m_store.length → o ∉ st.m_free_list →
      (hilbert_basis.resolve_fold idx l st).evalOf o = st.evalOf o) ∧
    (∀ i, i < (hilbert_basis.resolve_fold idx l st).m_passive.m_passive.length →
      (hilbert_basis.resolve_fold idx l st).m_passive.m_passive.getD i none
        ≠ some idx) := by
  induction l generalizing st with
  | nil =>
    exact ⟨hInv, rfl, le_refl _, fun x hx => hx, fun o _ _ => rfl,
      fun i hi => hnotin i hi⟩
  | cons a t ih =>
    rw [resolve_fold_cons]
    obtain ⟨S1, S2, S3, S4, S5, S6⟩ := resolve_step_inv9 st idx a hInv hidx hidxF hnotin
    have hidx' : idx < (st.resolve_step idx a).m_store.length := lt_of_lt_of_le hidx S3
    have hidxF' : idx ∉ (st.resolve_step idx a).m_free_list :=
      fun hc => hidxF (S4 idx hc)
    obtain ⟨I1, I2, I3, I4, I5, I6⟩ := ih (st.resolve_step idx a) S1 hidx' hidxF' S6
    refine ⟨I1, by rw [I2, S2], le_trans S3 I3, fun x hx => S4 x (I4 x hx), ?_, I6⟩
    intro o ho hof
    have ho' : o < (st.resolve_step idx a).m_store.length := lt_of_lt_of_le ho S3
    have hof' : o ∉ (st.resolve_step idx a).m_free_list := fun hc => hof (S4 o hc)
    rw [I5 o ho' hof', S5 o ho hof]

theorem heapEraseMin_erase (weights : List numeral) (heap : List Nat) (hne : heap ≠ []) :
    (heapEraseMin weights heap).2 = heap.erase (heapEraseMin weights heap).1 := by
  cases heap with
  | nil => exact absurd rfl hne
  | cons h t => rfl

theorem is_subsumed_inv9 (hb : hilbert_basis) (o : Nat) (h : hb.Inv9) :
    ((hb.is_subsumed o).2).Inv9 := by
  have SF := is_subsumed_frame hb o
  exact (Inv9_congr _ hb SF.1 SF.2.1 SF.2.2.1 SF.2.2.2.1 SF.2.2.2.2.2.2.2).2 h

theorem recycle_inv9 (hb : hilbert_basis) (o : Nat) (hInv : hb.Inv9)
    (ho1 : o < hb.m_store.length) (ho2 : o ∉ hb.m_free_list) (ho3 : o ∉ hb.m_active)
    (hnotin : ∀ i, i < hb.m_passive.m_passive.length →
      hb.m_passive.m_passive.getD i none ≠ some o) :
    (hb.recycle o).Inv9 := by
  obtain ⟨hE, hFN, hF, hAct, hP1, hP2, hP3, hP4, hP5, hP6⟩ := hInv
  refine ⟨hE, nodup_concat _ _ hFN ho2, ?_, ?_, hP1, hP2, hP3, hP4, hP5, ?_⟩
  · intro x hx
    rcases List.mem_append.1 hx with hx | hx
    · exact hF x hx
    · exact List.mem_singleton.1 hx ▸ ho1
  · intro x hx
    obtain ⟨l1, l2, l3⟩ := hAct x hx
    refine ⟨l1, ?_, l3⟩
    intro hc
    rcases List.mem_append.1 hc with hc | hc
    · exact l2 hc
    · exact ho3 (List.mem_singleton.1 hc ▸ hx)
  · intro i hi x hx
    obtain ⟨l1, l2, l3, l4⟩ := hP6 i hi x hx
    refine ⟨l1, ?_, l3, l4⟩
    intro hc
    rcases List.mem_append.1 hc with hc | hc
    · exact l2 hc
    · exact hnotin i hi (List.mem_singleton.1 hc ▸ hx)

theorem passive_pop_inv9 (hb : hilbert_basis) (hInv : hb.Inv9)
    (hne : hb.m_passive.heap ≠ []) :
    (hb.passive_pop).2.Inv9 ∧
    (hb.passive_pop).1 < hb.m_store.length ∧
    (hb.passive_pop).1 ∉ hb.m_free_list ∧
    hb.evalOf (hb.passive_pop).1 ≠ 0 ∧
    (hb.passive_pop).1 ∉ hb.m_active ∧
    (∀ i, i < (hb.passive_pop).2.m_passive.m_passive.length →
      (hb.passive_pop).2.m_passive.m_passive.getD i none ≠ some (hb.passive_pop).1) := by
  obtain ⟨hE, hFN, hF, hAct, hP1, hP2, hP3, hP4, hP5, hP6⟩ := hInv
  have hvm := (heapEraseMin_spec hb.m_passive.m_weights hb.m_passive.heap hne).1
  have herase := heapEraseMin_erase hb.m_passive.m_weights hb.m_passive.heap hne
  cases heq : heapEraseMin hb.m_passive.m_weights hb.m_passive.heap with
  | mk val heap' =>
  rw [heq] at hvm herase
  have hval : val ∈ hb.m_passive.heap := hvm
  have hheap' : heap' = hb.m_passive.heap.erase val := herase
  obtain ⟨hvlt, hvsome⟩ := hP2 val hval
  cases hslot : hb.m_passive.m_passive.getD val none with
  | none => rw [hslot] at hvsome; simp at hvsome
  | some o0 =>
  have hpeq : hb.passive_pop = (o0,
      { hb with m_passive :=
        { m_passive := hb.m_passive.m_passive.set val none,
          m_weights := hb.m_passive.m_weights,
          m_free_list := hb.m_passive.m_free_list ++ [val],
          heap := heap' } }) := by
    simp only [hilbert_basis.passive_pop]
    rw [heq, hslot]
    rfl
  obtain ⟨f1, f2, f3, f4⟩ := hP6 val hvlt o0 hslot
  have hvalfree : val ∉ hb.m_passive.m_free_list := by
    intro hc
    have := (hP4 val hc).2
    rw [hslot] at this
    exact Option.noConfusion this
  have hvalerase : val ∉ hb.m_passive.heap.erase val := List.Nodup.not_mem_erase hP1
  rw [hpeq]
  refine ⟨⟨hE, hFN, hF, hAct, ?_, ?_, ?_, ?_, ?_, ?_⟩, f1, f2, f3, f4, ?_⟩
  · -- heap nodup
    show heap'.Nodup
    rw [hheap']
    exact List.Nodup.erase val hP1
  · -- heap ids point at filled slots
    intro id hid
    have hid' : id ∈ hb.m_passive.heap.erase val := by rw [hheap'] at hid; exact hid
    have hidh : id ∈ hb.m_passive.heap := List.mem_of_mem_erase hid'
    have hidv : val ≠ id := by
      intro hc
      exact hvalerase (hc ▸ hid')
    obtain ⟨l1, l2⟩ := hP2 id hidh
    refine ⟨by simpa using l1, ?_⟩
    rw [getD_set_other _ _ _ _ _ hidv]
    exact l2
  · -- internal free nodup
    exact nodup_concat _ _ hP3 hvalfree
  · -- internal free slots empty
    intro v hv
    rcases List.mem_append.1 hv with hv | hv
    · obtain ⟨l1, l2⟩ := hP4 v hv
      have hvv : val ≠ v := fun hc => hvalfree (hc ▸ hv)
      refine ⟨by simpa using l1, ?_⟩
      rw [getD_set_other _ _ _ _ _ hvv]
      exact l2
    · have hvv : v = val := List.mem_singleton.1 hv
      subst hvv
      exact ⟨by simpa using hvlt, getD_set_self _ _ _ _ hvlt⟩
  · -- slot distinctness
    intro i hi j hj x hxi hxj
    have hi' : i < hb.m_passive.m_passive.length := by simpa using hi
    have hj' : j < hb.m_passive.m_passive.length := by simpa using hj
    have hiv : val ≠ i := by
      intro hc
      rw [← hc, getD_set_self _ _ _ _ hvlt] at hxi
      exact Option.noConfusion hxi
    have hjv : val ≠ j := by
      intro hc
      rw [← hc, getD_set_self _ _ _ _ hvlt] at hxj
      exact Option.noConfusion hxj
    rw [getD_set_other _ _ _ _ _ hiv] at hxi
    rw [getD_set_other _ _ _ _ _ hjv] at hxj
    exact hP5 i hi' j hj' x hxi hxj
  · -- queued offsets live
    intro i hi x hx
    have hi' : i < hb.m_passive.m_passive.length := by simpa using hi
    have hiv : val ≠ i := by
      intro hc
      rw [← hc, getD_set_self _ _ _ _ hvlt] at hx
      exact Option.noConfusion hx
    rw [getD_set_other _ _ _ _ _ hiv] at hx
    exact hP6 i hi' x hx
  · -- the popped offset is gone from the slots
    intro i hi hc
    have hi' : i < hb.m_passive.m_passive.length := by simpa using hi
    have hiv : val ≠ i := by
      intro hcc
      rw [← hcc, getD_set_self _ _ _ _ hvlt] at hc
      exact Option.noConfusion hc
    rw [getD_set_other _ _ _ _ _ hiv] at hc
    exact hiv (hP5 val hvlt i hi' o0 hslot hc)

/-- Claim C9: every offset in the active set has a strictly nonzero
evaluation (the active clause of `Inv9`): `add_goal` routes a
zero-evaluation vector into the zero list (or drops it when subsumed) and
never into the passive queue, and the invariant — active offsets live and of
nonzero evaluation, passive queue well-formed — is preserved by the drain
step, which populates the active set only with passive pops; consequently
every resolution (a popped offset against an opposite-sign active one) pairs
a vector of strictly positive evaluation with one of strictly negative
evaluation. -/
theorem active_nonzero_eval (hb : hilbert_basis)
    (hInv : hb.Inv9) (hne : hb.m_passive.heap ≠ []) :
    (∀ o, hb.evalOf o = 0 →
      (hb.add_goal o).m_passive = hb.m_passive ∧
      ((hb.add_goal o).m_zero = hb.m_zero ++ [o] ∨
        (hb.add_goal o).m_zero = hb.m_zero)) ∧
    (hb.drainStep).Inv9 ∧
    (∀ a ∈ hb.m_active, hb.get_sign (hb.passive_pop).1 ≠ hb.get_sign a →
      (0 < hb.evalOf (hb.passive_pop).1 ∧ hb.evalOf a < 0) ∨
      (hb.evalOf (hb.passive_pop).1 < 0 ∧ 0 < hb.evalOf a)) := by
  obtain ⟨PInv, pl, pf, pe, pa, pn⟩ := passive_pop_inv9 hb hInv hne
  refine ⟨fun o h0 => add_goal_zero hb o h0, ?_, ?_⟩
  · cases hpop : hb.passive_pop with
    | mk idx hb1 =>
    rw [hpop] at PInv pl pf pe pa pn
    have PInv' : hb1.Inv9 := PInv
    have pl' : idx < hb.m_store.length := pl
    have pf' : idx ∉ hb.m_free_list := pf
    have pe' : hb.evalOf idx ≠ 0 := pe
    have pa' : idx ∉ hb.m_active := pa
    have pn' : ∀ i, i < hb1.m_passive.m_passive.length →
        hb1.m_passive.m_passive.getD i none ≠ some idx := pn
    have PF := passive_pop_frame hb
    rw [hpop] at PF
    have P1 : hb1.m_store = hb.m_store := PF.1
    have P2 : hb1.m_eval = hb.m_eval := PF.2.1
    have P3 : hb1.m_free_list = hb.m_free_list := PF.2.2.1
    have P4 : hb1.m_active = hb.m_active := PF.2.2.2.1
    cases hsub : hb1.is_subsumed idx with
    | mk b hb2 =>
    have SF := is_subsumed_frame hb1 idx
    rw [hsub] at SF
    have S1 : hb2.m_store = hb1.m_store := SF.1
    have S2 : hb2.m_eval = hb1.m_eval := SF.2.1
    have S3 : hb2.m_free_list = hb1.m_free_list := SF.2.2.1
    have S4 : hb2.m_active = hb1.m_active := SF.2.2.2.1
    have S8 : hb2.m_passive = hb1.m_passive := SF.2.2.2.2.2.2.2
    have hInv2 : hb2.Inv9 := by
      have := is_subsumed_inv9 hb1 idx PInv'
      rw [hsub] at this
      exact this
    have pl2 : idx < hb2.m_store.length := by rw [S1, P1]; exact pl'
    have pf2 : idx ∉ hb2.m_free_list := by rw [S3, P3]; exact pf'
    have pa2 : idx ∉ hb2.m_active := by rw [S4, P4]; exact pa'
    have pn2 : ∀ i, i < hb2.m_passive.m_passive.length →
        hb2.m_passive.m_passive.getD i none ≠ some idx := by
      intro i hi hc
      rw [S8] at hi hc
      exact pn' i hi hc
    have he2 : hb2.evalOf idx = hb.evalOf idx := by
      unfold hilbert_basis.evalOf
      rw [S2, P2]
    cases b with
    | true =>
      have hds : hb.drainStep = hb2.recycle idx := by
        unfold hilbert_basis.drainStep
        rw [hpop]
        show (match hb1.is_subsumed idx with
              | (true, hb2') => hb2'.recycle idx
              | (false, hb2') =>
                let hb3 := hb2'.resolve_all idx
                { hb3 with m_active := hb3.m_active ++ [idx] }) = hb2.recycle idx
        rw [hsub]
      rw [hds]
      exact recycle_inv9 hb2 idx hInv2 pl2 pf2 pa2 pn2
    | false =>
      have hds : hb.drainStep = { hb2.resolve_all idx with
          m_active := (hb2.resolve_all idx).m_active ++ [idx] } := by
        unfold hilbert_basis.drainStep
        rw [hpop]
        show (match hb1.is_subsumed idx with
              | (true, hb2') => hb2'.recycle idx
              | (false, hb2') =>
                let hb3 := hb2'.resolve_all idx
                { hb3 with m_active := hb3.m_active ++ [idx] })
            = { hb2.resolve_all idx with
                m_active := (hb2.resolve_all idx).m_active ++ [idx] }
        rw [hsub]
      rw [hds]
      obtain ⟨I1, I2, I3, I4, I5, I6⟩ :=
        resolve_fold_inv9 idx hb2.m_active hb2 hInv2 pl2 pf2 pn2
      obtain ⟨oE, oFN, oF, oAct, oPQ⟩ := I1
      refine ⟨oE, oFN, oF, ?_, ?_⟩
      · intro x hx
        have hx' : x ∈ (hilbert_basis.resolve_fold idx hb2.m_active hb2).m_active
            ++ [idx] := hx
        rcases List.mem_append.1 hx' with hxm | hxm
        · exact oAct x hxm
        · have hxi : x = idx := List.mem_singleton.1 hxm
          subst hxi
          refine ⟨lt_of_lt_of_le pl2 I3, fun hc => pf2 (I4 x hc), ?_⟩
          show (hilbert_basis.resolve_fold x hb2.m_active hb2).evalOf x ≠ 0
          rw [I5 x pl2 pf2, he2]
          exact pe'
      · obtain ⟨q1, q2, q3, q4, q5, q6⟩ := oPQ
        refine ⟨q1, q2, q3, q4, q5, ?_⟩
        intro i hi x hx
        obtain ⟨l1, l2, l3, l4⟩ := q6 i hi x hx
        refine ⟨l1, l2, l3, ?_⟩
        intro hc
        have hc' : x ∈ (hilbert_basis.resolve_fold idx hb2.m_active hb2).m_active
            ++ [idx] := hc
        rcases List.mem_append.1 hc' with hcm | hcm
        · exact l4 hcm
        · exact I6 i hi (List.mem_singleton.1 hcm ▸ hx)
  · intro a ha hs
    obtain ⟨-, -, l3⟩ := hInv.2.2.2.1 a ha
    rcases lt_trichotomy (hb.evalOf (hb.passive_pop).1) 0 with h1 | h1 | h1
    · rcases lt_trichotomy (hb.evalOf a) 0 with h2 | h2 | h2
      · exact absurd (by rw [get_sign_neg hb _ h1, get_sign_neg hb _ h2]) hs
      · exact absurd h2 l3
      · exact Or.inr ⟨h1, h2⟩
    · exact absurd h1 pe
    · rcases lt_trichotomy (hb.evalOf a) 0 with h2 | h2 | h2
      · exact Or.inl ⟨h1, h2⟩
      · exact absurd h2 l3
      · exact absurd (by rw [get_sign_pos hb _ h1, get_sign_pos hb _ h2]) hs

theorem active_nonzero_eval_witness :
    c5st.Inv9 ∧ c5st.m_passive.heap ≠ [] ∧
    ((∀ o, c5st.evalOf o = 0 →
      (c5st.add_goal o).m_passive = c5st.m_passive ∧
      ((c5st.add_goal o).m_zero = c5st.m_zero ++ [o] ∨
        (c5st.add_goal o).m_zero = c5st.m_zero)) ∧
    (c5st.drainStep).Inv9 ∧
    (∀ a ∈ c5st.m_active, c5st.get_sign (c5st.passive_pop).1 ≠ c5st.get_sign a →
      (0 < c5st.evalOf (c5st.passive_pop).1 ∧ c5st.evalOf a < 0) ∨
      (c5st.evalOf (c5st.passive_pop).1 < 0 ∧ 0 < c5st.evalOf a))) :=
  ⟨by decide, by decide, active_nonzero_eval c5st (by decide) (by decide)⟩

/-! ## The Unsat condition of `saturate()` (claim C4) -/

theorem seed_step_frame (ineq : List numeral) (acc : hilbert_basis × Bool) (v : Nat) :
    (hilbert_basis.seed_step ineq acc v).1.m_store = acc.1.m_store ∧
    (hilbert_basis.seed_step ineq acc v).1.m_ineqs = acc.1.m_ineqs ∧
    (hilbert_basis.seed_step ineq acc v).2
      = (acc.2 || decide (0 ≤ hilbert_basis.evalDot acc.1.get_num_vars (acc.1.vec v) ineq)) := by
  refine ⟨?_, ?_, rfl⟩
  · show ((_ : hilbert_basis).add_goal v).m_store = acc.1.m_store
    rw [(add_goal_frame _ v).1]
  · show ((_ : hilbert_basis).add_goal v).m_ineqs = acc.1.m_ineqs
    rw [(add_goal_frame _ v).2.2.2.2.2]

theorem seed_fold_spec (ineq : List numeral) (l : List Nat) (acc : hilbert_basis × Bool) :
    (l.foldl (hilbert_basis.seed_step ineq) acc).1.m_store = acc.1.m_store ∧
    (l.foldl (hilbert_basis.seed_step ineq) acc).1.m_ineqs = acc.1.m_ineqs ∧
    ((l.foldl (hilbert_basis.seed_step ineq) acc).2 = true ↔
      acc.2 = true ∨ ∃ v ∈ l,
        0 ≤ hilbert_basis.evalDot acc.1.get_num_vars (acc.1.vec v) ineq) := by
  induction l generalizing acc with
  | nil => exact ⟨rfl, rfl, by simp⟩
  | cons v t ih =>
    obtain ⟨hs0, hi0, hb0⟩ := seed_step_frame ineq acc v
    obtain ⟨hs, hi, hiff⟩ := ih (hilbert_basis.seed_step ineq acc v)
    have hED : ∀ w : Nat,
        hilbert_basis.evalDot (hilbert_basis.seed_step ineq acc v).1.get_num_vars
          ((hilbert_basis.seed_step ineq acc v).1.vec w) ineq
        = hilbert_basis.evalDot acc.1.get_num_vars (acc.1.vec w) ineq := by
      intro w
      have h1 : (hilbert_basis.seed_step ineq acc v).1.get_num_vars
          = acc.1.get_num_vars := num_vars_congr _ _ hi0
      have h2 : (hilbert_basis.seed_step ineq acc v).1.vec w = acc.1.vec w := by
        unfold hilbert_basis.vec
        rw [hs0]
      rw [h1, h2]
    refine ⟨hs.trans hs0, hi.trans hi0, ?_⟩
    rw [List.foldl_cons, hiff, hb0]
    constructor
    · intro h
      rcases h with h | ⟨w, hw, hle⟩
      · rcases Bool.or_eq_true_iff.1 h with h | h
        · exact Or.inl h
        · exact Or.inr ⟨v, List.mem_cons_self v t, of_decide_eq_true h⟩
      · rw [hED w] at hle
        exact Or.inr ⟨w, List.mem_cons_of_mem v hw, hle⟩
    · intro h
      rcases h with h | ⟨w, hw, hle⟩
      · exact Or.inl (Bool.or_eq_true_iff.2 (Or.inl h))
      · rcases List.mem_cons.1 hw with hw | hw
        · exact Or.inl (Bool.or_eq_true_iff.2 (Or.inr (decide_eq_true (hw ▸ hle))))
        · refine Or.inr ⟨w, hw, ?_⟩
          rw [hED w]
          exact hle

theorem saturate_ineq_false_iff (fuel : Nat) (hb : hilbert_basis) (ineq : List numeral) :
    (∃ st', hb.saturate_ineq fuel ineq = some (lbool.l_false, st')) ↔
    (∀ v ∈ hb.m_basis, hilbert_basis.evalDot hb.get_num_vars (hb.vec v) ineq < 0) := by
  set hb0 : hilbert_basis :=
    { hb with m_active := ([] : List Nat), m_passive := hb_passive.empty,
              m_zero := ([] : List Nat), m_index := hb.m_index.reset } with hb0def
  have hsr : hb.seed_round ineq
      = hb0.m_basis.foldl (hilbert_basis.seed_step ineq) (hb0, false) := rfl
  have hsf := seed_fold_spec ineq hb0.m_basis (hb0, false)
  have hiff0 : (hb.seed_round ineq).2 = true ↔
      ∃ v ∈ hb.m_basis, 0 ≤ hilbert_basis.evalDot hb.get_num_vars (hb.vec v) ineq := by
    constructor
    · intro hh
      rw [hsr] at hh
      rcases hsf.2.2.1 hh with hf | hex
      · exact absurd hf (by simp)
      · exact hex
    · intro hex
      rw [hsr]
      exact hsf.2.2.2 (Or.inr hex)
  cases hseed : hb.seed_round ineq with
  | mk hb1 hnn =>
  rw [hseed] at hiff0
  have hiff1 : hnn = true ↔
      ∃ v ∈ hb.m_basis, 0 ≤ hilbert_basis.evalDot hb.get_num_vars (hb.vec v) ineq := hiff0
  cases hnn with
  | false =>
    have heqF : hb.saturate_ineq fuel ineq = some (lbool.l_false, hb1) := by
      unfold hilbert_basis.saturate_ineq
      rw [hseed]
      rfl
    rw [heqF]
    constructor
    · intro _ v hv
      by_contra hcon
      have h01 : (false : Bool) = true := hiff1.2 ⟨v, hv, not_lt.1 hcon⟩
      simp at h01
    · intro _
      exact ⟨hb1, rfl⟩
  | true =>
    have heqT : hb.saturate_ineq fuel ineq =
        (match hilbert_basis.drainLoop fuel hb1 with
         | none => none
         | some (drain_result.cancelled hb2) => some (lbool.l_undef, hb2)
         | some (drain_result.drained hb2) => some (lbool.l_true, hb2.finalize)) := by
      unfold hilbert_basis.saturate_ineq
      rw [hseed]
      rfl
    rw [heqT]
    constructor
    · rintro ⟨st', hst'⟩
      exfalso
      cases hdl : hilbert_basis.drainLoop fuel hb1 with
      | none =>
        rw [hdl] at hst'
        exact Option.noConfusion hst'
      | some dr =>
        cases dr with
        | cancelled hb2 =>
          rw [hdl] at hst'
          have h2 := Option.some.inj hst'
          exact lbool.noConfusion (congrArg Prod.fst h2)
        | drained hb2 =>
          rw [hdl] at hst'
          have h2 := Option.some.inj hst'
          exact lbool.noConfusion (congrArg Prod.fst h2)
    · intro hall
      obtain ⟨v, hv, hle⟩ := hiff1.1 rfl
      exact absurd (hall v hv) (not_lt.2 hle)

theorem saturateList_true_cancel (fuel : Nat) (l : List (List numeral)) :
    ∀ (hb st : hilbert_basis),
      hb.saturateList fuel l = some (lbool.l_true, st) → st.m_cancel = false := by
  induction l with
  | nil =>
    intro hb st h
    by_cases hc : hb.m_cancel
    · unfold hilbert_basis.saturateList at h
      rw [if_pos hc] at h
      exact lbool.noConfusion (congrArg Prod.fst (Option.some.inj h))
    · unfold hilbert_basis.saturateList at h
      rw [if_neg hc] at h
      have h2 : hb = st := congrArg Prod.snd (Option.some.inj h)
      rw [← h2]
      exact Bool.of_not_eq_true hc
  | cons i t ih =>
    intro hb st h
    by_cases hc : hb.m_cancel
    · unfold hilbert_basis.saturateList at h
      rw [if_pos hc] at h
      exact lbool.noConfusion (congrArg Prod.fst (Option.some.inj h))
    · unfold hilbert_basis.saturateList at h
      rw [if_neg hc] at h
      cases hsi : hb.saturate_ineq fuel i with
      | none =>
        rw [hsi] at h
        exact Option.noConfusion h
      | some p =>
        cases p with
        | mk r hb2 =>
        rw [hsi] at h
        cases r with
        | l_true =>
          have h3 : hb2.saturateList fuel t = some (lbool.l_true, st) := h
          exact ih hb2 st h3
        | l_false =>
          have h3 : (some (lbool.l_false, hb2) : Option (lbool × hilbert_basis))
              = some (lbool.l_true, st) := h
          exact lbool.noConfusion (congrArg Prod.fst (Option.some.inj h3))
        | l_undef =>
          have h3 : (some (lbool.l_undef, hb2) : Option (lbool × hilbert_basis))
              = some (lbool.l_true, st) := h
          exact lbool.noConfusion (congrArg Prod.fst (Option.some.inj h3))

theorem saturateList_nil (fuel : Nat) (hb : hilbert_basis) :
    hb.saturateList fuel [] =
      if hb.m_cancel then some (lbool.l_undef, hb) else some (lbool.l_true, hb) := rfl

theorem saturateList_cons (fuel : Nat) (hb : hilbert_basis) (i : List numeral)
    (t : List (List numeral)) :
    hb.saturateList fuel (i :: t) =
      if hb.m_cancel then some (lbool.l_undef, hb)
      else
        match hb.saturate_ineq fuel i with
        | none => none
        | some (lbool.l_true, hb2) => hb2.saturateList fuel t
        | some (r, hb2) => some (r, hb2) := rfl

theorem saturateList_append (fuel : Nat) (l1 l2 : List (List numeral)) :
    ∀ hb : hilbert_basis, hb.saturateList fuel (l1 ++ l2) =
      (match hb.saturateList fuel l1 with
       | none => none
       | some (lbool.l_true, st) => st.saturateList fuel l2
       | some (lbool.l_false, st) => some (lbool.l_false, st)
       | some (lbool.l_undef, st) => some (lbool.l_undef, st)) := by
  induction l1 with
  | nil =>
    intro hb
    rw [List.nil_append, saturateList_nil]
    by_cases hc : hb.m_cancel
    · rw [if_pos hc]
      show hb.saturateList fuel l2 = some (lbool.l_undef, hb)
      cases l2 with
      | nil => rw [saturateList_nil, if_pos hc]
      | cons j t2 => rw [saturateList_cons, if_pos hc]
    · rw [if_neg hc]
  | cons i t ih =>
    intro hb
    rw [List.cons_append, saturateList_cons, saturateList_cons]
    by_cases hc : hb.m_cancel
    · rw [if_pos hc, if_pos hc]
    · rw [if_neg hc, if_neg hc]
      cases hsi : hb.saturate_ineq fuel i with
      | none => rfl
      | some p =>
        cases p with
        | mk r hb2 =>
        cases r with
        | l_true =>
          show hb2.saturateList fuel (t ++ l2) = _
          exact ih hb2
        | l_false => rfl
        | l_undef => rfl

theorem saturateList_false_split (fuel : Nat) (l : List (List numeral)) :
    ∀ (hb st' : hilbert_basis),
      hb.saturateList fuel l = some (lbool.l_false, st') →
      ∃ pre ineq post stk, l = pre ++ ineq :: post ∧
        hb.saturateList fuel pre = some (lbool.l_true, stk) ∧
        stk.saturate_ineq fuel ineq = some (lbool.l_false, st') := by
  induction l with
  | nil =>
    intro hb st' h
    rw [saturateList_nil] at h
    by_cases hc : hb.m_cancel
    · rw [if_pos hc] at h
      exact lbool.noConfusion (congrArg Prod.fst (Option.some.inj h))
    · rw [if_neg hc] at h
      exact lbool.noConfusion (congrArg Prod.fst (Option.some.inj h))
  | cons i t ih =>
    intro hb st' h
    rw [saturateList_cons] at h
    by_cases hc : hb.m_cancel
    · rw [if_pos hc] at h
      exact lbool.noConfusion (congrArg Prod.fst (Option.some.inj h))
    · rw [if_neg hc] at h
      cases hsi : hb.saturate_ineq fuel i with
      | none =>
        rw [hsi] at h
        exact Option.noConfusion h
      | some p =>
        cases p with
        | mk r hb2 =>
        rw [hsi] at h
        cases r with
        | l_true =>
          have h3 : hb2.saturateList fuel t = some (lbool.l_false, st') := h
          obtain ⟨pre, ineq, post, stk, hsp, hpre, hineq⟩ := ih hb2 st' h3
          refine ⟨i :: pre, ineq, post, stk, by rw [hsp]; rfl, ?_, hineq⟩
          rw [saturateList_cons, if_neg hc, hsi]
          exact hpre
        | l_false =>
          have h3 : (some (lbool.l_false, hb2) : Option (lbool × hilbert_basis))
              = some (lbool.l_false, st') := h
          have h4 : hb2 = st' := congrArg Prod.snd (Option.some.inj h3)
          refine ⟨[], i, t, hb, rfl, ?_, ?_⟩
          · rw [saturateList_nil, if_neg hc]
          · rw [hsi, h4]
        | l_undef =>
          have h3 : (some (lbool.l_undef, hb2) : Option (lbool × hilbert_basis))
              = some (lbool.l_false, st') := h
          exact lbool.noConfusion (congrArg Prod.fst (Option.some.inj h3))

theorem init_basis_step_ineqs (n : Nat) (st : hilbert_basis) (i : Nat) :
    (hilbert_basis.init_basis_step n st i).m_ineqs = st.m_ineqs := by
  unfold hilbert_basis.init_basis_step
  cases halloc : st.alloc_vector with
  | mk idx st1 =>
    have h := (alloc_vector_frame st).2.2.1
    rw [halloc] at h
    exact h

theorem init_basis_ineqs (hb : hilbert_basis) :
    (hb.init_basis).m_ineqs = hb.m_ineqs := by
  unfold hilbert_basis.init_basis
  have hgen : ∀ (l : List Nat) (st : hilbert_basis),
      (l.foldl (hilbert_basis.init_basis_step hb.get_num_vars) st).m_ineqs
        = st.m_ineqs := by
    intro l
    induction l with
    | nil => intro st; rfl
    | cons a t ih =>
      intro st
      rw [List.foldl_cons, ih, init_basis_step_ineqs]
  exact hgen _ _

/-- Claim C4: `saturate()` returns Unsat exactly when some inequality, taken
in declaration order — with all earlier inequalities processed to Sat and no
cancellation observed before that point (the prefix run ends in `l_true`) —
is evaluated negatively by every vector of the basis current at the start of
its round. -/
theorem saturate_unsat_iff (fuel : Nat) (hb : hilbert_basis) :
    (∃ st', hb.saturate fuel = some (lbool.l_false, st')) ↔
    (∃ pre ineq post stk,
      hb.m_ineqs = pre ++ ineq :: post ∧
      (hb.init_basis).saturateList fuel pre = some (lbool.l_true, stk) ∧
      ∀ v ∈ stk.m_basis,
        hilbert_basis.evalDot stk.get_num_vars (stk.vec v) ineq < 0) := by
  have hs : hb.saturate fuel
      = (hb.init_basis).saturateList fuel (hb.init_basis).m_ineqs := rfl
  constructor
  · rintro ⟨st', hst'⟩
    rw [hs] at hst'
    obtain ⟨pre, ineq, post, stk, hsp, hpre, hineq⟩ :=
      saturateList_false_split fuel (hb.init_basis).m_ineqs (hb.init_basis) st' hst'
    refine ⟨pre, ineq, post, stk, ?_, hpre, ?_⟩
    · rw [← init_basis_ineqs hb]
      exact hsp
    · exact (saturate_ineq_false_iff fuel stk ineq).1 ⟨st', hineq⟩
  · rintro ⟨pre, ineq, post, stk, hsp, hpre, hall⟩
    obtain ⟨st₁, hst₁⟩ := (saturate_ineq_false_iff fuel stk ineq).2 hall
    refine ⟨st₁, ?_⟩
    rw [hs]
    have hsp' : (hb.init_basis).m_ineqs = pre ++ ineq :: post := by
      rw [init_basis_ineqs hb]
      exact hsp
    rw [hsp', saturateList_append fuel pre (ineq :: post) (hb.init_basis), hpre]
    show stk.saturateList fuel (ineq :: post) = some (lbool.l_false, st₁)
    have hcstk : stk.m_cancel = false :=
      saturateList_true_cancel fuel pre (hb.init_basis) stk hpre
    have hcn : ¬ stk.m_cancel = true := by
      rw [hcstk]
      simp
    rw [saturateList_cons, if_neg hcn, hst₁]
